import Mathlib

/-!
# jigo: the lexical scanner (lex.go) and the scope resolver (context.go)

A shallow embedding of the two Go source files.

* Go strings are byte sequences: a string is a `List Nat` of byte values.
* A rune is an `Int`; `eof` is `-1` as in the source.
* `Pos` is Go's `int`; positions are `Nat` here. The only subtraction on a
  position is `backup`, which takes back the width that the `next` just before
  it added.
* The channel `items` is the list of items sent so far, in emission order.
* A state function returns the next state function, or nil: `Option stateFn`.
* Go code can panic (index out of range, slice bounds out of range) and a
  loop can run forever: every function that can do either returns a `Res`,
  and every loop takes its number of remaining iterations as fuel.
-/

namespace jigo

/-- The bytes of an ASCII string literal (one byte per character). -/
def bytes (s : String) : List Nat := s.toList.map Char.toNat

/-! ## lex.go: items -/

/-- Token kinds, in the order of the source's `iota` block. -/
inductive itemType
  | tokenAdd
  | tokenAssign
  | tokenColon
  | tokenComma
  | tokenDiv
  | tokenDot
  | tokenEq
  | tokenEqEq
  | tokenFloordiv
  | tokenGt
  | tokenGteq
  | tokenLbrace
  | tokenLbracket
  | tokenLparen
  | tokenLt
  | tokenLteq
  | tokenNot
  | tokenAnd
  | tokenOr
  | tokenNeq
  | tokenMod
  | tokenMul
  | tokenNe
  | tokenPipe
  | tokenPow
  | tokenRbrace
  | tokenRbracket
  | tokenRparen
  | tokenSemicolon
  | tokenSub
  | tokenTilde
  | tokenWhitespace
  | tokenFloat
  | tokenInteger
  | tokenName
  | tokenString
  | tokenOperator
  | tokenBlockBegin
  | tokenBlockEnd
  | tokenVariableBegin
  | tokenVariableEnd
  | tokenRawBegin
  | tokenRawEnd
  | tokenCommentBegin
  | tokenCommentEnd
  | tokenComment
  | tokenLinestatementBegin
  | tokenLinestatementEnd
  | tokenLinecommentBegin
  | tokenLinecommentEnd
  | tokenLinecomment
  | tokenText
  | tokenInitial
  | tokenEOF
  | tokenError
  | tokenBool
  deriving DecidableEq, Repr

open itemType

/-- The value of an item: a slice of the input, or the message `errorf`
builds with `fmt.Sprintf` from one of the source's five formats and its rune
arguments (the formatting itself is the standard library's and is kept
symbolic). -/
inductive itemVal
  /-- `l.input[l.start:l.pos]`, after `emit`'s replacement for strings -/
  | text (b : List Nat)
  /-- "Imbalanced delimiters, was not expecting %c" -/
  | imbalancedNotExpecting (r : Int)
  /-- "Imbalanced delimiters, expected %c, got %c" -/
  | imbalancedExpected (expect r : Int)
  /-- "bad character %#U" -/
  | badCharacter (r : Int)
  /-- "two dots in numeric token" -/
  | twoDots
  /-- "unclosed comment" -/
  | unclosedComment
  deriving DecidableEq, Repr

/-- A token or text string returned from the scanner. -/
structure item where
  typ : itemType
  pos : Nat
  val : itemVal
  deriving DecidableEq, Repr

/-- Operator precedence; 0 if the item is not an operator. -/
def item.precedence (i : item) : Int :=
  match i.typ with
  | tokenMul | tokenDiv | tokenFloordiv | tokenMod => 5
  | tokenAdd | tokenSub => 4
  | tokenEqEq | tokenNeq | tokenLt | tokenLteq | tokenGt | tokenGteq => 3
  | tokenAnd => 2
  | tokenOr => 1
  | _ => 0

/-! ## lex.go: the lexer -/

/-- The state functions of the scanner (`stateFn` values of the source). -/
inductive stateFn
  | lexText
  | lexBlock
  | lexInsideBlock
  | lexSpace
  | lexIdentifier
  | lexNumber
  | lexString
  | lexRawString
  | lexComment
  deriving DecidableEq, Repr

structure lexerCfg where
  BlockStartString : List Nat
  BlockEndString : List Nat
  VariableStartString : List Nat
  VariableEndString : List Nat
  CommentStartString : List Nat
  CommentEndString : List Nat
  deriving DecidableEq, Repr

/-- The state of the scanner. `name`, `filename` and `lastPos` serve error
reports and `lineNumber` only and are left out. -/
structure lexer where
  cfg : lexerCfg
  input : List Nat
  leftDelim : List Nat
  rightDelim : List Nat
  pos : Nat
  start : Nat
  width : Nat
  items : List item
  delimStack : List Int
  deriving DecidableEq, Repr

/-- What running a piece of Go code gives: a value, a run-time panic, or no
answer within the fuel. The two failures keep the lexer as it then was. -/
inductive Res (α : Type)
  | ok (a : α)
  | panic (l : lexer)
  | timeout (l : lexer)
  deriving DecidableEq, Repr

def Res.bind {α β : Type} (x : Res α) (f : α → Res β) : Res β :=
  match x with
  | .ok a => f a
  | .panic l => .panic l
  | .timeout l => .timeout l

instance : Monad Res where
  pure := Res.ok
  bind := Res.bind

def eof : Int := -1

/-- The rune `utf8.RuneError`. -/
def RuneError : Int := 0xFFFD

/-- Go's `utf8.DecodeRuneInString`: the first rune of `s` and its width in
bytes; `(RuneError, 1)` for an invalid encoding, `(RuneError, 0)` for the
empty string. Written out by the class of the first byte. -/
def DecodeRuneInString (s : List Nat) : Int × Nat :=
  match s with
  | [] => (RuneError, 0)
  | s0 :: t =>
    if s0 < 0x80 then ((s0 : Int), 1)
    else if s0 < 0xC2 then (RuneError, 1)
    else if s0 < 0xE0 then
      match t with
      | s1 :: _ =>
        if 0x80 ≤ s1 ∧ s1 ≤ 0xBF then
          (((s0 % 0x20 * 0x40 + s1 % 0x40 : Nat) : Int), 2)
        else (RuneError, 1)
      | _ => (RuneError, 1)
    else if s0 < 0xF0 then
      match t with
      | s1 :: s2 :: _ =>
        if (if s0 = 0xE0 then 0xA0 else 0x80) ≤ s1 ∧
            s1 ≤ (if s0 = 0xED then 0x9F else 0xBF) then
          if 0x80 ≤ s2 ∧ s2 ≤ 0xBF then
            (((s0 % 0x10 * 0x1000 + s1 % 0x40 * 0x40 + s2 % 0x40 : Nat) : Int), 3)
          else (RuneError, 1)
        else (RuneError, 1)
      | _ => (RuneError, 1)
    else if s0 < 0xF5 then
      match t with
      | s1 :: s2 :: s3 :: _ =>
        if (if s0 = 0xF0 then 0x90 else 0x80) ≤ s1 ∧
            s1 ≤ (if s0 = 0xF4 then 0x8F else 0xBF) then
          if 0x80 ≤ s2 ∧ s2 ≤ 0xBF then
            if 0x80 ≤ s3 ∧ s3 ≤ 0xBF then
              (((s0 % 0x08 * 0x40000 + s1 % 0x40 * 0x1000 + s2 % 0x40 * 0x40
                + s3 % 0x40 : Nat) : Int), 4)
            else (RuneError, 1)
          else (RuneError, 1)
        else (RuneError, 1)
      | _ => (RuneError, 1)
    else (RuneError, 1)

/-- The range tables `unicode.Letter` and `unicode.Digit` of Go's standard
library, consulted for runes above Latin-1 only. They are not part of this
repository and are a parameter of the embedding. -/
structure unicodeTables where
  Letter : Int → Bool
  Digit : Int → Bool

/-- Go's `unicode.IsLetter`: the Latin-1 letters are fixed, the range table
decides above them, and no negative rune is a letter. -/
def IsLetter (U : unicodeTables) (r : Int) : Bool :=
  if 0 ≤ r ∧ r ≤ 0xFF then
    (0x41 ≤ r ∧ r ≤ 0x5A) ∨ (0x61 ≤ r ∧ r ≤ 0x7A) ∨ r = 0xAA ∨ r = 0xB5 ∨ r = 0xBA
      ∨ (0xC0 ≤ r ∧ r ≤ 0xD6) ∨ (0xD8 ≤ r ∧ r ≤ 0xF6) ∨ (0xF8 ≤ r ∧ r ≤ 0xFF)
  else if 0xFF < r then U.Letter r
  else false

/-- Go's `unicode.IsDigit`. -/
def IsDigit (U : unicodeTables) (r : Int) : Bool :=
  if r ≤ 0xFF then 0x30 ≤ r ∧ r ≤ 0x39
  else U.Digit r

/-- Reports whether r is a space character. -/
def isSpace (r : Int) : Bool := r = 0x20 ∨ r = 0x09

/-- Reports whether r is an end-of-line character. -/
def isEndOfLine (r : Int) : Bool := r = 0x0D ∨ r = 0x0A

/-- Reports whether r is an alphabetic, digit, or underscore. -/
def isAlphaNumeric (U : unicodeTables) (r : Int) : Bool :=
  r = 0x5F ∨ IsLetter U r ∨ IsDigit U r

def isNumeric (U : unicodeTables) (r : Int) : Bool := IsDigit U r

/-- Go's `strings.HasPrefix`. -/
def HasPrefix (s p : List Nat) : Bool := p.isPrefixOf s

/-- Go's `strings.Index`: the index of the first instance of `sep` in `s`,
`none` for -1. -/
def Index (s sep : List Nat) : Option Nat :=
  if HasPrefix s sep then some 0
  else
    match s with
    | [] => none
    | _ :: t => (Index t sep).map (· + 1)

/-- The call strings.Replace(val, "\\\"", "\"", -1) of `emit`: every
backslash-quote pair, left to right, becomes a quote. -/
def ReplaceEscapedQuote : List Nat → List Nat
  | 0x5C :: 0x22 :: t => 0x22 :: ReplaceEscapedQuote t
  | b :: t => b :: ReplaceEscapedQuote t
  | [] => []

namespace lexer

/-- Returns the next rune in the input. -/
def next (l : lexer) : Int × lexer :=
  if l.pos ≥ l.input.length then
    (eof, { l with width := 0 })
  else
    let rw := DecodeRuneInString (l.input.drop l.pos)
    (rw.1, { l with width := rw.2, pos := l.pos + rw.2 })

/-- Steps back one rune. -/
def backup (l : lexer) : lexer :=
  { l with pos := l.pos - l.width }

/-- Returns but does not consume the next rune in the input. -/
def peek (l : lexer) : Int × lexer :=
  let rl := l.next
  (rl.1, rl.2.backup)

/-- The send of `errorf`: an error item at `l.start`. The nil state `errorf`
returns is given by its callers. -/
def errorf (msg : itemVal) (l : lexer) : lexer :=
  { l with items := l.items ++ [⟨tokenError, l.start, msg⟩] }

/-- Maintains the delim stack if the expected delimiter is r: pops the stack
if it is right, sends an error and returns false if it is wrong. -/
def expectDelim (r : Int) (l : lexer) : Bool × lexer :=
  match l.delimStack.getLast? with
  | none => (false, l.errorf (.imbalancedNotExpecting r))
  | some expect =>
    if expect ≠ r then (false, l.errorf (.imbalancedExpected expect r))
    else (true, { l with delimStack := l.delimStack.dropLast })

/-- Whether r is expected as the next delimiter. -/
def shouldExpectDelim (r : Int) (l : lexer) : Bool :=
  match l.delimStack.getLast? with
  | none => false
  | some expect => expect = r

/-- Passes an item back to the client. The slice `l.input[l.start:l.pos]`
panics unless `start ≤ pos ≤ len(input)`. -/
def emit (t : itemType) (l : lexer) : Res lexer :=
  if l.start ≤ l.pos ∧ l.pos ≤ l.input.length then
    let val := (l.input.take l.pos).drop l.start
    let val := if t = tokenString then ReplaceEscapedQuote val else val
    .ok { l with items := l.items ++ [⟨t, l.start, .text val⟩], start := l.pos }
  else .panic l

/-- Skips over the pending input before this point. -/
def ignore (l : lexer) : lexer :=
  { l with start := l.pos }

/-- Consumes the next rune if it is from the valid set. The source calls it
with one-character ASCII sets only, for which `strings.IndexRune(valid, r) >= 0`
is `r == valid`. -/
def accept (valid : Int) (l : lexer) : Bool × lexer :=
  let rl := l.next
  if rl.1 = valid then (true, rl.2) else (false, rl.2.backup)

/-- Conditionally emits the current text token. -/
def emitText (l : lexer) : Res lexer :=
  if l.pos > l.start then l.emit tokenText else .ok l

/-- Emits the left delimiter. -/
def emitLeft (l : lexer) : Res lexer :=
  if l.leftDelim = l.cfg.BlockStartString then l.emit tokenBlockBegin
  else if l.leftDelim = l.cfg.VariableStartString then l.emit tokenVariableBegin
  else .ok l

/-- Emits the right delimiter. -/
def emitRight (l : lexer) : Res lexer :=
  if l.rightDelim = l.cfg.BlockEndString then l.emit tokenBlockEnd
  else if l.rightDelim = l.cfg.VariableEndString then l.emit tokenVariableEnd
  else .ok l

/-- Reports whether the input is at a valid termination character to appear
after an identifier. The slice `l.input[l.pos+1:]` is taken only when
`pos+1 < len(input)`. -/
def atTerminator (l : lexer) : Bool × lexer :=
  let rl := l.peek
  let r := rl.1
  let l := rl.2
  if isSpace r || isEndOfLine r then (true, l)
  else if r = eof ∨ r = 0x2C ∨ r = 0x7C ∨ r = 0x3A ∨ r = 0x29 ∨ r = 0x28 ∨ r = 0x2B
      ∨ r = 0x2F ∨ r = 0x7E ∨ r = 0x7B ∨ r = 0x7D ∨ r = 0x2D ∨ r = 0x25 ∨ r = 0x2A
      ∨ r = 0x3D ∨ r = 0x21 ∨ r = 0x26 then (true, l)
  else if l.pos + 1 < l.input.length ∧ HasPrefix (l.input.drop (l.pos + 1)) l.rightDelim then
    (true, l)
  else (false, l)

/-- Called at the end of a string. -/
def emitString (l : lexer) : Res lexer := do
  let l ← l.backup.emit tokenString
  pure (l.next.2).ignore

end lexer

/-! ## lex.go: the state functions

A loop of the source is a function of its remaining iterations (fuel) that
calls itself for the next iteration. The body of a loop that can also return
from its function gives, with the lexer, `none` to go round again or
`some ret` to return `ret`. -/

/-- After the loop of `lexText`: correctly reached EOF. -/
def lexTextEOF (l : lexer) : Res (lexer × Option (Option stateFn)) := do
  let l ← l.emitText
  let l ← l.emit tokenEOF
  pure (l, some none)

/-- The default case of the switch in `lexText`: `l.next()`; its `break`
leaves the switch only, so the loop goes round again either way. -/
def lexTextDefault (l : lexer) : Res (lexer × Option (Option stateFn)) :=
  .ok (l.next.2, none)

/-- The body of the comment case of the switch in `lexText`. -/
def lexTextComment (l : lexer) : Res (lexer × Option (Option stateFn)) :=
  if HasPrefix (l.input.drop l.pos) l.cfg.CommentStartString then do
    let l ← l.emitText
    pure (l, some (some .lexComment))
  else lexTextDefault l

/-- The body of the variable case, falling through to the comment case. -/
def lexTextVariable (l : lexer) : Res (lexer × Option (Option stateFn)) :=
  if HasPrefix (l.input.drop l.pos) l.cfg.VariableStartString then do
    let l ← l.emitText
    pure ({ l with leftDelim := l.cfg.VariableStartString,
                   rightDelim := l.cfg.VariableEndString }, some (some .lexBlock))
  else lexTextComment l

/-- The body of the block case, falling through to the variable case. -/
def lexTextBlock (l : lexer) : Res (lexer × Option (Option stateFn)) :=
  if HasPrefix (l.input.drop l.pos) l.cfg.BlockStartString then do
    let l ← l.emitText
    pure ({ l with leftDelim := l.cfg.BlockStartString,
                   rightDelim := l.cfg.BlockEndString }, some (some .lexBlock))
  else lexTextVariable l

/-- One round of the loop of `lexText`. The switch compares `l.input[l.pos]`
with the first byte of each start string in turn; indexing an empty string,
or the input past its end, panics. -/
def lexTextStep (l : lexer) : Res (lexer × Option (Option stateFn)) :=
  if l.pos = l.input.length then lexTextEOF l
  else
    match l.input.get? l.pos with
    | none => .panic l
    | some c =>
      match l.cfg.BlockStartString.head? with
      | none => .panic l
      | some b0 =>
        if c = b0 then lexTextBlock l
        else
          match l.cfg.VariableStartString.head? with
          | none => .panic l
          | some v0 =>
            if c = v0 then lexTextVariable l
            else
              match l.cfg.CommentStartString.head? with
              | none => .panic l
              | some c0 =>
                if c = c0 then lexTextComment l
                else lexTextDefault l

/-- Starts off the lexing, and is the passthrough for all non-jigo syntax
areas of the template. -/
def lexText : Nat → lexer → Res (lexer × Option stateFn)
  | 0, l => .timeout l
  | fuel + 1, l => do
    let lr ← lexTextStep l
    match lr.2 with
    | some ret => pure (lr.1, ret)
    | none => lexText fuel lr.1

def lexBlock (l : lexer) : Res (lexer × Option stateFn) := do
  let l ← ({ l with pos := l.pos + l.leftDelim.length }).emitLeft
  pure (l, some .lexInsideBlock)

/-- Emits `t` and goes round the loop of `lexInsideBlock` again. -/
def emitAndLoop (t : itemType) (l : lexer) : Res (lexer × Option (Option stateFn)) := do
  let l ← l.emit t
  pure (l, none)

/-- A case of the operator switch that looks one character ahead. -/
def emitByAccept (valid : Int) (yes no : itemType) (l : lexer) :
    Res (lexer × Option (Option stateFn)) :=
  let al := l.accept valid
  if al.1 then emitAndLoop yes al.2 else emitAndLoop no al.2

/-- A closing bracket case of the operator switch. -/
def emitCloser (r : Int) (t : itemType) (l : lexer) :
    Res (lexer × Option (Option stateFn)) :=
  let el := l.expectDelim r
  if !el.1 then .ok (el.2, some none) else emitAndLoop t el.2

/-- An opening bracket case of the operator switch. -/
def emitOpener (t : itemType) (closer : Int) (l : lexer) :
    Res (lexer × Option (Option stateFn)) := do
  let l ← l.emit t
  pure ({ l with delimStack := l.delimStack ++ [closer] }, none)

/-- The second switch of `lexInsideBlock`, on the rune just read. -/
def lexOperator (r : Int) (l : lexer) : Res (lexer × Option (Option stateFn)) :=
  if r = 0x2C then emitAndLoop tokenComma l
  else if r = 0x7C then emitByAccept 0x7C tokenOr tokenPipe l
  else if r = 0x2B then emitAndLoop tokenAdd l
  else if r = 0x2D then emitAndLoop tokenSub l
  else if r = 0x7E then emitAndLoop tokenTilde l
  else if r = 0x3A then emitAndLoop tokenColon l
  else if r = 0x2F then emitByAccept 0x2F tokenFloordiv tokenDiv l
  else if r = 0x3C then emitByAccept 0x3D tokenLteq tokenLt l
  else if r = 0x3E then emitByAccept 0x3D tokenGteq tokenGt l
  else if r = 0x2A then emitByAccept 0x2A tokenPow tokenMul l
  else if r = 0x21 then emitByAccept 0x3D tokenNeq tokenNot l
  else if r = 0x26 then
    let al := l.accept 0x26
    if al.1 then emitAndLoop tokenAnd al.2 else .ok (al.2, some none)
  else if r = 0x3D then emitByAccept 0x3D tokenEqEq tokenEq l
  else if r = 0x28 then emitOpener tokenLparen 0x29 l
  else if r = 0x7B then emitOpener tokenLbrace 0x7D l
  else if r = 0x5B then emitOpener tokenLbracket 0x5D l
  else if r = 0x29 then emitCloser r tokenRparen l
  else if r = 0x7D then emitCloser r tokenRbrace l
  else if r = 0x5D then emitCloser r tokenRbracket l
  else .ok (l, none)

/-- The rest of a round of `lexInsideBlock` once the end marker has not been
taken: the next rune and the two switches. -/
def lexInsideBlockRune (U : unicodeTables) (l : lexer) :
    Res (lexer × Option (Option stateFn)) :=
  let rl := l.next
  let r := rl.1
  let l := rl.2
  if isSpace r then .ok (l, some (some .lexSpace))
  else if isNumeric U r then .ok (l, some (some .lexNumber))
  else if isAlphaNumeric U r then .ok (l, some (some .lexIdentifier))
  else if r = 0x22 then .ok (l.ignore, some (some .lexString))
  else if r = 0x60 then .ok (l.ignore, some (some .lexRawString))
  else lexOperator r l

/-- One round of the loop of `lexInsideBlock`. The slice `l.input[l.pos:]`
panics when `pos > len(input)`; `&&` calls `peek` only when the input has
the right delimiter as a prefix. -/
def lexInsideBlockStep (U : unicodeTables) (l : lexer) :
    Res (lexer × Option (Option stateFn)) :=
  if l.pos = l.input.length then .ok (l, some none)
  else if l.input.length < l.pos then .panic l
  else if HasPrefix (l.input.drop l.pos) l.rightDelim then
    let pl := l.peek
    if !pl.2.shouldExpectDelim pl.1 then do
      let l ← ({ pl.2 with pos := pl.2.pos + pl.2.rightDelim.length }).emitRight
      pure (l, some (some .lexText))
    else lexInsideBlockRune U pl.2
  else lexInsideBlockRune U l

def lexInsideBlock (U : unicodeTables) : Nat → lexer → Res (lexer × Option stateFn)
  | 0, l => .timeout l
  | fuel + 1, l => do
    let lr ← lexInsideBlockStep U l
    match lr.2 with
    | some ret => pure (lr.1, ret)
    | none => lexInsideBlock U fuel lr.1

/-- The loop of `lexSpace`: `for isSpace(l.peek()) { l.next() }`. -/
def lexSpaceLoop : Nat → lexer → Res lexer
  | 0, l => .timeout l
  | fuel + 1, l =>
    let pl := l.peek
    if isSpace pl.1 then lexSpaceLoop fuel pl.2.next.2 else .ok pl.2

def lexSpace (fuel : Nat) (l : lexer) : Res (lexer × Option stateFn) := do
  let l ← lexSpaceLoop fuel l
  let l ← l.emit tokenWhitespace
  pure (l, some .lexInsideBlock)

/-- The default case of the loop of `lexIdentifier`, `r` being the rune that
ended the word. The slice for `word` panics like the one of `emit`. -/
def lexIdentifierEnd (r : Int) (l : lexer) : Res (lexer × Option stateFn) :=
  let l := l.backup
  if l.start ≤ l.pos ∧ l.pos ≤ l.input.length then
    let word := (l.input.take l.pos).drop l.start
    let tl := l.atTerminator
    if !tl.1 then .ok (tl.2.errorf (.badCharacter r), none)
    else if word = bytes "true" ∨ word = bytes "false" then do
      let l ← tl.2.emit tokenBool
      pure (l, some .lexInsideBlock)
    else do
      let l ← tl.2.emit tokenName
      pure (l, some .lexInsideBlock)
  else .panic l

def lexIdentifier (U : unicodeTables) : Nat → lexer → Res (lexer × Option stateFn)
  | 0, l => .timeout l
  | fuel + 1, l =>
    let rl := l.next
    if isAlphaNumeric U rl.1 ∨ rl.1 = 0x2E then lexIdentifier U fuel rl.2
    else lexIdentifierEnd rl.1 rl.2

/-- The loop of `lexNumber`, `tokType` being its local variable. The call of
`errorf` at a second dot is not followed by a return: the loop goes on. -/
def lexNumberLoop (U : unicodeTables) : Nat → itemType → lexer → Res (lexer × Option stateFn)
  | 0, _, l => .timeout l
  | fuel + 1, tokType, l =>
    let rl := l.next
    if isNumeric U rl.1 then lexNumberLoop U fuel tokType rl.2
    else if rl.1 = 0x2E then
      if tokType ≠ tokenFloat then lexNumberLoop U fuel tokenFloat rl.2
      else lexNumberLoop U fuel tokType (rl.2.errorf .twoDots)
    else do
      let l ← rl.2.backup.emit tokType
      pure (l, some .lexInsideBlock)

def lexNumber (U : unicodeTables) (fuel : Nat) (l : lexer) : Res (lexer × Option stateFn) :=
  lexNumberLoop U fuel tokenInteger l

/-- The loop of `lexString` from its condition on, `r` and `prev` being its
variables: `for ...; r != '"' || prev == '\\'; r, prev = l.next(), r {}`. -/
def lexStringLoop : Nat → Int → Int → lexer → Res lexer
  | 0, _, _, l => .timeout l
  | fuel + 1, r, prev, l =>
    if r ≠ 0x22 ∨ prev = 0x5C then
      let rl := l.next
      lexStringLoop fuel rl.1 r rl.2
    else .ok l

def lexString (fuel : Nat) (l : lexer) : Res (lexer × Option stateFn) := do
  let rl := l.next
  let l ← lexStringLoop fuel rl.1 0 rl.2
  let l ← l.emitString
  pure (l, some .lexInsideBlock)

/-- The loop of `lexRawString` from its condition on. -/
def lexRawStringLoop : Nat → Int → lexer → Res lexer
  | 0, _, l => .timeout l
  | fuel + 1, r, l =>
    if r ≠ 0x60 then
      let rl := l.next
      lexRawStringLoop fuel rl.1 rl.2
    else .ok l

def lexRawString (fuel : Nat) (l : lexer) : Res (lexer × Option stateFn) := do
  let rl := l.next
  let l ← lexRawStringLoop fuel rl.1 rl.2
  let l ← l.emitString
  pure (l, some .lexInsideBlock)

/-- The slice `l.input[l.pos:]` comes after an `emit` that has checked
`pos ≤ len(input)`. -/
def lexComment (l : lexer) : Res (lexer × Option stateFn) := do
  let l ← ({ l with pos := l.pos + l.cfg.CommentStartString.length }).emit tokenCommentBegin
  match Index (l.input.drop l.pos) l.cfg.CommentEndString with
  | none => pure (l.errorf .unclosedComment, none)
  | some i => do
    let l ← ({ l with pos := l.pos + i }).emitText
    let l ← ({ l with pos := l.pos + l.cfg.CommentEndString.length }).emit tokenCommentEnd
    pure (l, some .lexText)

/-- The call `l.state(l)`. -/
def stateFn.call (U : unicodeTables) (s : stateFn) (fuel : Nat) (l : lexer) :
    Res (lexer × Option stateFn) :=
  match s with
  | .lexText => jigo.lexText fuel l
  | .lexBlock => jigo.lexBlock l
  | .lexInsideBlock => jigo.lexInsideBlock U fuel l
  | .lexSpace => jigo.lexSpace fuel l
  | .lexIdentifier => jigo.lexIdentifier U fuel l
  | .lexNumber => jigo.lexNumber U fuel l
  | .lexString => jigo.lexString fuel l
  | .lexRawString => jigo.lexRawString fuel l
  | .lexComment => jigo.lexComment l

/-- The loop of `run` from the state `s` on:
`for ...; l.state != nil; { l.state = l.state(l) }`. -/
def runFrom (U : unicodeTables) : Nat → stateFn → lexer → Res lexer
  | 0, _, l => .timeout l
  | fuel + 1, s, l => do
    let ls ← s.call U fuel l
    match ls.2 with
    | none => pure ls.1
    | some s' => runFrom U fuel s' ls.1

/-- Modelled from the spec: the constructor of the lexer is not in src/; by
the contract `scan(source, config)` of section 4.1 a scan starts on the source
text and the delimiter configuration, every other field of the lexer at Go's
zero value. -/
def lexer.new (cfg : lexerCfg) (input : List Nat) : lexer :=
  { cfg := cfg, input := input, leftDelim := [], rightDelim := [],
    pos := 0, start := 0, width := 0, items := [], delimStack := [] }

/-- Runs the state machine for the lexer: it starts in `lexText`. -/
def run (U : unicodeTables) (fuel : Nat) (l : lexer) : Res lexer :=
  runFrom U fuel .lexText l

/-- The default Jinja-like delimiters of section 6 of the spec. -/
def defaultCfg : lexerCfg :=
  { BlockStartString := bytes "\x7b%", BlockEndString := bytes "%\x7d",
    VariableStartString := bytes "\x7b\x7b", VariableEndString := bytes "\x7d\x7d",
    CommentStartString := bytes "\x7b#", CommentEndString := bytes "#\x7d" }

/-- The items one scan of `input` sends, when it ends within the fuel. -/
def scan (U : unicodeTables) (cfg : lexerCfg) (input : List Nat) (fuel : Nat) : Res (List item) :=
  (run U fuel (lexer.new cfg input)).bind fun l => .ok l.items

/-- Range tables with no letter and no digit above Latin-1. -/
def noTables : unicodeTables := ⟨fun _ => false, fun _ => false⟩

/-! ## context.go

Values are seen through Go's `reflect` package: what matters of a value is
its kind, whether it is valid, the entries of a map, the fields of a struct and
the target of a pointer. -/

/-- The kinds of `reflect.Kind` that the values below take. -/
inductive Kind
  | Invalid
  | Int
  | Uint
  | String
  | Slice
  | Map
  | Struct
  | Ptr
  | Interface
  deriving DecidableEq, Repr

mutual
/-- A `reflect.Value`. -/
inductive Value
  /-- the zero Value, as `reflect.ValueOf(nil)`, `MapIndex` of a missing key, `Elem` of a nil
  pointer and `FieldByName` of a missing field give it -/
  | invalid
  /-- an interface value holding nil, as a map of interface values can store -/
  | nilInterface
  | int (n : Int)
  | str (s : List Nat)
  /-- a valid value of kind `k` of which nothing else matters -/
  | other (k : Kind)
  /-- a pointer to `elem`; the nil pointer points to the zero Value -/
  | ptr (elem : Value)
  /-- a map with string keys -/
  | map (entries : Entries)
  | struct (fields : Fields)
  /-- a `Context` stored as a value -/
  | context (kind : Kind) (value : Value)
/-- The entries of a map. -/
inductive Entries
  | nil
  | cons (key : List Nat) (v : Value) (rest : Entries)
/-- The fields of a struct that `FieldByName` finds, each exported or not. -/
inductive Fields
  | nil
  | cons (name : List Nat) (exported : Bool) (v : Value) (rest : Fields)
end

/-- An environment passed in by a user to a template. The field `ctx`, which
keeps the original value and is not used, is left out. -/
structure Context where
  kind : Kind
  value : Value

/-- What running a piece of context.go gives: a value, a run-time panic, or
no answer within the fuel. -/
inductive Ret (α : Type)
  | ok (a : α)
  | panic
  | timeout

/-- `reflect.Value.Kind`. -/
def Value.Kind : Value → Kind
  | .invalid => .Invalid
  | .nilInterface => .Interface
  | .int _ => .Int
  | .str _ => .String
  | .other k => k
  | .ptr _ => .Ptr
  | .map _ => .Map
  | .struct _ => .Struct
  | .context _ _ => .Struct

/-- `reflect.Value.IsValid`. -/
def Value.IsValid : Value → Bool
  | .invalid => false
  | _ => true

/-- The loop of `NewContext`:
`for v = reflect.ValueOf(i); v.Kind() == reflect.Ptr; v = reflect.Indirect(v) {}`. -/
def indirectAll : Value → Value
  | .ptr elem => indirectAll elem
  | v => v

/-- Contexts can be structs or maps, or pointers to these types, but no other
type. The Context is returned with or without the error; the Bool is
`err != nil`. -/
def NewContext (i : Value) : Context × Bool :=
  let v := indirectAll i
  let c : Context := { kind := v.Kind, value := v }
  if c.kind ≠ .Map ∧ c.kind ≠ .Struct then (c, true) else (c, false)

/-- Go's `strings.IndexAny(name, ".[")`: the index of the first dot or opening
bracket, `none` for -1. -/
def IndexAny (name : List Nat) : Option Nat :=
  match name with
  | [] => none
  | b :: t => if b = 0x2E ∨ b = 0x5B then some 0 else (IndexAny t).map (· + 1)

/-- The end of `hasChild`, `i` being the index it has found. -/
def hasChildSplit (name : List Nat) (i : Option Nat) : List Nat × List Nat × Bool :=
  match i with
  | none => (name, [], false)
  | some i => (name.take i, name.drop i, false)

/-- The bracket case of `hasChild`, `name` being what follows the bracket.
`parent[0]` panics on an empty parent, and `parent[1 : len(parent)-1]` on a
parent of one character. -/
def hasChildBracket (name : List Nat) : Ret (List Nat × List Nat × Bool) :=
  match Index name [0x5D] with
  | none => .ok ([], [], true)
  | some i =>
    let parent := name.take i
    let child := name.drop (i + 1)
    match parent.head?, parent.getLast? with
    | some first, some last =>
      if (first = 0x27 ∧ last = 0x27) ∨ (first = 0x22 ∧ last = 0x22) then
        if 1 ≤ parent.length - 1 then
          .ok ((parent.take (parent.length - 1)).drop 1, child, false)
        else .panic
      else .ok (parent, child, false)
    | _, _ => .panic

/-- Splits a path into its head (parent), its remainder (child) and whether
an error is returned. -/
def hasChild (name : List Nat) : Ret (List Nat × List Nat × Bool) :=
  match IndexAny name with
  | some 0 =>
    match name with
    | 0x5B :: rest => hasChildBracket rest
    | 0x2E :: rest => .ok (hasChildSplit rest (IndexAny rest))
    | _ => .ok (hasChildSplit name (some 0))
  | i => .ok (hasChildSplit name i)

/-- `reflect.Value.MapIndex` on the entries of a map: the zero Value if the
key is not found. -/
def Entries.MapIndex : Entries → List Nat → Value
  | .nil, _ => .invalid
  | .cons k v rest, key => if k = key then v else rest.MapIndex key

/-- `reflect.Value.FieldByName` on the fields of a struct: the field and
whether it is exported, the zero Value if there is none. -/
def Fields.FieldByName : Fields → List Nat → Value × Bool
  | .nil, _ => (.invalid, true)
  | .cons n e v rest, name => if n = name then (v, e) else rest.FieldByName name

/-- `reflect.Value.FieldByName`; `none` is its panic on a value that is no
struct. A `Context` is a struct of three unexported fields. -/
def Value.FieldByName (v : Value) (name : List Nat) : Option (Value × Bool) :=
  match v with
  | .struct fields => some (fields.FieldByName name)
  | .context _ _ =>
    if name = bytes "ctx" then some (.other .Interface, false)
    else if name = bytes "kind" then some (.other .Uint, false)
    else if name = bytes "value" then some (.other .Struct, false)
    else some (.invalid, true)
  | _ => none

/-- The end of both cases of `lookup`, `v` being the value found for the head
and `exported` false when it came from an unexported field. `v.Interface()`
panics on the zero Value and on such a field. The result is what `lookup`
returns, or the Context to look the remainder up in. -/
def lookupChild (v : Value) (exported : Bool) (cname : List Nat) :
    Ret ((Value × Bool) ⊕ Context) :=
  if cname = [] then .ok (.inl (v, v.IsValid))
  else if !v.IsValid || !exported then .panic
  else
    match v with
    | .context k b => .ok (.inr ⟨k, b⟩)
    | _ => .ok (.inl (v, false))

/-- The body of `lookup` up to its recursive call. `MapIndex` panics on a
value that is no map. -/
def lookupStep (c : Context) (name : List Nat) : Ret ((Value × Bool) ⊕ Context × List Nat) :=
  match hasChild name with
  | .panic => .panic
  | .timeout => .timeout
  | .ok (pname, cname, err) =>
    let sub (r : Ret ((Value × Bool) ⊕ Context)) : Ret ((Value × Bool) ⊕ Context × List Nat) :=
      match r with
      | .ok (.inl vo) => .ok (.inl vo)
      | .ok (.inr t) => .ok (.inr (t, cname))
      | .panic => .panic
      | .timeout => .timeout
    match c.kind with
    | .Map =>
      if err then .ok (.inl (.invalid, false))
      else
        match c.value with
        | .map entries => sub (lookupChild (entries.MapIndex pname) true cname)
        | _ => .panic
    | .Struct =>
      match c.value.FieldByName pname with
      | some ve => sub (lookupChild ve.1 ve.2 cname)
      | none => .panic
    | _ => .ok (.inl (.invalid, false))

/-- Finds a single name in a single context, `fuel` bounding the depth of the
recursion `t.lookup(cname)`. -/
def Context.lookupFuel : Nat → Context → List Nat → Ret (Value × Bool)
  | 0, _, _ => .timeout
  | fuel + 1, c, name =>
    match lookupStep c name with
    | .ok (.inl vo) => .ok vo
    | .ok (.inr (t, cname)) => Context.lookupFuel fuel t cname
    | .panic => .panic
    | .timeout => .timeout

/-- Finds a single name in a single context. Every recursive call is on a
shorter name, so the length of the name bounds the depth. -/
def Context.lookup (c : Context) (name : List Nat) : Ret (Value × Bool) :=
  c.lookupFuel (name.length + 1) name

/-- A stack of contexts, the innermost last. -/
abbrev contextStack := List Context

def contextStack.push (c : contextStack) (ctx : Context) : contextStack :=
  c ++ [ctx]

/-- Removes and returns the last context; indexing an empty stack panics. -/
def contextStack.pop (c : contextStack) : Ret (Context × contextStack) :=
  match c.getLast? with
  | none => .panic
  | some ctx => .ok (ctx, c.dropLast)

/-- The loop of `contextStack.lookup` over the contexts still to try, the
innermost first; `vo` is the current value of the results `v, ok`. -/
def lookupDown (name : List Nat) : List Context → Value × Bool → Ret (Value × Bool)
  | [], vo => .ok vo
  | ctx :: rest, _ =>
    match ctx.lookup name with
    | .ok vo => if vo.2 then .ok vo else lookupDown name rest vo
    | .panic => .panic
    | .timeout => .timeout

/-- Finds a name in the context stack, from the last context down to the first. -/
def contextStack.lookup (c : contextStack) (name : List Nat) : Ret (Value × Bool) :=
  lookupDown name c.reverse (.invalid, false)

/-- `NewContextStack`: panics when `NewContext` returns an error. -/
def NewContextStack (i : Value) : Ret contextStack :=
  let ce := NewContext i
  if ce.2 then .panic else .ok (contextStack.push [] ce.1)

/-- The terminal items of a sequence: those of kind end-of-input or error. -/
def terminals (items : List item) : List item :=
  items.filter fun it => it.typ = tokenEOF ∨ it.typ = tokenError

/-- The mapping {b: 5}. -/
def entriesB : Entries := .cons (bytes "b") (.int 5) .nil

/-- The mapping {a: ScopeOf({b: 5})}. -/
def entriesAB : Entries := .cons (bytes "a") (.context .Map (.map entriesB)) .nil

/-- The scope over the mapping {a: ScopeOf({b: 5})}. -/
def scopeAB : Context := ⟨.Map, .map entriesAB⟩

/-- The mapping {"": 0, b: 5}, with the empty string as a key. -/
def entriesEB : Entries := .cons [] (.int 0) (.cons (bytes "b") (.int 5) .nil)

/-- The mapping {a: ScopeOf({"": 0, b: 5})}. -/
def entriesAEB : Entries := .cons (bytes "a") (.context .Map (.map entriesEB)) .nil

/-- The scope over the mapping {x: n}. -/
def scopeX (n : Int) : Context :=
  ⟨.Map, .map (.cons (bytes "x") (.int n) .nil)⟩

/-- The scanner inside "{{ {a:{b:1}} }}" at the inner `}}`, both braces open. -/
def lexerAtInnerBraces : lexer :=
  { cfg := defaultCfg, input := bytes "\x7b\x7b \x7ba:\x7bb:1\x7d\x7d \x7d\x7d",
    leftDelim := bytes "\x7b\x7b", rightDelim := bytes "\x7d\x7d",
    pos := 10, start := 10, width := 1, items := [], delimStack := [0x7D, 0x7D] }

/-- Holds of the value a piece of code gives, when it gives one. -/
def Res.Sat {α : Type} (P : α → Prop) : Res α → Prop
  | .ok a => P a
  | .panic _ => True
  | .timeout _ => True

/-- The kinds of the opening bracket items. -/
def isOpener (t : itemType) : Bool :=
  t = tokenLparen ∨ t = tokenLbrace ∨ t = tokenLbracket

/-- The kinds of the closing bracket items. -/
def isCloser (t : itemType) : Bool :=
  t = tokenRparen ∨ t = tokenRbrace ∨ t = tokenRbracket

/-- The number of opening bracket items among `items`. -/
def openers (items : List item) : Nat := items.countP fun it => isOpener it.typ

/-- The number of closing bracket items among `items`. -/
def closers (items : List item) : Nat := items.countP fun it => isCloser it.typ

/-- The delimiter stack holds one expected closer for each opening bracket
item sent and not yet answered by a closing bracket item. -/
def stackCounts (l : lexer) : Prop :=
  l.delimStack.length + closers l.items = openers l.items

/-- The source "{{ ( }}": a parenthesis opened in a tag and never closed. -/
def openParenSource : List Nat := bytes "\x7b\x7b ( \x7d\x7d"

/-- The six items of the scan of "{{ ( }}". -/
def openParenItems : List item :=
  [⟨tokenVariableBegin, 0, .text (bytes "\x7b\x7b")⟩,
   ⟨tokenWhitespace, 2, .text (bytes " ")⟩,
   ⟨tokenLparen, 3, .text (bytes "(")⟩,
   ⟨tokenWhitespace, 4, .text (bytes " ")⟩,
   ⟨tokenVariableEnd, 5, .text (bytes "\x7d\x7d")⟩,
   ⟨tokenEOF, 7, .text []⟩]

/-- The lexer at the end of the scan of "{{ ( }}". -/
def openParenFinal : lexer :=
  { cfg := defaultCfg, input := openParenSource,
    leftDelim := bytes "\x7b\x7b", rightDelim := bytes "\x7d\x7d",
    pos := 7, start := 7, width := 1, items := openParenItems, delimStack := [0x29] }

/-- With enough fuel the run from the state `s` on ends, having then sent
exactly `items`. -/
def EndsWith (U : unicodeTables) (s : stateFn) (l : lexer) (items : List item) : Prop :=
  ∃ N, ∀ fuel, N ≤ fuel → ∃ r, runFrom U fuel s l = .ok r ∧ r.items = items

/-- The bytes an ASCII identifier is made of: a letter, a digit or the underscore. -/
def isIdentByte (b : Nat) : Bool :=
  b = 0x5F ∨ (0x41 ≤ b ∧ b ≤ 0x5A) ∨ (0x61 ≤ b ∧ b ≤ 0x7A) ∨ (0x30 ≤ b ∧ b ≤ 0x39)

/-- The ASCII digits. -/
def isDigitByte (b : Nat) : Bool := 0x30 ≤ b ∧ b ≤ 0x39

/-- The operators that `lexInsideBlock` tells apart by one character of
lookahead, each with the kind of its item. -/
def operatorTable : List (List Nat × itemType) :=
  [(bytes "||", tokenOr), (bytes "|", tokenPipe), (bytes "//", tokenFloordiv),
   (bytes "/", tokenDiv), (bytes "<=", tokenLteq), (bytes "<", tokenLt),
   (bytes ">=", tokenGteq), (bytes ">", tokenGt), (bytes "**", tokenPow),
   (bytes "*", tokenMul), (bytes "!=", tokenNeq), (bytes "!", tokenNot),
   (bytes "&&", tokenAnd), (bytes "==", tokenEqEq)]

/-- The scope over the mapping {a: ScopeOf({"b.c": 7})}, whose inner key has a
dot in it. -/
def scopeQuoted : Context :=
  ⟨.Map, .map (.cons (bytes "a")
    (.context .Map (.map (.cons (bytes "b.c") (.int 7) .nil))) .nil)⟩

/-- The scope over the mapping {a: 1}. -/
def scopeA1 : Context := ⟨.Map, .map (.cons (bytes "a") (.int 1) .nil)⟩

/-- The scope over a record with the one exported field A, of value 1. -/
def recordA1 : Context := ⟨.Struct, .struct (.cons (bytes "A") true (.int 1) .nil)⟩

/-- The scope over the mapping {z: ScopeOf({b: 5})}. -/
def scopeZB : Context := ⟨.Map, .map (.cons (bytes "z") (.context .Map (.map entriesB)) .nil)⟩

/-- The default configuration with the variable delimiters `<<` and `>>`. -/
def angleCfg : lexerCfg :=
  { defaultCfg with VariableStartString := bytes "<<", VariableEndString := bytes ">>" }

/-- The scanner in "{{ " followed by an opening quote (double or back) and
the letter a, at the end of the input inside the string: what `lexString` and
`lexRawString` keep reading from. -/
def lexerInOpenString (q : Nat) : lexer :=
  { cfg := defaultCfg, input := bytes "\x7b\x7b " ++ [q, 0x61],
    leftDelim := bytes "\x7b\x7b", rightDelim := bytes "\x7d\x7d",
    pos := 5, start := 4, width := 0,
    items := [⟨tokenVariableBegin, 0, .text (bytes "\x7b\x7b")⟩,
      ⟨tokenWhitespace, 2, .text (bytes " ")⟩],
    delimStack := [] }

/-- Holds of what a piece of code gives: `Q` of the value when it gives one,
`P` of the lexer as it then was when it panics or the fuel runs out. -/
def Res.All {α : Type} (P : lexer → Prop) (Q : α → Prop) : Res α → Prop
  | .ok a => Q a
  | .panic l => P l
  | .timeout l => P l

/-- The scanner is on the source `src` with `start ≤ pos ≤ len(src)`, the
offset of every item sent is at most `start`, and the offsets of the items
sent do not decrease. -/
def ordered (src : List Nat) (l : lexer) : Prop :=
  l.input = src ∧ l.start ≤ l.pos ∧ l.pos ≤ src.length ∧
  (∀ it ∈ l.items, it.pos ≤ l.start) ∧ l.items.Pairwise fun a b => a.pos ≤ b.pos

/-- The scanner is `ordered` and the rune that `next` has just read lies
after `start`, so that `backup` keeps `start ≤ pos`. -/
def fresh (src : List Nat) (l : lexer) : Prop :=
  ordered src l ∧ l.start + l.width ≤ l.pos

/-- What a state function relies on when it is entered: `lexBlock` and
`lexComment` step over a start marker that `lexText` has found at `pos`. -/
def statePre (s : stateFn) (l : lexer) : Prop :=
  match s with
  | .lexBlock => HasPrefix (l.input.drop l.pos) l.leftDelim = true
  | .lexComment => HasPrefix (l.input.drop l.pos) l.cfg.CommentStartString = true
  | _ => True

/-- What `emit` keeps of the lexer, with the invariant. -/
def emitPost (src : List Nat) (l l' : lexer) : Prop :=
  ordered src l' ∧ l'.pos = l.pos ∧ l'.cfg = l.cfg ∧ l'.leftDelim = l.leftDelim ∧
  l'.rightDelim = l.rightDelim

/-- What a round of a loop gives: the invariant, and what the next state
function relies on. -/
def stepPost (src : List Nat) (r : lexer × Option (Option stateFn)) : Prop :=
  ordered src r.1 ∧ ∀ s, r.2 = some (some s) → statePre s r.1

/-- What a state function gives: the invariant, and what the next state
function relies on. -/
def callPost (src : List Nat) (r : lexer × Option stateFn) : Prop :=
  ordered src r.1 ∧ ∀ s, r.2 = some s → statePre s r.1

/-! ## Theorems -/

/-- C1: on the source "{{", a tag opened and not closed before the end of
input, the scan stops after the variable-begin item: it sends neither an
end-of-input nor an error item. -/
theorem unclosed_tag_no_terminal (U : unicodeTables) (n : Nat) :
    scan U defaultCfg (bytes "\x7b\x7b") (n + 4) =
      .ok [⟨tokenVariableBegin, 0, .text (bytes "\x7b\x7b")⟩] ∧
    terminals [⟨tokenVariableBegin, 0, .text (bytes "\x7b\x7b")⟩] = [] := by
  exact ⟨rfl, rfl⟩

/-- C2: on the source "{{ 1.2.3 ) }}" the unmatched closing parenthesis ends
the scan with an "Imbalanced delimiters" error item and no end-of-input, but
that item is the second error item of the scan: the "two dots" error of the
number before it did not stop the scan. -/
theorem imbalanced_after_two_dots (U : unicodeTables) (n : Nat) :
    scan U defaultCfg (bytes "\x7b\x7b 1.2.3 ) \x7d\x7d") (n + 12) = .ok
      [⟨tokenVariableBegin, 0, .text (bytes "\x7b\x7b")⟩,
       ⟨tokenWhitespace, 2, .text (bytes " ")⟩,
       ⟨tokenError, 3, .twoDots⟩,
       ⟨tokenFloat, 3, .text (bytes "1.2.3")⟩,
       ⟨tokenWhitespace, 8, .text (bytes " ")⟩,
       ⟨tokenError, 9, .imbalancedNotExpecting 0x29⟩] := by
  rfl

/-- C8: `precedence` is 5 exactly for mul, div, floordiv and mod, 4 exactly for
add and sub, 3 exactly for the six comparisons, 2 exactly for and, 1 exactly
for or, 0 for every other kind, and it depends on the kind of the token only,
not on its offset or text. -/
theorem precedence_table (i : item) :
    (i.precedence = 5 ↔
      i.typ = tokenMul ∨ i.typ = tokenDiv ∨ i.typ = tokenFloordiv ∨ i.typ = tokenMod) ∧
    (i.precedence = 4 ↔ i.typ = tokenAdd ∨ i.typ = tokenSub) ∧
    (i.precedence = 3 ↔
      i.typ = tokenEqEq ∨ i.typ = tokenNeq ∨ i.typ = tokenLt ∨ i.typ = tokenLteq ∨
      i.typ = tokenGt ∨ i.typ = tokenGteq) ∧
    (i.precedence = 2 ↔ i.typ = tokenAnd) ∧
    (i.precedence = 1 ↔ i.typ = tokenOr) ∧
    (i.precedence = 0 ↔
      i.typ ∉ [tokenMul, tokenDiv, tokenFloordiv, tokenMod, tokenAdd, tokenSub, tokenEqEq,
        tokenNeq, tokenLt, tokenLteq, tokenGt, tokenGteq, tokenAnd, tokenOr]) ∧
    (i.precedence = 0 ∨ i.precedence = 1 ∨ i.precedence = 2 ∨ i.precedence = 3 ∨
      i.precedence = 4 ∨ i.precedence = 5) ∧
    (∀ (pos : Nat) (val : itemVal), item.precedence ⟨i.typ, pos, val⟩ = i.precedence) := by
  rcases i with ⟨t, p, v⟩
  cases t <;> simp [item.precedence]

/-- C7: on the source "{{ 1.2.3 }}" the error item "two dots in numeric token"
is sent, and the scan goes on: a float item with the text 1.2.3, the
whitespace, the end marker and end-of-input follow it. -/
theorem two_dots_scan_goes_on (U : unicodeTables) (n : Nat) :
    scan U defaultCfg (bytes "\x7b\x7b 1.2.3 \x7d\x7d") (n + 12) = .ok
      [⟨tokenVariableBegin, 0, .text (bytes "\x7b\x7b")⟩,
       ⟨tokenWhitespace, 2, .text (bytes " ")⟩,
       ⟨tokenError, 3, .twoDots⟩,
       ⟨tokenFloat, 3, .text (bytes "1.2.3")⟩,
       ⟨tokenWhitespace, 8, .text (bytes " ")⟩,
       ⟨tokenVariableEnd, 9, .text (bytes "\x7d\x7d")⟩,
       ⟨tokenEOF, 11, .text []⟩] := by
  rfl

/-- C9: with the root scope {a: ScopeOf({b: 5})} and the pushed scope {x: 2},
the root scope alone finds the path a.b, with the value 5, but the lookup of the
stack panics: the pushed scope, tried first, has no key a and calls Interface
on the zero Value for the remainder. -/
theorem stack_lookup_panics_in_inner_scope :
    scopeAB.lookup (bytes "a.b") = .ok (.int 5, true) ∧
    (scopeX 2).lookup (bytes "a.b") = .panic ∧
    contextStack.lookup (contextStack.push [scopeAB] (scopeX 2)) (bytes "a.b") = .panic := by
  exact ⟨rfl, rfl, rfl⟩

@[simp] theorem Res.ok_bind {α β : Type} (a : α) (f : α → Res β) : (Res.ok a >>= f) = f a := rfl
@[simp] theorem Res.panic_bind {α β : Type} (l : lexer) (f : α → Res β) :
    (Res.panic l >>= f) = Res.panic l := rfl
@[simp] theorem Res.timeout_bind {α β : Type} (l : lexer) (f : α → Res β) :
    (Res.timeout l >>= f) = Res.timeout l := rfl
@[simp] theorem Res.pure_eq {α : Type} (a : α) : (pure a : Res α) = Res.ok a := rfl

theorem decode_ascii (b : Nat) (t : List Nat) (h : b < 0x80) :
    DecodeRuneInString (b :: t) = ((b : Int), 1) := by
  simp [DecodeRuneInString, h]

theorem decode_lt (s : List Nat) (h : (DecodeRuneInString s).1 < 0x80) :
    ∃ b t, s = b :: t ∧ b < 0x80 ∧ DecodeRuneInString s = ((b : Int), 1) := by
  unfold DecodeRuneInString at h ⊢
  split at h
  · simp [RuneError] at h
  · rename_i s0 t
    refine ⟨s0, t, rfl, ?_⟩
    split at h
    · rename_i h0; simp [h0]
    · exfalso
      repeat' split at h
      all_goals first
        | (simp [RuneError] at h; done)
        | (simp at h; omega)

theorem HasPrefix_length {s p : List Nat} (h : HasPrefix s p = true) : p.length ≤ s.length := by
  unfold HasPrefix at h
  exact (List.isPrefixOf_iff_prefix.mp h).length_le

theorem HasPrefix_pos_lt {l : lexer} (hne : l.rightDelim ≠ [])
    (hpre : HasPrefix (l.input.drop l.pos) l.rightDelim = true) :
    l.pos + l.rightDelim.length ≤ l.input.length ∧ l.pos < l.input.length := by
  have h := HasPrefix_length hpre
  have h2 : 0 < l.rightDelim.length := List.length_pos.mpr hne
  simp at h
  omega

theorem next_of_lt (l : lexer) (h : l.pos < l.input.length) :
    l.next = ((DecodeRuneInString (l.input.drop l.pos)).1,
      { l with width := (DecodeRuneInString (l.input.drop l.pos)).2,
               pos := l.pos + (DecodeRuneInString (l.input.drop l.pos)).2 }) := by
  simp [lexer.next, Nat.not_le.mpr h]

theorem peek_of_lt (l : lexer) (h : l.pos < l.input.length) :
    l.peek = ((DecodeRuneInString (l.input.drop l.pos)).1,
      { l with width := (DecodeRuneInString (l.input.drop l.pos)).2 }) := by
  simp [lexer.peek, next_of_lt l h, lexer.backup]

theorem emit_ok (t : itemType) (l : lexer) (h1 : l.start ≤ l.pos)
    (h2 : l.pos ≤ l.input.length) :
    l.emit t = .ok { l with
      items := l.items ++ [⟨t, l.start, .text
        (if t = tokenString then ReplaceEscapedQuote ((l.input.take l.pos).drop l.start)
         else (l.input.take l.pos).drop l.start)⟩],
      start := l.pos } := by
  simp [lexer.emit, h1, h2]

theorem emitRight_block (l : lexer) (h : l.rightDelim = l.cfg.BlockEndString) :
    l.emitRight = l.emit tokenBlockEnd := by
  simp [lexer.emitRight, h]

theorem emitRight_variable (l : lexer) (h1 : l.rightDelim ≠ l.cfg.BlockEndString)
    (h2 : l.rightDelim = l.cfg.VariableEndString) :
    l.emitRight = l.emit tokenVariableEnd := by
  unfold lexer.emitRight
  rw [if_neg h1, if_pos h2]

theorem end_marker_cases (U : unicodeTables) (l : lexer)
    (hne : l.rightDelim ≠ [])
    (hpre : HasPrefix (l.input.drop l.pos) l.rightDelim = true)
    (hstart : l.start ≤ l.pos)
    (hkind : l.rightDelim = l.cfg.BlockEndString ∨ l.rightDelim = l.cfg.VariableEndString)
    (hstack : ∀ c ∈ l.delimStack, c = 0x29 ∨ c = 0x7D ∨ c = 0x5D) :
    (l.peek.2.shouldExpectDelim l.peek.1 = false →
      ∃ l', lexInsideBlockStep U l = .ok (l', some (some .lexText)) ∧
        l'.items = l.items ++
          [⟨if l.rightDelim = l.cfg.BlockEndString then tokenBlockEnd else tokenVariableEnd,
            l.start, .text ((l.input.take (l.pos + l.rightDelim.length)).drop l.start)⟩] ∧
        l'.delimStack = l.delimStack ∧ l'.pos = l.pos + l.rightDelim.length ∧
        l'.start = l'.pos) ∧
    (l.peek.2.shouldExpectDelim l.peek.1 = true →
      ∃ l' c, l.delimStack.getLast? = some c ∧ l.input.get? l.pos = some c.toNat ∧
        lexInsideBlockStep U l = .ok (l', none) ∧
        l'.items = l.items ++
          [⟨if c = 0x29 then tokenRparen else if c = 0x7D then tokenRbrace else tokenRbracket,
            l.start, .text ((l.input.take (l.pos + 1)).drop l.start)⟩] ∧
        l'.delimStack = l.delimStack.dropLast ∧ l'.pos = l.pos + 1 ∧ l'.start = l'.pos) := by
  obtain ⟨hlen, hlt⟩ := HasPrefix_pos_lt hne hpre
  have hpk := peek_of_lt l hlt
  constructor
  · intro hexp
    rw [hpk] at hexp
    unfold lexInsideBlockStep
    simp only [Nat.ne_of_lt hlt, if_false, Nat.not_lt.mpr (Nat.le_of_lt hlt), hpre, if_true, hpk,
      hexp, Bool.not_false]
    have h1 : l.start ≤ l.pos + l.rightDelim.length := by omega
    by_cases hb : l.rightDelim = l.cfg.BlockEndString
    · simp only [lexer.emitRight, lexer.emit, if_pos hb, h1, hlen, and_self, if_true]
      simp
    · have hv := hkind.resolve_left hb
      simp only [lexer.emitRight, lexer.emit, if_neg hb, if_pos hv, h1, hlen, and_self, if_true]
      simp
  · intro hexp
    rw [hpk] at hexp
    simp only [lexer.shouldExpectDelim] at hexp
    cases htop : l.delimStack.getLast? with
    | none => simp [htop] at hexp
    | some c =>
      simp [htop] at hexp
      have hc := hstack c (List.mem_of_getLast?_eq_some htop)
      obtain ⟨b, t, hbt, hb, hdec⟩ :=
        decode_lt (l.input.drop l.pos) (by rcases hc with h | h | h <;> omega)
      rw [hdec] at hexp
      simp only at hexp
      subst hexp
      have hget : l.input.get? l.pos = some (b : Int).toNat := by
        have := congrArg List.head? hbt
        rw [List.head?_drop] at this
        rw [List.get?_eq_getElem?, this]
        simp
      have hlt1 : l.pos + 1 ≤ l.input.length := hlt
      have hs1 : l.start ≤ l.pos + 1 := by omega
      have hnle : ¬ l.input.length ≤ l.pos := Nat.not_le.mpr hlt
      have hstep : lexInsideBlockStep U l = .ok
          ({ l with pos := l.pos + 1, width := 1, delimStack := l.delimStack.dropLast,
                    start := l.pos + 1,
                    items := l.items ++
                      [⟨if (b : Int) = 0x29 then tokenRparen else if (b : Int) = 0x7D then tokenRbrace
                          else tokenRbracket,
                        l.start, .text ((l.input.take (l.pos + 1)).drop l.start)⟩] }, none) := by
        have hb3 : b = 0x29 ∨ b = 0x7D ∨ b = 0x5D := by omega
        rcases hb3 with h | h | h <;> subst h <;>
          simp [lexInsideBlockStep, lexInsideBlockRune, lexer.peek, lexer.next, lexer.backup,
            lexer.shouldExpectDelim, Nat.ne_of_lt hlt, Nat.not_lt.mpr (Nat.le_of_lt hlt), hpre, hnle,
            hbt, DecodeRuneInString, htop,
            isSpace, isNumeric, isAlphaNumeric, IsDigit, IsLetter, lexOperator, emitCloser,
            lexer.expectDelim, emitAndLoop, lexer.emit, hlt1, hs1]
      exact ⟨_, _, rfl, hget, hstep, rfl, rfl, rfl, rfl⟩

/-- C3: in tag mode with the input at the current position starting with the
end marker of the open tag, one round of `lexInsideBlock` sends the end-marker
item and returns to text mode if and only if the delimiter stack does not
expect the rune at the current position, the marker's first character, as a
closer; when it does, that closer is sent as its bracket item and popped, and
the loop goes on in tag mode. So with the stack top `}` and the input at `}}`
the first `}` is a right-brace item, and the source "{{ {a:{b:1}} }}" gives
two right-brace items for the inner `}}`, a variable-end for the last `}}`,
then end-of-input. -/
theorem end_marker_rule (U : unicodeTables) (l : lexer)
    (hne : l.rightDelim ≠ [])
    (hpre : HasPrefix (l.input.drop l.pos) l.rightDelim = true)
    (hstart : l.start ≤ l.pos)
    (hkind : l.rightDelim = l.cfg.BlockEndString ∨ l.rightDelim = l.cfg.VariableEndString)
    (hstack : ∀ c ∈ l.delimStack, c = 0x29 ∨ c = 0x7D ∨ c = 0x5D) :
    (l.peek.2.shouldExpectDelim l.peek.1 = false →
      ∃ l', lexInsideBlockStep U l = .ok (l', some (some .lexText)) ∧
        l'.items = l.items ++
          [⟨if l.rightDelim = l.cfg.BlockEndString then tokenBlockEnd else tokenVariableEnd,
            l.start, .text ((l.input.take (l.pos + l.rightDelim.length)).drop l.start)⟩] ∧
        l'.delimStack = l.delimStack ∧ l'.pos = l.pos + l.rightDelim.length ∧
        l'.start = l'.pos) ∧
    (l.peek.2.shouldExpectDelim l.peek.1 = true →
      ∃ l' c, l.delimStack.getLast? = some c ∧ l.input.get? l.pos = some c.toNat ∧
        lexInsideBlockStep U l = .ok (l', none) ∧
        l'.items = l.items ++
          [⟨if c = 0x29 then tokenRparen else if c = 0x7D then tokenRbrace else tokenRbracket,
            l.start, .text ((l.input.take (l.pos + 1)).drop l.start)⟩] ∧
        l'.delimStack = l.delimStack.dropLast ∧ l'.pos = l.pos + 1 ∧ l'.start = l'.pos) ∧
    ((∃ l', lexInsideBlockStep U l = .ok (l', some (some .lexText))) ↔
      l.peek.2.shouldExpectDelim l.peek.1 = false) ∧
    (l.delimStack.getLast? = some 0x7D →
      HasPrefix (l.input.drop l.pos) (bytes "\x7d\x7d") = true →
      ∃ l', lexInsideBlockStep U l = .ok (l', none) ∧
        l'.items = l.items ++
          [⟨tokenRbrace, l.start, .text ((l.input.take (l.pos + 1)).drop l.start)⟩] ∧
        l'.delimStack = l.delimStack.dropLast ∧ l'.pos = l.pos + 1 ∧ l'.start = l'.pos) ∧
    (∀ n, scan U defaultCfg (bytes "\x7b\x7b \x7ba:\x7bb:1\x7d\x7d \x7d\x7d") (n + 20) = .ok
      [⟨tokenVariableBegin, 0, .text (bytes "\x7b\x7b")⟩,
       ⟨tokenWhitespace, 2, .text (bytes " ")⟩,
       ⟨tokenLbrace, 3, .text (bytes "\x7b")⟩,
       ⟨tokenName, 4, .text (bytes "a")⟩,
       ⟨tokenColon, 5, .text (bytes ":")⟩,
       ⟨tokenLbrace, 6, .text (bytes "\x7b")⟩,
       ⟨tokenName, 7, .text (bytes "b")⟩,
       ⟨tokenColon, 8, .text (bytes ":")⟩,
       ⟨tokenInteger, 9, .text (bytes "1")⟩,
       ⟨tokenRbrace, 10, .text (bytes "\x7d")⟩,
       ⟨tokenRbrace, 11, .text (bytes "\x7d")⟩,
       ⟨tokenWhitespace, 12, .text (bytes " ")⟩,
       ⟨tokenVariableEnd, 13, .text (bytes "\x7d\x7d")⟩,
       ⟨tokenEOF, 15, .text []⟩]) := by
  obtain ⟨h1, h2⟩ := end_marker_cases U l hne hpre hstart hkind hstack
  refine ⟨h1, h2, ?_, ?_, fun n => rfl⟩
  · constructor
    · rintro ⟨l', hl'⟩
      cases hexp : l.peek.2.shouldExpectDelim l.peek.1 with
      | false => rfl
      | true =>
        obtain ⟨l'', c, -, -, hs, -⟩ := h2 hexp
        rw [hs] at hl'
        simp at hl'
    · intro hexp
      obtain ⟨l', hs, -⟩ := h1 hexp
      exact ⟨l', hs⟩
  · intro htop hbr
    obtain ⟨-, hlt⟩ := HasPrefix_pos_lt hne hpre
    have hexp : l.peek.2.shouldExpectDelim l.peek.1 = true := by
      rw [peek_of_lt l hlt]
      unfold HasPrefix at hbr
      obtain ⟨t, ht⟩ := List.isPrefixOf_iff_prefix.mp hbr
      simp [lexer.shouldExpectDelim, htop, ← ht, bytes, DecodeRuneInString]
    obtain ⟨l', c, hc, -, hs, hi, hrest⟩ := h2 hexp
    rw [htop] at hc
    cases hc
    exact ⟨l', hs, by simpa using hi, hrest⟩

/-- The end-marker rule at the inner braces of "\x7b\x7b \x7ba:\x7bb:1\x7d\x7d \x7d\x7d": the first
brace is sent as a right-brace item and popped. -/
theorem end_marker_rule_witness :
    (lexerAtInnerBraces.rightDelim ≠ [] ∧
      HasPrefix (lexerAtInnerBraces.input.drop lexerAtInnerBraces.pos)
        lexerAtInnerBraces.rightDelim = true ∧
      lexerAtInnerBraces.start ≤ lexerAtInnerBraces.pos ∧
      (lexerAtInnerBraces.rightDelim = lexerAtInnerBraces.cfg.BlockEndString ∨
        lexerAtInnerBraces.rightDelim = lexerAtInnerBraces.cfg.VariableEndString) ∧
      ∀ c ∈ lexerAtInnerBraces.delimStack, c = 0x29 ∨ c = 0x7D ∨ c = 0x5D) ∧
    ∃ l', lexInsideBlockStep noTables lexerAtInnerBraces = .ok (l', none) ∧
      l'.items = [⟨tokenRbrace, 10, .text (bytes "\x7d")⟩] ∧
      l'.delimStack = [0x7D] ∧ l'.pos = 11 ∧ l'.start = l'.pos :=
  ⟨⟨by decide, by decide, by decide, by decide, by decide⟩,
   (end_marker_rule noTables lexerAtInnerBraces (by decide) (by decide) (by decide)
      (by decide) (by decide)).2.2.2.1 rfl rfl⟩

theorem IndexAny_zero {name : List Nat} (h : IndexAny name = some 0) :
    ∃ b t, name = b :: t ∧ (b = 0x2E ∨ b = 0x5B) := by
  cases name with
  | nil => simp [IndexAny] at h
  | cons b t =>
    refine ⟨b, t, rfl, ?_⟩
    unfold IndexAny at h
    by_contra hb
    simp [hb] at h

theorem IndexAny_le (name : List Nat) (i : Nat) (h : IndexAny name = some i) :
    i < name.length := by
  induction name generalizing i with
  | nil => simp [IndexAny] at h
  | cons b t ih =>
    unfold IndexAny at h
    split at h
    · cases h; simp
    · cases ht : IndexAny t with
      | none => simp [ht] at h
      | some j =>
        simp [ht] at h
        have := ih j ht
        simp; omega

theorem hasChild_child_lt {name p c : List Nat} {e : Bool}
    (h : hasChild name = .ok (p, c, e)) (hc : c ≠ []) : c.length < name.length := by
  unfold hasChild at h
  split at h
  · rename_i h0
    obtain ⟨b, t, rfl, hb⟩ := IndexAny_zero h0
    rcases hb with rfl | rfl
    · simp only [hasChildSplit] at h
      split at h
      · simp at h; exact absurd h.2.1 hc
      · simp at h
        obtain ⟨-, rfl, -⟩ := h
        simp; omega
    · simp only [hasChildBracket] at h
      split at h
      · simp at h; exact absurd h.2.1 hc
      · split at h
        · split at h
          · split at h
            · simp at h; obtain ⟨-, rfl, -⟩ := h; simp; omega
            · simp at h
          · simp at h; obtain ⟨-, rfl, -⟩ := h; simp; omega
        · simp at h
  · rename_i hi
    simp only [hasChildSplit] at h
    split at h
    · simp at h; exact absurd h.2.1 hc
    · rename_i j hj
      simp at h
      obtain ⟨-, rfl, -⟩ := h
      have hj0 : j ≠ 0 := by
        rintro rfl
        exact hi hj
      have := IndexAny_le name j hj
      simp
      omega

theorem lookupStep_child_lt {c t : Context} {name cname : List Nat}
    (h : lookupStep c name = .ok (.inr (t, cname))) : cname.length < name.length := by
  unfold lookupStep at h
  split at h
  · simp at h
  · simp at h
  · rename_i pname cn err hch
    have key : ∀ (v : Value) (ex : Bool) (r : Ret ((Value × Bool) ⊕ Context)),
        r = lookupChild v ex cn →
        (match r with
          | .ok (.inl vo) => (Ret.ok (.inl vo) : Ret ((Value × Bool) ⊕ Context × List Nat))
          | .ok (.inr t) => .ok (.inr (t, cn))
          | .panic => .panic
          | .timeout => .timeout) = .ok (.inr (t, cname)) →
        cname.length < name.length := by
      intro v ex r hr hm
      by_cases hcn : cn = []
      · subst hcn
        simp [lookupChild] at hr
        subst hr
        simp at hm
      · split at hm
        · simp at hm
        · simp at hm
          obtain ⟨-, rfl⟩ := hm
          exact hasChild_child_lt hch hcn
        · simp at hm
        · simp at hm
    simp only at h
    split at h
    · split at h
      · simp at h
      · split at h
        · exact key _ _ _ rfl h
        · simp at h
    · split at h
      · exact key _ _ _ rfl h
      · simp at h
    · simp at h

theorem lookupFuel_enough (n m : Nat) (c : Context) (name : List Nat)
    (hn : name.length < n) (hm : name.length < m) :
    c.lookupFuel n name = c.lookupFuel m name := by
  induction n generalizing m c name with
  | zero => omega
  | succ n ih =>
    cases m with
    | zero => omega
    | succ m =>
      unfold Context.lookupFuel
      cases hs : lookupStep c name with
      | ok a =>
        cases a with
        | inl vo => rfl
        | inr tc =>
          obtain ⟨t, cname⟩ := tc
          have := lookupStep_child_lt hs
          exact ih m t cname (by omega) (by omega)
      | panic => rfl
      | timeout => rfl
theorem IndexAny_append_dot (h r : List Nat) (hdot : ∀ b ∈ h, b ≠ 0x2E ∧ b ≠ 0x5B) :
    IndexAny (h ++ 0x2E :: r) = some h.length := by
  induction h with
  | nil => simp [IndexAny]
  | cons b t ih =>
    have hb := hdot b (List.mem_cons_self _ _)
    have := ih (fun x hx => hdot x (List.mem_cons_of_mem _ hx))
    simp [IndexAny, hb.1, hb.2, this]

theorem hasChild_dotted (h r : List Nat) (hh : h ≠ [])
    (hdot : ∀ b ∈ h, b ≠ 0x2E ∧ b ≠ 0x5B) :
    hasChild (h ++ 0x2E :: r) = .ok (h, 0x2E :: r, false) := by
  unfold hasChild
  rw [IndexAny_append_dot h r hdot]
  split
  · rename_i h0
    simp at h0
    exact absurd h0 hh
  · simp [hasChildSplit]

theorem hasChild_leading_dot (r : List Nat) (h1 : r.head? ≠ some 0x2E)
    (h2 : r.head? ≠ some 0x5B) : hasChild (0x2E :: r) = hasChild r := by
  have hl : hasChild (0x2E :: r) = .ok (hasChildSplit r (IndexAny r)) := by
    simp [hasChild, IndexAny]
  rw [hl]
  unfold hasChild
  split
  · rename_i h0
    obtain ⟨b, t, rfl, hb⟩ := IndexAny_zero h0
    rcases hb with rfl | rfl
    · simp at h1
    · simp at h2
  · rfl

theorem lookupStep_leading_dot (c : Context) (r : List Nat) (h1 : r.head? ≠ some 0x2E)
    (h2 : r.head? ≠ some 0x5B) : lookupStep c (0x2E :: r) = lookupStep c r := by
  unfold lookupStep
  rw [hasChild_leading_dot r h1 h2]

theorem lookupFuel_succ (n : Nat) (c : Context) (name : List Nat) :
    c.lookupFuel (n + 1) name =
      match lookupStep c name with
      | .ok (.inl vo) => .ok vo
      | .ok (.inr (t, cname)) => Context.lookupFuel n t cname
      | .panic => .panic
      | .timeout => .timeout := rfl

/-- C10 as amended: for a mapping-backed scope, a key h (non-empty, without
dot or opening bracket) and a path r that does not start with a dot or an
opening bracket: if the value at h is a nested Scope, looking h.r up is looking
r up in that Scope; and, for every path r', if the value at h is there and is
not a Scope, the lookup of h.r' returns that value with found = false. -/
theorem lookup_descends (entries : Entries) (h r : List Nat) (hh : h ≠ [])
    (hdot : ∀ b ∈ h, b ≠ 0x2E ∧ b ≠ 0x5B)
    (hr1 : r.head? ≠ some 0x2E) (hr2 : r.head? ≠ some 0x5B) :
    (∀ k b, entries.MapIndex h = .context k b →
      Context.lookup ⟨.Map, .map entries⟩ (h ++ 0x2E :: r) = Context.lookup ⟨k, b⟩ r) ∧
    (∀ r', (entries.MapIndex h).IsValid = true →
      (∀ k b, entries.MapIndex h ≠ .context k b) →
      Context.lookup ⟨.Map, .map entries⟩ (h ++ 0x2E :: r') =
        .ok (entries.MapIndex h, false)) := by
  constructor
  · intro k b hv
    have hstep : lookupStep ⟨.Map, .map entries⟩ (h ++ 0x2E :: r) =
        .ok (.inr (⟨k, b⟩, 0x2E :: r)) := by
      simp [lookupStep, hasChild_dotted h r hh hdot, hv, lookupChild, Value.IsValid]
    have hpos := List.length_pos.mpr hh
    unfold Context.lookup
    rw [lookupFuel_succ, hstep]
    simp only
    rw [lookupFuel_enough _ (r.length + 1 + 1) _ _ (by simp; omega) (by simp)]
    rw [lookupFuel_succ, lookupStep_leading_dot _ r hr1 hr2, ← lookupFuel_succ]
    exact lookupFuel_enough _ _ _ _ (by omega) (by omega)
  · intro r' hv hns
    have hstep : lookupStep ⟨.Map, .map entries⟩ (h ++ 0x2E :: r') =
        .ok (.inl (entries.MapIndex h, false)) := by
      simp only [lookupStep, hasChild_dotted h r' hh hdot, lookupChild]
      cases hm : entries.MapIndex h with
      | context k b => exact absurd hm (hns k b)
      | invalid => rw [hm] at hv; simp [Value.IsValid] at hv
      | _ => simp [Value.IsValid]
    unfold Context.lookup
    rw [lookupFuel_succ, hstep]

/-- On {a: ScopeOf({b: 5})} the lookup of a.b is the lookup of b in the nested
scope, (5, true), and the lookup of a.c has found = false; on {x: 1} the lookup
of x.y returns found = false, 1 being no Scope. -/
theorem lookup_descends_witness :
    (bytes "a" ≠ [] ∧ (∀ b ∈ bytes "a", b ≠ 0x2E ∧ b ≠ 0x5B) ∧
      (bytes "b").head? ≠ some 0x2E ∧ (bytes "b").head? ≠ some 0x5B) ∧
    Context.lookup ⟨.Map, .map entriesAB⟩ (bytes "a" ++ 0x2E :: bytes "b") =
      Context.lookup ⟨.Map, .map entriesB⟩ (bytes "b") ∧
    Context.lookup ⟨.Map, .map entriesB⟩ (bytes "b") = .ok (.int 5, true) ∧
    Context.lookup ⟨.Map, .map entriesAB⟩ (bytes "a.c") = .ok (.invalid, false) ∧
    Context.lookup (scopeX 1) (bytes "x.y") = .ok (.int 1, false) :=
  ⟨⟨by decide, by decide, by decide, by decide⟩,
   (lookup_descends entriesAB (bytes "a") (bytes "b") (by decide) (by decide) (by decide)
      (by decide)).1 .Map (.map entriesB) rfl,
   rfl, rfl, rfl⟩

/-- C10 as stated fails for a remainder that starts with a bracket: in the
scope {b: 5} the path [b] is found, with the value 5, but a.[b] on
{a: ScopeOf({b: 5})} panics (the nested scope is asked for the empty key with
the remainder [b]); with the empty key present, on {a: ScopeOf({"": 0, b: 5})},
a.[b] returns (0, false) where [b] in the nested scope returns (5, true). -/
theorem lookup_descends_counterexample :
    Context.lookup ⟨.Map, .map entriesB⟩ (bytes "[b]") = .ok (.int 5, true) ∧
    Context.lookup ⟨.Map, .map entriesAB⟩ (bytes "a" ++ 0x2E :: bytes "[b]") = .panic ∧
    Context.lookup ⟨.Map, .map entriesEB⟩ (bytes "[b]") = .ok (.int 5, true) ∧
    Context.lookup ⟨.Map, .map entriesAEB⟩ (bytes "a" ++ 0x2E :: bytes "[b]") =
      .ok (.int 0, false) :=
  ⟨rfl, rfl, rfl, rfl⟩

theorem Res.Sat_bind {α β : Type} {P : α → Prop} {Q : β → Prop} {x : Res α} {f : α → Res β}
    (hx : x.Sat P) (hf : ∀ a, P a → (f a).Sat Q) : (x >>= f).Sat Q := by
  cases x with
  | ok a => exact hf a hx
  | panic l => trivial
  | timeout l => trivial

theorem openers_append (items : List item) (it : item) :
    openers (items ++ [it]) = openers items + (if isOpener it.typ then 1 else 0) := by
  simp [openers, List.countP_append, List.countP_cons]

theorem closers_append (items : List item) (it : item) :
    closers (items ++ [it]) = closers items + (if isCloser it.typ then 1 else 0) := by
  simp [closers, List.countP_append, List.countP_cons]

theorem stackCounts_congr {l l' : lexer} (h : stackCounts l) (hi : l'.items = l.items)
    (hs : l'.delimStack = l.delimStack) : stackCounts l' := by
  unfold stackCounts at *
  rw [hi, hs]; exact h

theorem next_items (l : lexer) : l.next.2.items = l.items ∧ l.next.2.delimStack = l.delimStack := by
  unfold lexer.next; split <;> simp

theorem stackCounts_next {l : lexer} (h : stackCounts l) : stackCounts l.next.2 :=
  stackCounts_congr h (next_items l).1 (next_items l).2

theorem stackCounts_backup {l : lexer} (h : stackCounts l) : stackCounts l.backup :=
  stackCounts_congr h rfl rfl

theorem stackCounts_ignore {l : lexer} (h : stackCounts l) : stackCounts l.ignore :=
  stackCounts_congr h rfl rfl

theorem stackCounts_peek {l : lexer} (h : stackCounts l) : stackCounts l.peek.2 :=
  stackCounts_backup (stackCounts_next h)

theorem stackCounts_accept {l : lexer} (valid : Int) (h : stackCounts l) :
    stackCounts (l.accept valid).2 := by
  unfold lexer.accept
  simp only
  split_ifs
  · exact stackCounts_next h
  · exact stackCounts_backup (stackCounts_next h)

theorem stackCounts_errorf {l : lexer} (msg : itemVal) (h : stackCounts l) :
    stackCounts (l.errorf msg) := by
  unfold stackCounts lexer.errorf at *
  simp [openers_append, closers_append, isOpener, isCloser]
  exact h

theorem stackCounts_atTerminator {l : lexer} (h : stackCounts l) :
    stackCounts l.atTerminator.2 := by
  unfold lexer.atTerminator
  simp only
  split_ifs <;> exact stackCounts_peek h

theorem stackCounts_emit {l : lexer} (t : itemType) (h : stackCounts l)
    (ho : isOpener t = false) (hc : isCloser t = false) : (l.emit t).Sat stackCounts := by
  unfold lexer.emit
  split
  · simp only [Res.Sat]
    unfold stackCounts at *
    simp [openers_append, closers_append, ho, hc]
    exact h
  · trivial

theorem stackCounts_emitText {l : lexer} (h : stackCounts l) : l.emitText.Sat stackCounts := by
  unfold lexer.emitText
  split
  · exact stackCounts_emit _ h rfl rfl
  · exact h

theorem stackCounts_emitLeft {l : lexer} (h : stackCounts l) : l.emitLeft.Sat stackCounts := by
  unfold lexer.emitLeft
  split_ifs
  · exact stackCounts_emit _ h rfl rfl
  · exact stackCounts_emit _ h rfl rfl
  · exact h

theorem stackCounts_emitRight {l : lexer} (h : stackCounts l) : l.emitRight.Sat stackCounts := by
  unfold lexer.emitRight
  split_ifs
  · exact stackCounts_emit _ h rfl rfl
  · exact stackCounts_emit _ h rfl rfl
  · exact h

theorem stackCounts_emitString {l : lexer} (h : stackCounts l) : l.emitString.Sat stackCounts := by
  unfold lexer.emitString
  refine Res.Sat_bind (stackCounts_emit _ (stackCounts_backup h) rfl rfl) ?_
  intro a ha
  exact stackCounts_ignore (stackCounts_next ha)
theorem stackCounts_lexTextEOF {l : lexer} (h : stackCounts l) :
    (lexTextEOF l).Sat fun r => stackCounts r.1 := by
  unfold lexTextEOF
  refine Res.Sat_bind (stackCounts_emitText h) fun a ha => ?_
  refine Res.Sat_bind (stackCounts_emit _ ha rfl rfl) fun b hb => ?_
  exact hb

theorem stackCounts_lexTextDefault {l : lexer} (h : stackCounts l) :
    (lexTextDefault l).Sat fun r => stackCounts r.1 :=
  stackCounts_next h

theorem stackCounts_lexTextComment {l : lexer} (h : stackCounts l) :
    (lexTextComment l).Sat fun r => stackCounts r.1 := by
  unfold lexTextComment
  split
  · exact Res.Sat_bind (stackCounts_emitText h) fun a ha => ha
  · exact stackCounts_lexTextDefault h

theorem stackCounts_lexTextVariable {l : lexer} (h : stackCounts l) :
    (lexTextVariable l).Sat fun r => stackCounts r.1 := by
  unfold lexTextVariable
  split
  · exact Res.Sat_bind (stackCounts_emitText h) fun a ha => stackCounts_congr ha rfl rfl
  · exact stackCounts_lexTextComment h

theorem stackCounts_lexTextBlock {l : lexer} (h : stackCounts l) :
    (lexTextBlock l).Sat fun r => stackCounts r.1 := by
  unfold lexTextBlock
  split
  · exact Res.Sat_bind (stackCounts_emitText h) fun a ha => stackCounts_congr ha rfl rfl
  · exact stackCounts_lexTextVariable h

theorem stackCounts_lexTextStep {l : lexer} (h : stackCounts l) :
    (lexTextStep l).Sat fun r => stackCounts r.1 := by
  unfold lexTextStep
  repeat' split
  all_goals first
    | trivial
    | exact stackCounts_lexTextEOF h
    | exact stackCounts_lexTextBlock h
    | exact stackCounts_lexTextVariable h
    | exact stackCounts_lexTextComment h
    | exact stackCounts_lexTextDefault h

theorem stackCounts_lexText (fuel : Nat) {l : lexer} (h : stackCounts l) :
    (lexText fuel l).Sat fun r => stackCounts r.1 := by
  induction fuel generalizing l with
  | zero => trivial
  | succ n ih =>
    unfold lexText
    refine Res.Sat_bind (stackCounts_lexTextStep h) fun a ha => ?_
    split
    · exact ha
    · exact ih ha

theorem stackCounts_lexBlock {l : lexer} (h : stackCounts l) :
    (lexBlock l).Sat fun r => stackCounts r.1 := by
  unfold lexBlock
  exact Res.Sat_bind (stackCounts_emitLeft (stackCounts_congr h rfl rfl)) fun a ha => ha

theorem stackCounts_emitAndLoop {l : lexer} (t : itemType) (h : stackCounts l)
    (ho : isOpener t = false) (hc : isCloser t = false) :
    (emitAndLoop t l).Sat fun r => stackCounts r.1 := by
  unfold emitAndLoop
  exact Res.Sat_bind (stackCounts_emit t h ho hc) fun a ha => ha

theorem stackCounts_emitByAccept {l : lexer} (valid : Int) (yes no : itemType)
    (h : stackCounts l) (ho : isOpener yes = false) (hc : isCloser yes = false)
    (ho' : isOpener no = false) (hc' : isCloser no = false) :
    (emitByAccept valid yes no l).Sat fun r => stackCounts r.1 := by
  unfold emitByAccept
  simp only
  split
  · exact stackCounts_emitAndLoop _ (stackCounts_accept _ h) ho hc
  · exact stackCounts_emitAndLoop _ (stackCounts_accept _ h) ho' hc'

theorem stackCounts_emitOpener {l : lexer} (t : itemType) (closer : Int) (h : stackCounts l)
    (ho : isOpener t = true) (hc : isCloser t = false) :
    (emitOpener t closer l).Sat fun r => stackCounts r.1 := by
  unfold emitOpener lexer.emit
  split
  · simp only [Res.ok_bind, Res.pure_eq, Res.Sat]
    unfold stackCounts at *
    simp [openers_append, closers_append, ho, hc]
    omega
  · trivial

theorem stackCounts_emitCloser {l : lexer} (r : Int) (t : itemType) (h : stackCounts l)
    (ho : isOpener t = false) (hc : isCloser t = true) :
    (emitCloser r t l).Sat fun r => stackCounts r.1 := by
  unfold emitCloser
  cases htop : l.delimStack.getLast? with
  | none =>
    simp only [lexer.expectDelim, htop, Bool.not_false, if_true, Res.Sat]
    exact stackCounts_errorf _ h
  | some e =>
    by_cases hne : e = r
    · have hlen : 0 < l.delimStack.length := by
        cases hd : l.delimStack with
        | nil => simp [hd] at htop
        | cons a b => simp
      simp only [lexer.expectDelim, htop, hne, ne_eq, not_true_eq_false, if_false, Bool.not_true,
        emitAndLoop, lexer.emit]
      simp only [Bool.false_eq_true, if_false]
      split
      · simp only [Res.ok_bind, Res.pure_eq, Res.Sat]
        unfold stackCounts at *
        simp [openers_append, closers_append, ho, hc]
        omega
      · trivial
    · simp only [lexer.expectDelim, htop, ne_eq, hne, not_false_eq_true, if_true, Bool.not_false,
        Res.Sat]
      exact stackCounts_errorf _ h

theorem Res.Sat_ite {α : Type} {P : α → Prop} {c : Prop} [Decidable c] {a b : Res α}
    (ha : a.Sat P) (hb : b.Sat P) : (if c then a else b).Sat P := by
  split <;> assumption

theorem stackCounts_lexOperator {l : lexer} (r : Int) (h : stackCounts l) :
    (lexOperator r l).Sat fun r => stackCounts r.1 := by
  unfold lexOperator
  refine Res.Sat_ite (stackCounts_emitAndLoop _ h rfl rfl) ?_
  refine Res.Sat_ite (stackCounts_emitByAccept _ _ _ h rfl rfl rfl rfl) ?_
  refine Res.Sat_ite (stackCounts_emitAndLoop _ h rfl rfl) ?_
  refine Res.Sat_ite (stackCounts_emitAndLoop _ h rfl rfl) ?_
  refine Res.Sat_ite (stackCounts_emitAndLoop _ h rfl rfl) ?_
  refine Res.Sat_ite (stackCounts_emitAndLoop _ h rfl rfl) ?_
  refine Res.Sat_ite (stackCounts_emitByAccept _ _ _ h rfl rfl rfl rfl) ?_
  refine Res.Sat_ite (stackCounts_emitByAccept _ _ _ h rfl rfl rfl rfl) ?_
  refine Res.Sat_ite (stackCounts_emitByAccept _ _ _ h rfl rfl rfl rfl) ?_
  refine Res.Sat_ite (stackCounts_emitByAccept _ _ _ h rfl rfl rfl rfl) ?_
  refine Res.Sat_ite (stackCounts_emitByAccept _ _ _ h rfl rfl rfl rfl) ?_
  refine Res.Sat_ite (Res.Sat_ite (stackCounts_emitAndLoop _ (stackCounts_accept _ h) rfl rfl) (stackCounts_accept _ h)) ?_
  refine Res.Sat_ite (stackCounts_emitByAccept _ _ _ h rfl rfl rfl rfl) ?_
  refine Res.Sat_ite (stackCounts_emitOpener _ _ h rfl rfl) ?_
  refine Res.Sat_ite (stackCounts_emitOpener _ _ h rfl rfl) ?_
  refine Res.Sat_ite (stackCounts_emitOpener _ _ h rfl rfl) ?_
  refine Res.Sat_ite (stackCounts_emitCloser _ _ h rfl rfl) ?_
  refine Res.Sat_ite (stackCounts_emitCloser _ _ h rfl rfl) ?_
  refine Res.Sat_ite (stackCounts_emitCloser _ _ h rfl rfl) ?_
  exact h
theorem stackCounts_lexInsideBlockRune (U : unicodeTables) {l : lexer} (h : stackCounts l) :
    (lexInsideBlockRune U l).Sat fun r => stackCounts r.1 := by
  unfold lexInsideBlockRune
  have hn := stackCounts_next h
  refine Res.Sat_ite hn ?_
  refine Res.Sat_ite hn ?_
  refine Res.Sat_ite hn ?_
  refine Res.Sat_ite (stackCounts_ignore hn) ?_
  refine Res.Sat_ite (stackCounts_ignore hn) ?_
  exact stackCounts_lexOperator _ hn

theorem stackCounts_lexInsideBlockStep (U : unicodeTables) {l : lexer} (h : stackCounts l) :
    (lexInsideBlockStep U l).Sat fun r => stackCounts r.1 := by
  unfold lexInsideBlockStep
  refine Res.Sat_ite h ?_
  refine Res.Sat_ite trivial ?_
  refine Res.Sat_ite ?_ (stackCounts_lexInsideBlockRune U h)
  refine Res.Sat_ite ?_ (stackCounts_lexInsideBlockRune U (stackCounts_peek h))
  exact Res.Sat_bind (stackCounts_emitRight (stackCounts_congr (stackCounts_peek h) rfl rfl))
    fun a ha => ha

theorem stackCounts_lexInsideBlock (U : unicodeTables) (fuel : Nat) {l : lexer}
    (h : stackCounts l) : (lexInsideBlock U fuel l).Sat fun r => stackCounts r.1 := by
  induction fuel generalizing l with
  | zero => trivial
  | succ n ih =>
    unfold lexInsideBlock
    refine Res.Sat_bind (stackCounts_lexInsideBlockStep U h) fun a ha => ?_
    split
    · exact ha
    · exact ih ha

theorem stackCounts_lexSpaceLoop (fuel : Nat) {l : lexer} (h : stackCounts l) :
    (lexSpaceLoop fuel l).Sat stackCounts := by
  induction fuel generalizing l with
  | zero => trivial
  | succ n ih =>
    unfold lexSpaceLoop
    exact Res.Sat_ite (ih (stackCounts_next (stackCounts_peek h))) (stackCounts_peek h)

theorem stackCounts_lexSpace (fuel : Nat) {l : lexer} (h : stackCounts l) :
    (lexSpace fuel l).Sat fun r => stackCounts r.1 := by
  unfold lexSpace
  refine Res.Sat_bind (stackCounts_lexSpaceLoop fuel h) fun a ha => ?_
  exact Res.Sat_bind (stackCounts_emit _ ha rfl rfl) fun b hb => hb

theorem stackCounts_lexIdentifierEnd (r : Int) {l : lexer} (h : stackCounts l) :
    (lexIdentifierEnd r l).Sat fun r => stackCounts r.1 := by
  unfold lexIdentifierEnd
  have ht := stackCounts_atTerminator (stackCounts_backup h)
  refine Res.Sat_ite ?_ trivial
  refine Res.Sat_ite (stackCounts_errorf _ ht) ?_
  refine Res.Sat_ite ?_ ?_
  · exact Res.Sat_bind (stackCounts_emit _ ht rfl rfl) fun b hb => hb
  · exact Res.Sat_bind (stackCounts_emit _ ht rfl rfl) fun b hb => hb

theorem stackCounts_lexIdentifier (U : unicodeTables) (fuel : Nat) {l : lexer}
    (h : stackCounts l) : (lexIdentifier U fuel l).Sat fun r => stackCounts r.1 := by
  induction fuel generalizing l with
  | zero => trivial
  | succ n ih =>
    unfold lexIdentifier
    exact Res.Sat_ite (ih (stackCounts_next h)) (stackCounts_lexIdentifierEnd _ (stackCounts_next h))

theorem stackCounts_lexNumberLoop (U : unicodeTables) (fuel : Nat) (tokType : itemType)
    {l : lexer} (h : stackCounts l) (ht : tokType = tokenInteger ∨ tokType = tokenFloat) :
    (lexNumberLoop U fuel tokType l).Sat fun r => stackCounts r.1 := by
  induction fuel generalizing l tokType with
  | zero => trivial
  | succ n ih =>
    unfold lexNumberLoop
    have hn := stackCounts_next h
    refine Res.Sat_ite (ih _ hn ht) ?_
    refine Res.Sat_ite (Res.Sat_ite (ih _ hn (Or.inr rfl)) (ih _ (stackCounts_errorf _ hn) ht)) ?_
    refine Res.Sat_bind (stackCounts_emit _ (stackCounts_backup hn) ?_ ?_) fun b hb => hb
    · rcases ht with rfl | rfl <;> rfl
    · rcases ht with rfl | rfl <;> rfl

theorem stackCounts_lexStringLoop (fuel : Nat) (r prev : Int) {l : lexer} (h : stackCounts l) :
    (lexStringLoop fuel r prev l).Sat stackCounts := by
  induction fuel generalizing l r prev with
  | zero => trivial
  | succ n ih =>
    unfold lexStringLoop
    exact Res.Sat_ite (ih _ _ (stackCounts_next h)) h

theorem stackCounts_lexString (fuel : Nat) {l : lexer} (h : stackCounts l) :
    (lexString fuel l).Sat fun r => stackCounts r.1 := by
  unfold lexString
  refine Res.Sat_bind (stackCounts_lexStringLoop fuel _ _ (stackCounts_next h)) fun a ha => ?_
  exact Res.Sat_bind (stackCounts_emitString ha) fun b hb => hb

theorem stackCounts_lexRawStringLoop (fuel : Nat) (r : Int) {l : lexer} (h : stackCounts l) :
    (lexRawStringLoop fuel r l).Sat stackCounts := by
  induction fuel generalizing l r with
  | zero => trivial
  | succ n ih =>
    unfold lexRawStringLoop
    exact Res.Sat_ite (ih _ (stackCounts_next h)) h

theorem stackCounts_lexRawString (fuel : Nat) {l : lexer} (h : stackCounts l) :
    (lexRawString fuel l).Sat fun r => stackCounts r.1 := by
  unfold lexRawString
  refine Res.Sat_bind (stackCounts_lexRawStringLoop fuel _ (stackCounts_next h)) fun a ha => ?_
  exact Res.Sat_bind (stackCounts_emitString ha) fun b hb => hb

theorem stackCounts_lexComment {l : lexer} (h : stackCounts l) :
    (lexComment l).Sat fun r => stackCounts r.1 := by
  unfold lexComment
  refine Res.Sat_bind (stackCounts_emit _ (stackCounts_congr h rfl rfl) rfl rfl) fun a ha => ?_
  split
  · exact stackCounts_errorf _ ha
  · refine Res.Sat_bind (stackCounts_emitText (stackCounts_congr ha rfl rfl)) fun b hb => ?_
    exact Res.Sat_bind (stackCounts_emit _ (stackCounts_congr hb rfl rfl) rfl rfl) fun c hc => hc

theorem stackCounts_call (U : unicodeTables) (s : stateFn) (fuel : Nat) {l : lexer}
    (h : stackCounts l) : (s.call U fuel l).Sat fun r => stackCounts r.1 := by
  cases s
  · exact stackCounts_lexText fuel h
  · exact stackCounts_lexBlock h
  · exact stackCounts_lexInsideBlock U fuel h
  · exact stackCounts_lexSpace fuel h
  · exact stackCounts_lexIdentifier U fuel h
  · exact stackCounts_lexNumberLoop U fuel _ h (Or.inl rfl)
  · exact stackCounts_lexString fuel h
  · exact stackCounts_lexRawString fuel h
  · exact stackCounts_lexComment h

theorem stackCounts_runFrom (U : unicodeTables) (fuel : Nat) (s : stateFn) {l : lexer}
    (h : stackCounts l) : (runFrom U fuel s l).Sat stackCounts := by
  induction fuel generalizing l s with
  | zero => trivial
  | succ n ih =>
    unfold runFrom
    refine Res.Sat_bind (stackCounts_call U s n h) fun a ha => ?_
    split
    · exact ha
    · exact ih _ ha
/-- Whenever a run ends, the length of the delimiter stack plus the number of
closing bracket items sent is the number of opening bracket items sent, so the
stack is empty exactly when the two numbers agree. -/
theorem stack_counts_at_end (U : unicodeTables) (cfg : lexerCfg) (input : List Nat)
    (fuel : Nat) (l : lexer) (h : run U fuel (lexer.new cfg input) = .ok l) :
    l.delimStack.length + closers l.items = openers l.items ∧
    (l.delimStack = [] ↔ closers l.items = openers l.items) := by
  have h0 : stackCounts (lexer.new cfg input) := by
    simp [stackCounts, lexer.new, openers, closers]
  have hs := stackCounts_runFrom U fuel .lexText h0
  unfold run at h
  rw [h] at hs
  have hc : l.delimStack.length + closers l.items = openers l.items := hs
  refine ⟨hc, ?_⟩
  rw [← List.length_eq_zero]
  omega

/-- The scan of "{{ ( }}" ends by sending end-of-input with one expected
closer on the stack, for one opener item and no closer item. -/
theorem stack_counts_at_end_witness :
    run noTables 20 (lexer.new defaultCfg openParenSource) = .ok openParenFinal ∧
    openParenFinal.delimStack.length + closers openParenFinal.items =
      openers openParenFinal.items ∧
    (openParenFinal.delimStack = [] ↔
      closers openParenFinal.items = openers openParenFinal.items) :=
  ⟨rfl, stack_counts_at_end noTables defaultCfg openParenSource 20 openParenFinal rfl⟩

/-- C4: on the source "{{ ( }}" the scan ends by sending end-of-input, its
one terminal item, with the closer of the open parenthesis still on the
delimiter stack: the end marker of the tag is taken with the parenthesis
open, so the stack is not empty at end-of-input. The stack then leaks into
the next tag: "{{ ( }}{{ ) }}" is scanned to end-of-input without an error
item, the parenthesis of the first tag being closed in the second. The
closing side is checked: "{{ ) }}" and "{{ ( ] }}" end with the "Imbalanced
delimiters" error item. -/
theorem unclosed_paren_reaches_eof (U : unicodeTables) (n : Nat) :
    run U (n + 10) (lexer.new defaultCfg openParenSource) = .ok openParenFinal ∧
    openParenFinal.items.getLast? = some ⟨tokenEOF, 7, .text []⟩ ∧
    terminals openParenFinal.items = [⟨tokenEOF, 7, .text []⟩] ∧
    openParenFinal.delimStack = [0x29] ∧
    ¬ (∀ (U : unicodeTables) (fuel : Nat) (input : List Nat) (l : lexer) (last : item),
        run U fuel (lexer.new defaultCfg input) = .ok l →
        l.items.getLast? = some last → last.typ = tokenEOF → l.delimStack = []) ∧
    scan U defaultCfg (bytes "\x7b\x7b ( \x7d\x7d\x7b\x7b ) \x7d\x7d") (n + 20) = .ok
      [⟨tokenVariableBegin, 0, .text (bytes "\x7b\x7b")⟩,
       ⟨tokenWhitespace, 2, .text (bytes " ")⟩,
       ⟨tokenLparen, 3, .text (bytes "(")⟩,
       ⟨tokenWhitespace, 4, .text (bytes " ")⟩,
       ⟨tokenVariableEnd, 5, .text (bytes "\x7d\x7d")⟩,
       ⟨tokenVariableBegin, 7, .text (bytes "\x7b\x7b")⟩,
       ⟨tokenWhitespace, 9, .text (bytes " ")⟩,
       ⟨tokenRparen, 10, .text (bytes ")")⟩,
       ⟨tokenWhitespace, 11, .text (bytes " ")⟩,
       ⟨tokenVariableEnd, 12, .text (bytes "\x7d\x7d")⟩,
       ⟨tokenEOF, 14, .text []⟩] ∧
    scan U defaultCfg (bytes "\x7b\x7b ) \x7d\x7d") (n + 10) = .ok
      [⟨tokenVariableBegin, 0, .text (bytes "\x7b\x7b")⟩,
       ⟨tokenWhitespace, 2, .text (bytes " ")⟩,
       ⟨tokenError, 3, .imbalancedNotExpecting 0x29⟩] ∧
    scan U defaultCfg (bytes "\x7b\x7b ( ] \x7d\x7d") (n + 10) = .ok
      [⟨tokenVariableBegin, 0, .text (bytes "\x7b\x7b")⟩,
       ⟨tokenWhitespace, 2, .text (bytes " ")⟩,
       ⟨tokenLparen, 3, .text (bytes "(")⟩,
       ⟨tokenWhitespace, 4, .text (bytes " ")⟩,
       ⟨tokenError, 5, .imbalancedExpected 0x29 0x5D⟩] := by
  refine ⟨rfl, rfl, rfl, rfl, ?_, rfl, rfl, rfl⟩
  intro hall
  have := hall noTables 10 openParenSource openParenFinal _ rfl rfl rfl
  simp [openParenFinal] at this

theorem decode_cases (b : Nat) (t : List Nat) :
    (DecodeRuneInString (b :: t)).2 = 1 ∨
    ((DecodeRuneInString (b :: t)).2 = 2 ∧ ∃ s1 t', t = s1 :: t' ∧ 0x80 ≤ s1) ∨
    ((DecodeRuneInString (b :: t)).2 = 3 ∧ ∃ s1 s2 t', t = s1 :: s2 :: t' ∧ 0x80 ≤ s1 ∧ 0x80 ≤ s2) ∨
    ((DecodeRuneInString (b :: t)).2 = 4 ∧
      ∃ s1 s2 s3 t', t = s1 :: s2 :: s3 :: t' ∧ 0x80 ≤ s1 ∧ 0x80 ≤ s2 ∧ 0x80 ≤ s3) := by
  unfold DecodeRuneInString
  simp only
  by_cases h1 : b < 0x80
  · left; rw [if_pos h1]
  rw [if_neg h1]
  by_cases h2 : b < 0xC2
  · left; rw [if_pos h2]
  rw [if_neg h2]
  by_cases h3 : b < 0xE0
  · rw [if_pos h3]
    cases t with
    | nil => left; rfl
    | cons s1 t' =>
      simp only
      by_cases hr : 0x80 ≤ s1 ∧ s1 ≤ 0xBF
      · right; left; rw [if_pos hr]; exact ⟨rfl, s1, t', rfl, hr.1⟩
      · left; rw [if_neg hr]
  rw [if_neg h3]
  by_cases h4 : b < 0xF0
  · rw [if_pos h4]
    match t with
    | [] => left; rfl
    | [_] => left; rfl
    | s1 :: s2 :: t' =>
      simp only
      by_cases hr : (if b = 0xE0 then 0xA0 else 0x80) ≤ s1 ∧ s1 ≤ (if b = 0xED then 0x9F else 0xBF)
      · rw [if_pos hr]
        by_cases hr2 : 0x80 ≤ s2 ∧ s2 ≤ 0xBF
        · right; right; left; rw [if_pos hr2]
          refine ⟨rfl, s1, s2, t', rfl, ?_, hr2.1⟩
          have := hr.1
          split_ifs at this <;> omega
        · left; rw [if_neg hr2]
      · left; rw [if_neg hr]
  rw [if_neg h4]
  by_cases h5 : b < 0xF5
  · rw [if_pos h5]
    match t with
    | [] => left; rfl
    | [_] => left; rfl
    | [_, _] => left; rfl
    | s1 :: s2 :: s3 :: t' =>
      simp only
      by_cases hr : (if b = 0xF0 then 0x90 else 0x80) ≤ s1 ∧ s1 ≤ (if b = 0xF4 then 0x8F else 0xBF)
      · rw [if_pos hr]
        by_cases hr2 : 0x80 ≤ s2 ∧ s2 ≤ 0xBF
        · rw [if_pos hr2]
          by_cases hr3 : 0x80 ≤ s3 ∧ s3 ≤ 0xBF
          · right; right; right; rw [if_pos hr3]
            refine ⟨rfl, s1, s2, s3, t', rfl, ?_, hr2.1, hr3.1⟩
            have := hr.1
            split_ifs at this <;> omega
          · left; rw [if_neg hr3]
        · left; rw [if_neg hr2]
      · left; rw [if_neg hr]
  · left; rw [if_neg h5]

theorem decode_width (b : Nat) (t : List Nat) :
    1 ≤ (DecodeRuneInString (b :: t)).2 ∧
    (DecodeRuneInString (b :: t)).2 ≤ (b :: t).length ∧
    ∀ i c, 1 ≤ i → i < (DecodeRuneInString (b :: t)).2 → (b :: t).get? i = some c →
      0x80 ≤ c := by
  rcases decode_cases b t with h | ⟨h, s1, t', rfl, h1⟩ | ⟨h, s1, s2, t', rfl, h1, h2⟩ |
    ⟨h, s1, s2, s3, t', rfl, h1, h2, h3⟩
  · rw [h]; refine ⟨le_refl _, by simp, ?_⟩
    intro i c hi hi'; omega
  · rw [h]; refine ⟨by omega, by simp, ?_⟩
    intro i c hi hi' hc
    have : i = 1 := by omega
    subst this
    simp at hc; omega
  · rw [h]; refine ⟨by omega, by simp, ?_⟩
    intro i c hi hi' hc
    have : i = 1 ∨ i = 2 := by omega
    rcases this with rfl | rfl <;> simp at hc <;> omega
  · rw [h]; refine ⟨by omega, by simp, ?_⟩
    intro i c hi hi' hc
    have : i = 1 ∨ i = 2 ∨ i = 3 := by omega
    rcases this with rfl | rfl | rfl <;> simp at hc <;> omega
theorem lexText_succ (fuel : Nat) (l : lexer) :
    lexText (fuel + 1) l =
      (lexTextStep l >>= fun lr =>
        match lr.2 with
        | some ret => pure (lr.1, ret)
        | none => lexText fuel lr.1) := rfl

theorem input_at {l : lexer} {a p rest : List Nat} (hin : l.input = a ++ p ++ rest)
    (hpos : l.pos = a.length) :
    l.input.drop l.pos = p ++ rest ∧ l.input.length = a.length + p.length + rest.length := by
  rw [hin, hpos]
  constructor
  · rw [List.append_assoc, List.drop_left]
  · simp; omega

theorem defaultCfg_fields :
    defaultCfg.BlockStartString = [0x7B, 0x25] ∧ defaultCfg.BlockEndString = [0x25, 0x7D] ∧
    defaultCfg.VariableStartString = [0x7B, 0x7B] ∧ defaultCfg.VariableEndString = [0x7D, 0x7D] ∧
    defaultCfg.CommentStartString = [0x7B, 0x23] ∧ defaultCfg.CommentEndString = [0x23, 0x7D] := by
  decide

theorem lexTextStep_plain (l : lexer) (a rest : List Nat) (b : Nat)
    (hcfg : l.cfg = defaultCfg) (hin : l.input = a ++ [b] ++ rest) (hpos : l.pos = a.length)
    (hb : b ≠ 0x7B) :
    lexTextStep l = .ok ({ l with width := (DecodeRuneInString (b :: rest)).2,
                                  pos := l.pos + (DecodeRuneInString (b :: rest)).2 }, none) := by
  obtain ⟨hd, hl⟩ := input_at hin hpos
  have hlt : l.pos < l.input.length := by rw [hl, hpos]; simp; omega
  have hget : l.input.get? l.pos = some b := by
    rw [List.get?_eq_getElem?, ← List.head?_drop, hd]; rfl
  obtain ⟨h1, -, h2, -, h3, -⟩ := defaultCfg_fields
  unfold lexTextStep
  rw [if_neg (Nat.ne_of_lt hlt), hget]
  simp only [hcfg, h1, h2, h3, List.head?, if_neg hb, lexTextDefault]
  rw [next_of_lt l hlt, hd]
  simp [hcfg]

theorem lexText_skip (m : Nat) : ∀ (l : lexer) (a p rest : List Nat), p.length ≤ m →
    l.cfg = defaultCfg → l.input = a ++ p ++ rest → l.pos = a.length →
    (∀ b ∈ p, b ≠ 0x7B) → (rest = [] ∨ rest.head? = some 0x7B) →
    ∃ k w, ∀ fuel, lexText (fuel + k) l =
      lexText fuel { l with pos := a.length + p.length, width := w } := by
  induction m with
  | zero =>
    intro l a p rest hm hcfg hin hpos hp hrest
    have : p = [] := List.length_eq_zero.mp (Nat.le_zero.mp hm)
    subst this
    refine ⟨0, l.width, fun fuel => ?_⟩
    simp [← hpos]
  | succ m ih =>
    intro l a p rest hm hcfg hin hpos hp hrest
    cases p with
    | nil =>
      refine ⟨0, l.width, fun fuel => ?_⟩
      simp [← hpos]
    | cons b t =>
      have hb := hp b (List.mem_cons_self _ _)
      have hin' : l.input = a ++ [b] ++ (t ++ rest) := by simp [hin]
      have hstep := lexTextStep_plain l a (t ++ rest) b hcfg hin' hpos hb
      obtain ⟨hw1, hw2, hw3⟩ := decode_width b (t ++ rest)
      set w := (DecodeRuneInString (b :: (t ++ rest))).2 with hw
      have hwt : w ≤ (b :: t).length := by
        by_contra hcon
        push_neg at hcon
        rcases hrest with rfl | hr
        · simp at hw2 hcon; omega
        · cases rest with
          | nil => simp at hr
          | cons c rest' =>
            simp at hr
            subst hr
            have := hw3 (b :: t).length 0x7B (by simp) hcon (by
              rw [List.get?_eq_getElem?, ← List.cons_append, List.getElem?_append_right (le_refl _)]
              simp)
            omega
      obtain ⟨k, w', hk⟩ := ih { l with width := w, pos := l.pos + w }
        (a ++ (b :: t).take w) ((b :: t).drop w) rest
        (by simp at hm ⊢; omega) hcfg
        (by
          rw [hin]; simp only [List.append_assoc]
          rw [← List.append_assoc (List.take w (b :: t)), List.take_append_drop])
        (by simp only [List.length_cons] at hwt; simp [hpos]; omega)
        (fun x hx => hp x (List.mem_of_mem_drop hx)) hrest
      refine ⟨k + 1, w', fun fuel => ?_⟩
      rw [← Nat.add_assoc, lexText_succ, hstep]
      simp only [Res.ok_bind]
      rw [hk]
      congr 1
      simp
      simp at hwt
      omega
theorem runFrom_succ (U : unicodeTables) (fuel : Nat) (s : stateFn) (l : lexer) :
    runFrom U (fuel + 1) s l =
      (s.call U fuel l >>= fun ls =>
        match ls.2 with
        | none => pure ls.1
        | some s' => runFrom U fuel s' ls.1) := rfl

theorem EndsWith.step {U : unicodeTables} {s s' : stateFn} {l l' : lexer} {items : List item}
    (K : Nat) (hcall : ∀ fuel, K ≤ fuel → s.call U fuel l = .ok (l', some s'))
    (h : EndsWith U s' l' items) : EndsWith U s l items := by
  obtain ⟨N, hN⟩ := h
  refine ⟨max K N + 1, fun fuel hf => ?_⟩
  obtain ⟨f, rfl⟩ : ∃ f, fuel = f + 1 := ⟨fuel - 1, by omega⟩
  rw [runFrom_succ, hcall f (by omega)]
  exact hN f (by omega)

theorem EndsWith.last {U : unicodeTables} {s : stateFn} {l l' : lexer} {items : List item}
    (K : Nat) (hcall : ∀ fuel, K ≤ fuel → s.call U fuel l = .ok (l', none))
    (h : l'.items = items) : EndsWith U s l items := by
  refine ⟨K + 1, fun fuel hf => ?_⟩
  obtain ⟨f, rfl⟩ : ∃ f, fuel = f + 1 := ⟨fuel - 1, by omega⟩
  rw [runFrom_succ, hcall f (by omega)]
  exact ⟨l', rfl, h⟩

theorem EndsWith.scan {U : unicodeTables} {cfg : lexerCfg} {input : List Nat}
    {items : List item} (h : EndsWith U .lexText (lexer.new cfg input) items) :
    ∃ N, ∀ fuel, N ≤ fuel → scan U cfg input fuel = .ok items := by
  obtain ⟨N, hN⟩ := h
  refine ⟨N, fun fuel hf => ?_⟩
  obtain ⟨r, hr, hi⟩ := hN fuel hf
  simp [jigo.scan, run, hr, Res.bind, hi]

theorem emitText_ok (l : lexer) (h1 : l.start ≤ l.pos) (h2 : l.pos ≤ l.input.length) :
    l.emitText = .ok { l with
      items := l.items ++
        (if l.start < l.pos then [⟨tokenText, l.start, .text ((l.input.take l.pos).drop l.start)⟩]
         else []),
      start := l.pos } := by
  unfold lexer.emitText
  by_cases h : l.pos > l.start
  · rw [if_pos h, emit_ok _ _ h1 h2]
    simp [h]
  · rw [if_neg h]
    have : l.start = l.pos := by omega
    have h' : ¬ l.start < l.pos := by omega
    rw [if_neg h']
    cases l
    simp at this ⊢
    exact this

theorem HasPrefix_cons (b c : Nat) (s p : List Nat) :
    HasPrefix (b :: s) (c :: p) = (c == b && HasPrefix s p) := by
  simp [HasPrefix, List.isPrefixOf]

theorem HasPrefix_nil (s : List Nat) : HasPrefix s [] = true := by
  simp [HasPrefix]

theorem lexText_at_variable (fuel : Nat) (l : lexer) (a rest : List Nat)
    (hcfg : l.cfg = defaultCfg) (hin : l.input = a ++ [0x7B, 0x7B] ++ rest)
    (hpos : l.pos = a.length) (hstart : l.start ≤ l.pos) :
    lexText (fuel + 1) l = .ok ({ l with
      leftDelim := [0x7B, 0x7B], rightDelim := [0x7D, 0x7D],
      items := l.items ++
        (if l.start < l.pos then [⟨tokenText, l.start, .text ((l.input.take l.pos).drop l.start)⟩]
         else []),
      start := l.pos }, some .lexBlock) := by
  obtain ⟨hd, hl⟩ := input_at hin hpos
  have hlt : l.pos < l.input.length := by rw [hl, hpos]; simp; omega
  have hget : l.input.get? l.pos = some 0x7B := by
    rw [List.get?_eq_getElem?, ← List.head?_drop, hd]; rfl
  obtain ⟨h1, h1', h2, h2', h3, -⟩ := defaultCfg_fields
  rw [lexText_succ]
  unfold lexTextStep
  rw [if_neg (Nat.ne_of_lt hlt), hget]
  simp only [hcfg, h1, List.head?, if_true, lexTextBlock, lexTextVariable, hd, h2, h2']
  simp only [List.cons_append, List.nil_append, HasPrefix_cons, HasPrefix_nil]
  simp [emitText_ok l hstart (Nat.le_of_lt hlt), hcfg, h2, h2']

theorem lexText_at_block (fuel : Nat) (l : lexer) (a rest : List Nat)
    (hcfg : l.cfg = defaultCfg) (hin : l.input = a ++ [0x7B, 0x25] ++ rest)
    (hpos : l.pos = a.length) (hstart : l.start ≤ l.pos) :
    lexText (fuel + 1) l = .ok ({ l with
      leftDelim := [0x7B, 0x25], rightDelim := [0x25, 0x7D],
      items := l.items ++
        (if l.start < l.pos then [⟨tokenText, l.start, .text ((l.input.take l.pos).drop l.start)⟩]
         else []),
      start := l.pos }, some .lexBlock) := by
  obtain ⟨hd, hl⟩ := input_at hin hpos
  have hlt : l.pos < l.input.length := by rw [hl, hpos]; simp; omega
  have hget : l.input.get? l.pos = some 0x7B := by
    rw [List.get?_eq_getElem?, ← List.head?_drop, hd]; rfl
  obtain ⟨h1, h1', h2, h2', h3, -⟩ := defaultCfg_fields
  rw [lexText_succ]
  unfold lexTextStep
  rw [if_neg (Nat.ne_of_lt hlt), hget]
  simp only [hcfg, h1, List.head?, if_true, lexTextBlock, hd]
  simp only [List.cons_append, List.nil_append, HasPrefix_cons, HasPrefix_nil]
  simp [emitText_ok l hstart (Nat.le_of_lt hlt), hcfg, h1, h1']

theorem lexText_at_eof (fuel : Nat) (l : lexer) (hpos : l.pos = l.input.length)
    (hstart : l.start ≤ l.pos) :
    lexText (fuel + 1) l = .ok ({ l with
      items := l.items ++
        (if l.start < l.pos then [⟨tokenText, l.start, .text ((l.input.take l.pos).drop l.start)⟩]
         else []) ++ [⟨tokenEOF, l.pos, .text []⟩],
      start := l.pos }, none) := by
  rw [lexText_succ]
  unfold lexTextStep
  rw [if_pos hpos]
  unfold lexTextEOF
  rw [emitText_ok l hstart (by omega)]
  simp only [Res.ok_bind]
  rw [emit_ok _ _ (by simp) (by simp; omega)]
  simp [hpos]

theorem lexBlock_variable (l : lexer) (hcfg : l.cfg = defaultCfg)
    (hld : l.leftDelim = [0x7B, 0x7B]) (hstart : l.start ≤ l.pos)
    (hlen : l.pos + 2 ≤ l.input.length) :
    lexBlock l = .ok ({ l with
      pos := l.pos + 2,
      items := l.items ++
        [⟨tokenVariableBegin, l.start, .text ((l.input.take (l.pos + 2)).drop l.start)⟩],
      start := l.pos + 2 }, some .lexInsideBlock) := by
  obtain ⟨h1, h1', h2, h2', h3, -⟩ := defaultCfg_fields
  unfold lexBlock lexer.emitLeft
  have hs2 : l.start ≤ l.pos + 2 := by omega
  simp [hld, hcfg, h1, h2, lexer.emit, hs2, hlen]

theorem lexBlock_block (l : lexer) (hcfg : l.cfg = defaultCfg)
    (hld : l.leftDelim = [0x7B, 0x25]) (hstart : l.start ≤ l.pos)
    (hlen : l.pos + 2 ≤ l.input.length) :
    lexBlock l = .ok ({ l with
      pos := l.pos + 2,
      items := l.items ++
        [⟨tokenBlockBegin, l.start, .text ((l.input.take (l.pos + 2)).drop l.start)⟩],
      start := l.pos + 2 }, some .lexInsideBlock) := by
  obtain ⟨h1, h1', h2, h2', h3, -⟩ := defaultCfg_fields
  unfold lexBlock lexer.emitLeft
  have hs2 : l.start ≤ l.pos + 2 := by omega
  simp [hld, hcfg, h1, h2, lexer.emit, hs2, hlen]

theorem IsDigit_ascii (U : unicodeTables) (b : Nat) (h : b < 0x80) :
    IsDigit U (b : Int) = isDigitByte b := by
  unfold IsDigit isDigitByte
  have h1 : (b : Int) ≤ 0xFF := by omega
  rw [if_pos h1]
  congr 1
  apply propext
  constructor <;> intro h' <;> omega

theorem IsLetter_ascii (U : unicodeTables) (b : Nat) (h : b < 0x80) :
    IsLetter U (b : Int) = decide ((0x41 ≤ b ∧ b ≤ 0x5A) ∨ (0x61 ≤ b ∧ b ≤ 0x7A)) := by
  unfold IsLetter
  have h1 : 0 ≤ (b : Int) ∧ (b : Int) ≤ 0xFF := by omega
  rw [if_pos h1]
  congr 1
  apply propext
  constructor <;> intro h' <;> omega

theorem isSpace_ascii (b : Nat) : isSpace (b : Int) = decide (b = 0x20 ∨ b = 0x09) := by
  unfold isSpace
  congr 1
  apply propext
  constructor <;> intro h' <;> omega

theorem isAlphaNumeric_ascii (U : unicodeTables) (b : Nat) (h : b < 0x80) :
    isAlphaNumeric U (b : Int) = isIdentByte b := by
  unfold isAlphaNumeric isIdentByte
  rw [IsLetter_ascii U b h, IsDigit_ascii U b h]
  unfold isDigitByte
  have : ((b : Int) = 0x5F) = (b = 0x5F) := by
    apply propext; constructor <;> intro h' <;> omega
  simp only [this]
  by_cases h1 : b = 0x5F <;> by_cases h2 : (0x41 ≤ b ∧ b ≤ 0x5A) <;>
    by_cases h3 : (0x61 ≤ b ∧ b ≤ 0x7A) <;> by_cases h4 : (0x30 ≤ b ∧ b ≤ 0x39) <;>
    simp [h1, h2, h3, h4]

theorem lexInsideBlockStep_rune (U : unicodeTables) (l : lexer) (a rest : List Nat) (b : Nat)
    (hin : l.input = a ++ [b] ++ rest) (hpos : l.pos = a.length) (hb : b < 0x80)
    (hrd : HasPrefix (b :: rest) l.rightDelim = false) :
    lexInsideBlockStep U l =
      if isSpace (b : Int) then .ok ({ l with width := 1, pos := l.pos + 1 }, some (some .lexSpace))
      else if isNumeric U (b : Int) then
        .ok ({ l with width := 1, pos := l.pos + 1 }, some (some .lexNumber))
      else if isAlphaNumeric U (b : Int) then
        .ok ({ l with width := 1, pos := l.pos + 1 }, some (some .lexIdentifier))
      else if (b : Int) = 0x22 then
        .ok ({ l with width := 1, pos := l.pos + 1, start := l.pos + 1 }, some (some .lexString))
      else if (b : Int) = 0x60 then
        .ok ({ l with width := 1, pos := l.pos + 1, start := l.pos + 1 },
          some (some .lexRawString))
      else lexOperator (b : Int) { l with width := 1, pos := l.pos + 1 } := by
  obtain ⟨hd, hl⟩ := input_at hin hpos
  have hlt : l.pos < l.input.length := by rw [hl, hpos]; simp; omega
  unfold lexInsideBlockStep
  rw [if_neg (Nat.ne_of_lt hlt), if_neg (Nat.not_lt.mpr (Nat.le_of_lt hlt)), hd]
  simp only [List.cons_append, List.nil_append, hrd]
  unfold lexInsideBlockRune
  rw [next_of_lt l hlt, hd]
  simp only [List.cons_append, List.nil_append, decode_ascii b rest hb, lexer.ignore]
  rfl

theorem lexInsideBlock_succ (U : unicodeTables) (fuel : Nat) (l : lexer) :
    lexInsideBlock U (fuel + 1) l =
      (lexInsideBlockStep U l >>= fun lr =>
        match lr.2 with
        | some ret => pure (lr.1, ret)
        | none => lexInsideBlock U fuel lr.1) := rfl

theorem isIdentByte_lt {b : Nat} (h : isIdentByte b = true) : b < 0x80 := by
  simp [isIdentByte] at h
  omega

theorem isDigitByte_ident {b : Nat} (h : isDigitByte b = true) : isIdentByte b = true := by
  simp [isDigitByte] at h
  simp [isIdentByte]
  omega

theorem lexInsideBlock_space (U : unicodeTables) (fuel : Nat) (l : lexer) (a rest : List Nat)
    (hin : l.input = a ++ [0x20] ++ rest) (hpos : l.pos = a.length)
    (hrd : HasPrefix (0x20 :: rest) l.rightDelim = false) :
    lexInsideBlock U (fuel + 1) l =
      .ok ({ l with width := 1, pos := l.pos + 1 }, some .lexSpace) := by
  rw [lexInsideBlock_succ, lexInsideBlockStep_rune U l a rest 0x20 hin hpos (by omega) hrd]
  simp [isSpace]

theorem lexInsideBlock_ident (U : unicodeTables) (fuel : Nat) (l : lexer) (a rest : List Nat)
    (b : Nat) (hin : l.input = a ++ [b] ++ rest) (hpos : l.pos = a.length)
    (hb : isIdentByte b = true) (hnd : isDigitByte b = false)
    (hrd : HasPrefix (b :: rest) l.rightDelim = false) :
    lexInsideBlock U (fuel + 1) l =
      .ok ({ l with width := 1, pos := l.pos + 1 }, some .lexIdentifier) := by
  have hlt := isIdentByte_lt hb
  rw [lexInsideBlock_succ, lexInsideBlockStep_rune U l a rest b hin hpos hlt hrd]
  have hsp : isSpace (b : Int) = false := by
    rw [isSpace_ascii]
    simp [isIdentByte] at hb
    simp; omega
  simp [hsp, isNumeric, IsDigit_ascii U b hlt, hnd, isAlphaNumeric_ascii U b hlt, hb]

theorem lexInsideBlock_digit (U : unicodeTables) (fuel : Nat) (l : lexer) (a rest : List Nat)
    (b : Nat) (hin : l.input = a ++ [b] ++ rest) (hpos : l.pos = a.length)
    (hb : isDigitByte b = true)
    (hrd : HasPrefix (b :: rest) l.rightDelim = false) :
    lexInsideBlock U (fuel + 1) l =
      .ok ({ l with width := 1, pos := l.pos + 1 }, some .lexNumber) := by
  have hlt := isIdentByte_lt (isDigitByte_ident hb)
  rw [lexInsideBlock_succ, lexInsideBlockStep_rune U l a rest b hin hpos hlt hrd]
  have hsp : isSpace (b : Int) = false := by
    rw [isSpace_ascii]
    simp [isDigitByte] at hb
    simp; omega
  simp [hsp, isNumeric, IsDigit_ascii U b hlt, hb]

theorem lexSpace_one (fuel : Nat) (l : lexer) (a rest : List Nat) (b : Nat)
    (hin : l.input = a ++ [b] ++ rest) (hpos : l.pos = a.length) (hstart : l.start ≤ l.pos)
    (hb : b < 0x80) (hns : b ≠ 0x20 ∧ b ≠ 0x09) :
    lexSpace (fuel + 1) l = .ok ({ l with
      width := 1,
      items := l.items ++ [⟨tokenWhitespace, l.start, .text ((l.input.take l.pos).drop l.start)⟩],
      start := l.pos }, some .lexInsideBlock) := by
  obtain ⟨hd, hl⟩ := input_at hin hpos
  have hlt : l.pos < l.input.length := by rw [hl, hpos]; simp; omega
  have hsp : isSpace (b : Int) = false := by
    rw [isSpace_ascii]; simp; omega
  unfold lexSpace lexSpaceLoop
  rw [peek_of_lt l hlt, hd]
  simp only [List.cons_append, List.nil_append, decode_ascii b rest hb, hsp]
  simp [lexer.emit, hstart, Nat.le_of_lt hlt]

theorem lexIdentifier_succ (U : unicodeTables) (fuel : Nat) (l : lexer) :
    lexIdentifier U (fuel + 1) l =
      if isAlphaNumeric U l.next.1 ∨ l.next.1 = 0x2E then lexIdentifier U fuel l.next.2
      else lexIdentifierEnd l.next.1 l.next.2 := rfl

theorem next_ascii (l : lexer) (a rest : List Nat) (b : Nat)
    (hin : l.input = a ++ [b] ++ rest) (hpos : l.pos = a.length) (hb : b < 0x80) :
    l.next = ((b : Int), { l with width := 1, pos := l.pos + 1 }) := by
  obtain ⟨hd, hl⟩ := input_at hin hpos
  have hlt : l.pos < l.input.length := by rw [hl, hpos]; simp; omega
  rw [next_of_lt l hlt, hd]
  simp only [List.cons_append, List.nil_append, decode_ascii b rest hb]

theorem lexIdentifier_run (U : unicodeTables) (w : List Nat) :
    ∀ (l : lexer) (a rest : List Nat), l.input = a ++ w ++ [0x20] ++ rest →
      l.pos = a.length → (∀ b ∈ w, isIdentByte b = true) →
      ∀ fuel, lexIdentifier U (fuel + w.length + 1) l =
        lexIdentifierEnd 0x20 { l with width := 1, pos := a.length + w.length + 1 } := by
  induction w with
  | nil =>
    intro l a rest hin hpos _ fuel
    have hin' : l.input = a ++ [0x20] ++ rest := by simpa using hin
    rw [lexIdentifier_succ, next_ascii l a rest 0x20 hin' hpos (by omega)]
    have h1 : isAlphaNumeric U ((0x20 : Nat) : Int) = false := by
      rw [isAlphaNumeric_ascii U _ (by omega)]; decide
    simp only [h1]
    simp [hpos]
  | cons b t ih =>
    intro l a rest hin hpos hw fuel
    have hb := hw b (List.mem_cons_self _ _)
    have hin' : l.input = a ++ [b] ++ (t ++ [0x20] ++ rest) := by simp [hin]
    have hnext := next_ascii l a _ b hin' hpos (isIdentByte_lt hb)
    have h1 : isAlphaNumeric U (b : Int) = true := by
      rw [isAlphaNumeric_ascii U _ (isIdentByte_lt hb)]; exact hb
    have e : fuel + (b :: t).length + 1 = (fuel + t.length + 1) + 1 := by simp; omega
    rw [e, lexIdentifier_succ, hnext]
    simp only [h1, true_or, if_true]
    rw [ih { l with width := 1, pos := l.pos + 1 } (a ++ [b]) rest (by simp [hin])
      (by simp [hpos]) (fun x hx => hw x (List.mem_cons_of_mem _ hx)) fuel]
    congr 1
    simp
    omega

theorem atTerminator_space (l : lexer) (a rest : List Nat)
    (hin : l.input = a ++ [0x20] ++ rest) (hpos : l.pos = a.length) :
    l.atTerminator = (true, { l with width := 1 }) := by
  obtain ⟨hd, hl⟩ := input_at hin hpos
  have hlt : l.pos < l.input.length := by rw [hl, hpos]; simp; omega
  unfold lexer.atTerminator
  rw [peek_of_lt _ hlt, hd]
  simp [DecodeRuneInString, isSpace]

theorem lexIdentifierEnd_word (l : lexer) (a rest : List Nat)
    (hin : l.input = a ++ [0x20] ++ rest) (hpos : l.pos = a.length + 1) (hw : l.width = 1)
    (hstart : l.start ≤ a.length) :
    lexIdentifierEnd 0x20 l = .ok ({ l with
      pos := a.length,
      items := l.items ++
        [⟨if (l.input.take a.length).drop l.start = bytes "true" ∨
              (l.input.take a.length).drop l.start = bytes "false" then tokenBool
          else tokenName,
          l.start, .text ((l.input.take a.length).drop l.start)⟩],
      start := a.length }, some .lexInsideBlock) := by
  have hlt : a.length < l.input.length := by rw [hin]; simp
  have hb : l.backup = { l with pos := a.length } := by simp [lexer.backup, hpos, hw]
  unfold lexIdentifierEnd
  simp only [hb]
  rw [if_pos ⟨hstart, Nat.le_of_lt hlt⟩, atTerminator_space { l with pos := a.length } a rest hin rfl]
  by_cases hword : (l.input.take a.length).drop l.start = bytes "true" ∨
      (l.input.take a.length).drop l.start = bytes "false"
  · simp [hword, lexer.emit, hstart, Nat.le_of_lt hlt, hw]
  · simp [hword, lexer.emit, hstart, Nat.le_of_lt hlt, hw]

theorem lexNumberLoop_succ (U : unicodeTables) (fuel : Nat) (tokType : itemType) (l : lexer) :
    lexNumberLoop U (fuel + 1) tokType l =
      if isNumeric U l.next.1 then lexNumberLoop U fuel tokType l.next.2
      else if l.next.1 = 0x2E then
        if tokType ≠ tokenFloat then lexNumberLoop U fuel tokenFloat l.next.2
        else lexNumberLoop U fuel tokType (l.next.2.errorf .twoDots)
      else (l.next.2.backup.emit tokType >>= fun l => pure (l, some .lexInsideBlock)) := rfl

theorem lexNumber_run (U : unicodeTables) (w : List Nat) :
    ∀ (l : lexer) (a rest : List Nat), l.input = a ++ w ++ [0x20] ++ rest →
      l.pos = a.length → l.start ≤ l.pos → (∀ b ∈ w, isDigitByte b = true) →
      ∀ fuel, lexNumberLoop U (fuel + w.length + 1) tokenInteger l = .ok ({ l with
        width := 1, pos := a.length + w.length,
        items := l.items ++
          [⟨tokenInteger, l.start, .text ((l.input.take (a.length + w.length)).drop l.start)⟩],
        start := a.length + w.length }, some .lexInsideBlock) := by
  induction w with
  | nil =>
    intro l a rest hin hpos hstart _ fuel
    have hin' : l.input = a ++ [0x20] ++ rest := by simpa using hin
    have hlt : a.length < l.input.length := by rw [hin']; simp
    rw [lexNumberLoop_succ, next_ascii l a rest 0x20 hin' hpos (by omega)]
    have h1 : isNumeric U ((0x20 : Nat) : Int) = false := by
      unfold isNumeric; rw [IsDigit_ascii U _ (by omega)]; decide
    simp only [h1]
    have hs : l.start ≤ a.length := by omega
    simp [lexer.backup, lexer.emit, hpos, hs, Nat.le_of_lt hlt]
  | cons b t ih =>
    intro l a rest hin hpos hstart hw fuel
    have hb := hw b (List.mem_cons_self _ _)
    have hlt := isIdentByte_lt (isDigitByte_ident hb)
    have hin' : l.input = a ++ [b] ++ (t ++ [0x20] ++ rest) := by simp [hin]
    have hnext := next_ascii l a _ b hin' hpos hlt
    have h1 : isNumeric U (b : Int) = true := by
      unfold isNumeric; rw [IsDigit_ascii U _ hlt]; exact hb
    have e : fuel + (b :: t).length + 1 = (fuel + t.length + 1) + 1 := by simp; omega
    rw [e, lexNumberLoop_succ, hnext]
    simp only [h1, if_true]
    rw [ih { l with width := 1, pos := l.pos + 1 } (a ++ [b]) rest (by simp [hin])
      (by simp [hpos]) (by simp; omega) (fun x hx => hw x (List.mem_cons_of_mem _ hx)) fuel]
    have e2 : (a ++ [b]).length + t.length = a.length + (b :: t).length := by simp; omega
    rw [e2]

theorem lexInsideBlock_end (U : unicodeTables) (fuel : Nat) (l : lexer) (a rest : List Nat)
    (hin : l.input = a ++ l.rightDelim ++ rest) (hpos : l.pos = a.length)
    (hstart : l.start ≤ l.pos) (hne : l.rightDelim ≠ []) (hstack : l.delimStack = [])
    (hkind : l.rightDelim = l.cfg.BlockEndString ∨ l.rightDelim = l.cfg.VariableEndString) :
    ∃ w, lexInsideBlock U (fuel + 1) l = .ok ({ l with
      width := w, pos := l.pos + l.rightDelim.length,
      items := l.items ++
        [⟨if l.rightDelim = l.cfg.BlockEndString then tokenBlockEnd else tokenVariableEnd,
          l.start, .text ((l.input.take (l.pos + l.rightDelim.length)).drop l.start)⟩],
      start := l.pos + l.rightDelim.length }, some .lexText) := by
  obtain ⟨hd, hl⟩ := input_at hin hpos
  have hpre : HasPrefix (l.input.drop l.pos) l.rightDelim = true := by
    rw [hd]; simp [HasPrefix]
  obtain ⟨hlen, hlt⟩ := HasPrefix_pos_lt hne hpre
  refine ⟨(DecodeRuneInString (l.input.drop l.pos)).2, ?_⟩
  rw [lexInsideBlock_succ]
  unfold lexInsideBlockStep
  simp only [Nat.ne_of_lt hlt, if_false, Nat.not_lt.mpr (Nat.le_of_lt hlt), hpre, if_true,
    peek_of_lt l hlt, lexer.shouldExpectDelim, hstack, List.getLast?_nil, Bool.not_false]
  have h1 : l.start ≤ l.pos + l.rightDelim.length := by omega
  by_cases hb : l.rightDelim = l.cfg.BlockEndString
  · simp only [lexer.emitRight, lexer.emit, if_pos hb, h1, hlen, and_self, if_true]
    simp
  · have hv := hkind.resolve_left hb
    simp only [lexer.emitRight, lexer.emit, if_neg hb, if_pos hv, h1, hlen, and_self, if_true]
    simp

theorem of_add_fuel {α : Type} {f : Nat → α} {r : α} (k : Nat) (h : ∀ fuel, f (fuel + k) = r) :
    ∀ fuel, k ≤ fuel → f fuel = r := by
  intro fuel hf
  have := h (fuel - k)
  rwa [Nat.sub_add_cancel hf] at this

theorem EndsWith.step_add {U : unicodeTables} {s s' : stateFn} {l l' : lexer}
    {items : List item} (k : Nat)
    (hcall : ∀ fuel, s.call U (fuel + k) l = .ok (l', some s'))
    (h : EndsWith U s' l' items) : EndsWith U s l items :=
  EndsWith.step k (of_add_fuel k hcall) h

theorem EndsWith.last_add {U : unicodeTables} {s : stateFn} {l l' : lexer}
    {items : List item} (k : Nat)
    (hcall : ∀ fuel, s.call U (fuel + k) l = .ok (l', none))
    (h : l'.items = items) : EndsWith U s l items :=
  EndsWith.last k (of_add_fuel k hcall) h

theorem slice_eq (a tok rest : List Nat) :
    ((a ++ tok ++ rest).take (a.length + tok.length)).drop a.length = tok := by
  rw [← List.length_append, List.take_left' rfl, List.drop_left]

theorem lexText_to_variable (l : lexer) (a p rest : List Nat)
    (hcfg : l.cfg = defaultCfg) (hin : l.input = a ++ p ++ ([0x7B, 0x7B] ++ rest))
    (hpos : l.pos = a.length) (hstart : l.start = a.length) (hp : ∀ b ∈ p, b ≠ 0x7B) :
    ∃ k w, ∀ fuel, lexText (fuel + (k + 1)) l = .ok ({ l with
      width := w, pos := a.length + p.length,
      leftDelim := [0x7B, 0x7B], rightDelim := [0x7D, 0x7D],
      items := l.items ++ (if p = [] then [] else [⟨tokenText, a.length, .text p⟩]),
      start := a.length + p.length }, some .lexBlock) := by
  obtain ⟨k, w, hk⟩ := lexText_skip p.length l a p ([0x7B, 0x7B] ++ rest) (le_refl _) hcfg hin
    hpos hp (Or.inr rfl)
  refine ⟨k, w, fun fuel => ?_⟩
  rw [show fuel + (k + 1) = (fuel + 1) + k by omega, hk]
  rw [lexText_at_variable fuel { l with pos := a.length + p.length, width := w } (a ++ p) rest
    hcfg (by simp [hin]) (by simp) (by simp [hstart])]
  simp only [hstart, hin]
  congr 3
  by_cases hpe : p = []
  · simp [hpe]
  · have : 0 < p.length := List.length_pos.mpr hpe
    simp only [hpe, if_false, this, Nat.lt_add_right_iff_pos, if_true]
    rw [slice_eq]

theorem lexText_to_eof (l : lexer) (a p : List Nat)
    (hcfg : l.cfg = defaultCfg) (hin : l.input = a ++ p)
    (hpos : l.pos = a.length) (hstart : l.start = a.length) (hp : ∀ b ∈ p, b ≠ 0x7B) :
    ∃ k w, ∀ fuel, lexText (fuel + (k + 1)) l = .ok ({ l with
      width := w, pos := a.length + p.length,
      items := l.items ++ (if p = [] then [] else [⟨tokenText, a.length, .text p⟩]) ++
        [⟨tokenEOF, a.length + p.length, .text []⟩],
      start := a.length + p.length }, none) := by
  obtain ⟨k, w, hk⟩ := lexText_skip p.length l a p [] (le_refl _) hcfg (by simp [hin])
    hpos hp (Or.inl rfl)
  refine ⟨k, w, fun fuel => ?_⟩
  rw [show fuel + (k + 1) = (fuel + 1) + k by omega, hk]
  rw [lexText_at_eof fuel { l with pos := a.length + p.length, width := w } (by simp [hin])
    (by simp [hstart])]
  simp only [hstart, hin]
  congr 4
  by_cases hpe : p = []
  · simp [hpe]
  · have : 0 < p.length := List.length_pos.mpr hpe
    simp only [hpe, if_false, this, Nat.lt_add_right_iff_pos, if_true]
    have := slice_eq a p []
    simp only [List.append_nil] at this
    rw [this]

theorem slice_eq' {l : lexer} (a tok rest : List Nat) (hin : l.input = a ++ tok ++ rest) :
    (l.input.take (a.length + tok.length)).drop a.length = tok := by
  rw [hin, slice_eq]

theorem EndsWith.variable_begin {U : unicodeTables} {l : lexer} {items : List item}
    (a rest : List Nat) (hcfg : l.cfg = defaultCfg) (hld : l.leftDelim = [0x7B, 0x7B])
    (hin : l.input = a ++ [0x7B, 0x7B] ++ rest) (hpos : l.pos = a.length)
    (hstart : l.start = a.length)
    (h : EndsWith U .lexInsideBlock { l with
      pos := a.length + 2,
      items := l.items ++ [⟨tokenVariableBegin, a.length, .text [0x7B, 0x7B]⟩],
      start := a.length + 2 } items) :
    EndsWith U .lexBlock l items := by
  refine EndsWith.step_add 0 (fun fuel => ?_) h
  have := lexBlock_variable l hcfg hld (by omega) (by rw [hin, hpos]; simp)
  have hs : (l.input.take (a.length + 2)).drop a.length = [0x7B, 0x7B] :=
    slice_eq' a [0x7B, 0x7B] rest hin
  rw [hstart, hpos, hs] at this
  exact this

theorem EndsWith.block_begin {U : unicodeTables} {l : lexer} {items : List item}
    (a rest : List Nat) (hcfg : l.cfg = defaultCfg) (hld : l.leftDelim = [0x7B, 0x25])
    (hin : l.input = a ++ [0x7B, 0x25] ++ rest) (hpos : l.pos = a.length)
    (hstart : l.start = a.length)
    (h : EndsWith U .lexInsideBlock { l with
      pos := a.length + 2,
      items := l.items ++ [⟨tokenBlockBegin, a.length, .text [0x7B, 0x25]⟩],
      start := a.length + 2 } items) :
    EndsWith U .lexBlock l items := by
  refine EndsWith.step_add 0 (fun fuel => ?_) h
  have := lexBlock_block l hcfg hld (by omega) (by rw [hin, hpos]; simp)
  have hs : (l.input.take (a.length + 2)).drop a.length = [0x7B, 0x25] :=
    slice_eq' a [0x7B, 0x25] rest hin
  rw [hstart, hpos, hs] at this
  exact this

theorem EndsWith.space {U : unicodeTables} {l : lexer} {items : List item}
    (a rest : List Nat) (b : Nat) (hin : l.input = a ++ [0x20] ++ (b :: rest))
    (hpos : l.pos = a.length) (hstart : l.start = a.length)
    (hb : b < 0x80) (hns : b ≠ 0x20 ∧ b ≠ 0x09)
    (hrd : HasPrefix (0x20 :: b :: rest) l.rightDelim = false)
    (h : EndsWith U .lexInsideBlock { l with
      width := 1, pos := a.length + 1,
      items := l.items ++ [⟨tokenWhitespace, a.length, .text [0x20]⟩],
      start := a.length + 1 } items) :
    EndsWith U .lexInsideBlock l items := by
  have h1 := fun fuel => lexInsideBlock_space U fuel l a (b :: rest) hin hpos hrd
  refine EndsWith.step_add 1 h1 ?_
  refine EndsWith.step_add 1 (fun fuel => ?_) h
  have := lexSpace_one fuel { l with width := 1, pos := l.pos + 1 } (a ++ [0x20]) rest b
    (by simp [hin]) (by simp [hpos]) (by simp; omega) hb hns
  have hs : (l.input.take (a.length + 1)).drop a.length = [0x20] :=
    slice_eq' a [0x20] (b :: rest) hin
  simp only [hstart, hpos, hs] at this
  rw [hpos, hstart]
  exact this

theorem EndsWith.name {U : unicodeTables} {l : lexer} {items : List item}
    (a n' rest : List Nat) (c : Nat) (hin : l.input = a ++ (c :: n') ++ ([0x20] ++ rest))
    (hpos : l.pos = a.length) (hstart : l.start = a.length)
    (hid : ∀ b ∈ c :: n', isIdentByte b = true) (hcd : isDigitByte c = false)
    (hrd : HasPrefix (c :: (n' ++ ([0x20] ++ rest))) l.rightDelim = false)
    (h : EndsWith U .lexInsideBlock { l with
      width := 1, pos := a.length + (c :: n').length,
      items := l.items ++
        [⟨if c :: n' = bytes "true" ∨ c :: n' = bytes "false" then tokenBool else tokenName,
          a.length, .text (c :: n')⟩],
      start := a.length + (c :: n').length } items) :
    EndsWith U .lexInsideBlock l items := by
  have hc := hid c (List.mem_cons_self _ _)
  have h1 := fun fuel => lexInsideBlock_ident U fuel l a (n' ++ ([0x20] ++ rest)) c
    (by simp [hin]) hpos hc hcd hrd
  refine EndsWith.step_add 1 h1 ?_
  refine EndsWith.step_add (n'.length + 1) (fun fuel => ?_) h
  have h2 := lexIdentifier_run U n' { l with width := 1, pos := l.pos + 1 } (a ++ [c]) rest
    (by simp [hin]) (by simp [hpos]) (fun x hx => hid x (List.mem_cons_of_mem _ hx)) fuel
  have h3 := lexIdentifierEnd_word
    { l with width := 1, pos := (a ++ [c]).length + n'.length + 1 } (a ++ c :: n') rest
    (by simp [hin]) (by simp; omega) rfl (by simp [hstart])
  have hs : (l.input.take (a ++ c :: n').length).drop a.length = c :: n' := by
    rw [List.length_append]; exact slice_eq' a (c :: n') ([0x20] ++ rest) hin
  simp only [hstart, hs] at h3
  simp only [hstart, hpos] at h2
  show lexIdentifier U (fuel + (n'.length + 1)) _ = _
  rw [← Nat.add_assoc]
  simp only [hstart, hpos]
  rw [h2, h3]
  simp

theorem EndsWith.integer {U : unicodeTables} {l : lexer} {items : List item}
    (a n' rest : List Nat) (c : Nat) (hin : l.input = a ++ (c :: n') ++ ([0x20] ++ rest))
    (hpos : l.pos = a.length) (hstart : l.start = a.length)
    (hid : ∀ b ∈ c :: n', isDigitByte b = true)
    (hrd : HasPrefix (c :: (n' ++ ([0x20] ++ rest))) l.rightDelim = false)
    (h : EndsWith U .lexInsideBlock { l with
      width := 1, pos := a.length + (c :: n').length,
      items := l.items ++ [⟨tokenInteger, a.length, .text (c :: n')⟩],
      start := a.length + (c :: n').length } items) :
    EndsWith U .lexInsideBlock l items := by
  have hc := hid c (List.mem_cons_self _ _)
  have h1 := fun fuel => lexInsideBlock_digit U fuel l a (n' ++ ([0x20] ++ rest)) c
    (by simp [hin]) hpos hc hrd
  refine EndsWith.step_add 1 h1 ?_
  refine EndsWith.step_add (n'.length + 1) (fun fuel => ?_) h
  have h2 := lexNumber_run U n' { l with width := 1, pos := l.pos + 1 } (a ++ [c]) rest
    (by simp [hin]) (by simp [hpos]) (by simp [hstart, hpos])
    (fun x hx => hid x (List.mem_cons_of_mem _ hx)) fuel
  have hs : (l.input.take ((a ++ [c]).length + n'.length)).drop a.length = c :: n' := by
    have := slice_eq' a (c :: n') ([0x20] ++ rest) hin
    simpa [Nat.add_assoc, Nat.add_comm 1] using this
  simp only [hstart, hpos, hs] at h2
  show lexNumberLoop U (fuel + (n'.length + 1)) tokenInteger _ = _
  rw [← Nat.add_assoc]
  simp only [hstart, hpos]
  rw [h2]
  simp
  omega

theorem EndsWith.end_marker {U : unicodeTables} {l : lexer} {items : List item}
    (a rest : List Nat) (hin : l.input = a ++ l.rightDelim ++ rest)
    (hpos : l.pos = a.length) (hstart : l.start = a.length)
    (hne : l.rightDelim ≠ []) (hstack : l.delimStack = [])
    (hkind : l.rightDelim = l.cfg.BlockEndString ∨ l.rightDelim = l.cfg.VariableEndString)
    (h : ∀ w, EndsWith U .lexText { l with
      width := w, pos := a.length + l.rightDelim.length,
      items := l.items ++
        [⟨if l.rightDelim = l.cfg.BlockEndString then tokenBlockEnd else tokenVariableEnd,
          a.length, .text l.rightDelim⟩],
      start := a.length + l.rightDelim.length } items) :
    EndsWith U .lexInsideBlock l items := by
  obtain ⟨hd, -⟩ := input_at hin hpos
  have hsl := slice_eq' a l.rightDelim rest hin
  have h1 : ∀ fuel, lexInsideBlock U (fuel + 1) l = .ok ({ l with
      width := (DecodeRuneInString (l.input.drop l.pos)).2, pos := a.length + l.rightDelim.length,
      items := l.items ++
        [⟨if l.rightDelim = l.cfg.BlockEndString then tokenBlockEnd else tokenVariableEnd,
          a.length, .text l.rightDelim⟩],
      start := a.length + l.rightDelim.length }, some .lexText) := fun fuel => by
    have hpre : HasPrefix (l.input.drop l.pos) l.rightDelim = true := by
      rw [hd]; simp [HasPrefix]
    obtain ⟨hlen, hlt⟩ := HasPrefix_pos_lt hne hpre
    rw [lexInsideBlock_succ]
    unfold lexInsideBlockStep
    simp only [Nat.ne_of_lt hlt, if_false, Nat.not_lt.mpr (Nat.le_of_lt hlt), hpre, if_true,
      peek_of_lt l hlt, lexer.shouldExpectDelim, hstack, List.getLast?_nil, Bool.not_false]
    have h1 : l.start ≤ l.pos + l.rightDelim.length := by omega
    by_cases hb : l.rightDelim = l.cfg.BlockEndString
    · simp only [lexer.emitRight, lexer.emit, if_pos hb, h1, hlen, and_self, if_true]
      simp [hpos, hstart, hsl]
    · have hv := hkind.resolve_left hb
      simp only [lexer.emitRight, lexer.emit, if_neg hb, if_pos hv, h1, hlen, and_self, if_true]
      simp [hpos, hstart, hsl]
  exact EndsWith.step_add 1 h1 (h _)

/-- C5: for all strings p and s without the byte `{` and every ASCII
identifier n (non-empty, of letters, digits and underscores, not starting with
a digit, other than true and false), the scan of p ++ "{{ " ++ n ++ " }}" ++ s
with the default delimiters ends, for every fuel from some bound on, and sends
exactly: plain-text(p) if p is non-empty, variable-begin, whitespace, name(n),
whitespace, variable-end, plain-text(s) if s is non-empty, end-of-input; each
offset is the byte position where the text of the item starts. -/
theorem variable_name_scan (U : unicodeTables) (p n s : List Nat)
    (hp : ∀ b ∈ p, b ≠ 0x7B) (hs : ∀ b ∈ s, b ≠ 0x7B)
    (hn : n ≠ []) (hid : ∀ b ∈ n, isIdentByte b = true)
    (hd : ∀ b, n.head? = some b → isDigitByte b = false)
    (ht : n ≠ bytes "true") (hf : n ≠ bytes "false") :
    ∃ N, ∀ fuel, N ≤ fuel →
      scan U defaultCfg (p ++ bytes "\x7b\x7b " ++ n ++ bytes " \x7d\x7d" ++ s) fuel = .ok
        ((if p = [] then [] else [⟨tokenText, 0, .text p⟩]) ++
         [⟨tokenVariableBegin, p.length, .text (bytes "\x7b\x7b")⟩,
          ⟨tokenWhitespace, p.length + 2, .text (bytes " ")⟩,
          ⟨tokenName, p.length + 3, .text n⟩,
          ⟨tokenWhitespace, p.length + 3 + n.length, .text (bytes " ")⟩,
          ⟨tokenVariableEnd, p.length + 4 + n.length, .text (bytes "\x7d\x7d")⟩] ++
         (if s = [] then [] else [⟨tokenText, p.length + 6 + n.length, .text s⟩]) ++
         [⟨tokenEOF, p.length + 6 + n.length + s.length, .text []⟩]) := by
  obtain ⟨c, n', rfl⟩ := List.exists_cons_of_ne_nil hn
  have hc := hid c (List.mem_cons_self _ _)
  have hcd := hd c rfl
  have hc80 := isIdentByte_lt hc
  have hcns : c ≠ 0x20 ∧ c ≠ 0x09 := by
    simp [isIdentByte] at hc; omega
  have hc7d : c ≠ 0x7D := by
    simp [isIdentByte] at hc; omega
  have hb1 : bytes "\x7b\x7b " = [0x7B, 0x7B, 0x20] := by decide
  have hb2 : bytes " \x7d\x7d" = [0x20, 0x7D, 0x7D] := by decide
  have hb3 : bytes "\x7b\x7b" = [0x7B, 0x7B] := by decide
  have hb4 : bytes "\x7d\x7d" = [0x7D, 0x7D] := by decide
  have hb5 : bytes " " = [0x20] := by decide
  obtain ⟨-, hve, -, hve', -, -⟩ := defaultCfg_fields
  rw [hb1, hb2, hb3, hb4, hb5]
  apply EndsWith.scan
  obtain ⟨k, w, h1⟩ := lexText_to_variable
    (lexer.new defaultCfg (p ++ [0x7B, 0x7B, 0x20] ++ c :: n' ++ [0x20, 0x7D, 0x7D] ++ s)) [] p
    ([0x20] ++ c :: n' ++ [0x20, 0x7D, 0x7D] ++ s) rfl (by simp [lexer.new]) rfl rfl hp
  refine EndsWith.step_add (s := .lexText) (k + 1) h1 ?_
  refine EndsWith.variable_begin p ([0x20] ++ c :: n' ++ [0x20, 0x7D, 0x7D] ++ s) rfl rfl
    (by simp [lexer.new]) (by simp) (by simp) ?_
  refine EndsWith.space (p ++ [0x7B, 0x7B]) (n' ++ [0x20, 0x7D, 0x7D] ++ s) c
    (by simp [lexer.new]) (by simp) (by simp) hc80 hcns (by simp [HasPrefix_cons]) ?_
  refine EndsWith.name (p ++ [0x7B, 0x7B, 0x20]) n' ([0x7D, 0x7D] ++ s) c
    (by simp [lexer.new]) (by simp) (by simp) hid hcd (by simp [HasPrefix_cons, hc7d.symm]) ?_
  refine EndsWith.space (p ++ [0x7B, 0x7B, 0x20] ++ c :: n') (0x7D :: s) 0x7D
    (by simp [lexer.new]) (by simp; omega) (by simp; omega) (by omega) (by omega) (by simp [HasPrefix_cons]) ?_
  refine EndsWith.end_marker (p ++ [0x7B, 0x7B, 0x20] ++ c :: n' ++ [0x20]) s
    (by simp [lexer.new]) (by simp; omega) (by simp; omega) (by simp) rfl (Or.inr (by simp [lexer.new, hve']))
    (fun w' => ?_)
  obtain ⟨k2, w2, h7⟩ := lexText_to_eof
    { cfg := defaultCfg, input := p ++ [0x7B, 0x7B, 0x20] ++ c :: n' ++ [0x20, 0x7D, 0x7D] ++ s,
      leftDelim := [0x7B, 0x7B], rightDelim := [0x7D, 0x7D],
      pos := (p ++ [0x7B, 0x7B, 0x20] ++ c :: n' ++ [0x20]).length + 2,
      start := (p ++ [0x7B, 0x7B, 0x20] ++ c :: n' ++ [0x20]).length + 2, width := w',
      items := _, delimStack := [] }
    (p ++ [0x7B, 0x7B, 0x20] ++ c :: n' ++ [0x20, 0x7D, 0x7D]) s rfl (by simp) (by simp; omega) (by simp; omega) hs
  refine EndsWith.last_add (s := .lexText) (k2 + 1) h7 ?_
  simp [lexer.new, ht, hf]
  refine ⟨by omega, ⟨by rw [hve]; decide, by omega⟩, ?_⟩
  have e : p.length + (n'.length + 3 + 1 + 1 + 1 + 1) = p.length + 6 + (n'.length + 1) := by
    omega
  rw [e]


/-- The identifier and text conditions hold of "Hello ", "name" and "!", and
the scan of "Hello {{ name }}!" sends plain-text("Hello "), variable-begin,
whitespace, name("name"), whitespace, variable-end, plain-text("!"),
end-of-input. -/
theorem variable_name_scan_witness :
    ((∀ b ∈ bytes "Hello ", b ≠ 0x7B) ∧ (∀ b ∈ bytes "!", b ≠ 0x7B) ∧ bytes "name" ≠ [] ∧
      (∀ b ∈ bytes "name", isIdentByte b = true) ∧
      (∀ b, (bytes "name").head? = some b → isDigitByte b = false) ∧
      bytes "name" ≠ bytes "true" ∧ bytes "name" ≠ bytes "false") ∧
    (∃ N, ∀ fuel, N ≤ fuel →
      scan noTables defaultCfg
        (bytes "Hello " ++ bytes "\x7b\x7b " ++ bytes "name" ++ bytes " \x7d\x7d" ++ bytes "!")
        fuel = .ok
        ((if bytes "Hello " = [] then [] else [⟨tokenText, 0, .text (bytes "Hello ")⟩]) ++
         [⟨tokenVariableBegin, (bytes "Hello ").length, .text (bytes "\x7b\x7b")⟩,
          ⟨tokenWhitespace, (bytes "Hello ").length + 2, .text (bytes " ")⟩,
          ⟨tokenName, (bytes "Hello ").length + 3, .text (bytes "name")⟩,
          ⟨tokenWhitespace, (bytes "Hello ").length + 3 + (bytes "name").length,
            .text (bytes " ")⟩,
          ⟨tokenVariableEnd, (bytes "Hello ").length + 4 + (bytes "name").length,
            .text (bytes "\x7d\x7d")⟩] ++
         (if bytes "!" = [] then []
          else [⟨tokenText, (bytes "Hello ").length + 6 + (bytes "name").length,
            .text (bytes "!")⟩]) ++
         [⟨tokenEOF, (bytes "Hello ").length + 6 + (bytes "name").length + (bytes "!").length,
            .text []⟩])) ∧
    scan noTables defaultCfg (bytes "Hello \x7b\x7b name \x7d\x7d!") 20 = .ok
      [⟨tokenText, 0, .text (bytes "Hello ")⟩,
       ⟨tokenVariableBegin, 6, .text (bytes "\x7b\x7b")⟩,
       ⟨tokenWhitespace, 8, .text (bytes " ")⟩,
       ⟨tokenName, 9, .text (bytes "name")⟩,
       ⟨tokenWhitespace, 13, .text (bytes " ")⟩,
       ⟨tokenVariableEnd, 14, .text (bytes "\x7d\x7d")⟩,
       ⟨tokenText, 16, .text (bytes "!")⟩,
       ⟨tokenEOF, 17, .text []⟩] :=
  ⟨⟨by decide, by decide, by decide, by decide, fun b h => by cases h; rfl, by decide,
      by decide⟩,
   variable_name_scan noTables (bytes "Hello ") (bytes "name") (bytes "!") (by decide)
     (by decide) (by decide) (by decide) (fun b h => by cases h; rfl) (by decide) (by decide),
   rfl⟩

theorem operatorTable_eq : operatorTable =
    [([0x7C, 0x7C], tokenOr), ([0x7C], tokenPipe), ([0x2F, 0x2F], tokenFloordiv),
     ([0x2F], tokenDiv), ([0x3C, 0x3D], tokenLteq), ([0x3C], tokenLt),
     ([0x3E, 0x3D], tokenGteq), ([0x3E], tokenGt), ([0x2A, 0x2A], tokenPow),
     ([0x2A], tokenMul), ([0x21, 0x3D], tokenNeq), ([0x21], tokenNot),
     ([0x26, 0x26], tokenAnd), ([0x3D, 0x3D], tokenEqEq)] := by
  decide

theorem accept_yes (l : lexer) (a rest : List Nat) (v : Nat)
    (hin : l.input = a ++ [v] ++ rest) (hpos : l.pos = a.length) (hv : v < 0x80) :
    l.accept (v : Int) = (true, { l with width := 1, pos := l.pos + 1 }) := by
  unfold lexer.accept
  rw [next_ascii l a rest v hin hpos hv]
  simp

theorem accept_no (l : lexer) (a rest : List Nat) (b v : Nat)
    (hin : l.input = a ++ [b] ++ rest) (hpos : l.pos = a.length) (hb : b < 0x80)
    (hne : b ≠ v) :
    l.accept (v : Int) = (false, { l with width := 1 }) := by
  unfold lexer.accept
  rw [next_ascii l a rest b hin hpos hb]
  have : ¬ ((b : Int) = (v : Int)) := by omega
  simp [this, lexer.backup]

theorem lexInsideBlockStep_operator (U : unicodeTables) (l : lexer) (a rest : List Nat)
    (b : Nat) (hin : l.input = a ++ [b] ++ rest) (hpos : l.pos = a.length) (hb : b < 0x80)
    (hcls : isIdentByte b = false ∧ b ≠ 0x20 ∧ b ≠ 0x09 ∧ b ≠ 0x22 ∧ b ≠ 0x60)
    (hrd : HasPrefix (b :: rest) l.rightDelim = false) :
    lexInsideBlockStep U l = lexOperator (b : Int) { l with width := 1, pos := l.pos + 1 } := by
  rw [lexInsideBlockStep_rune U l a rest b hin hpos hb hrd]
  obtain ⟨h1, h2, h3, h4, h5⟩ := hcls
  have hsp : isSpace (b : Int) = false := by rw [isSpace_ascii]; simp; omega
  have hdg : isDigitByte b = false := by
    cases hdb : isDigitByte b with
    | false => rfl
    | true => rw [isDigitByte_ident hdb] at h1; cases h1
  have e4 : ¬ ((b : Int) = 0x22) := by omega
  have e5 : ¬ ((b : Int) = 0x60) := by omega
  simp [hsp, isNumeric, IsDigit_ascii U b hb, hdg, isAlphaNumeric_ascii U b hb, h1, e4, e5]

theorem lexInsideBlockStep_op2 (U : unicodeTables) (l : lexer) (a rest : List Nat)
    (b1 b2 : Nat) (yes no : itemType)
    (hin : l.input = a ++ [b1, b2] ++ rest) (hpos : l.pos = a.length)
    (hstart : l.start = a.length) (hb1 : b1 < 0x80) (hb2 : b2 < 0x80)
    (hcls : isIdentByte b1 = false ∧ b1 ≠ 0x20 ∧ b1 ≠ 0x09 ∧ b1 ≠ 0x22 ∧ b1 ≠ 0x60)
    (hrd : HasPrefix (b1 :: b2 :: rest) l.rightDelim = false)
    (hop : ∀ l', lexOperator (b1 : Int) l' = emitByAccept (b2 : Int) yes no l')
    (hys : yes ≠ tokenString) :
    lexInsideBlockStep U l = .ok ({ l with
      width := 1, pos := a.length + 2,
      items := l.items ++ [⟨yes, a.length, .text [b1, b2]⟩],
      start := a.length + 2 }, none) := by
  have hlen : a.length + 2 ≤ l.input.length := by rw [hin]; simp
  rw [lexInsideBlockStep_operator U l a (b2 :: rest) b1 (by simp [hin]) hpos hb1 hcls hrd, hop]
  unfold emitByAccept
  rw [accept_yes _ (a ++ [b1]) rest b2 (by simp [hin]) (by simp [hpos]) hb2]
  have hs := slice_eq' a [b1, b2] rest hin
  simp only [List.length_cons, List.length_nil] at hs
  simp [emitAndLoop, lexer.emit, hpos, hstart, hlen, Nat.add_assoc, hs, hys]

theorem lexInsideBlockStep_op1 (U : unicodeTables) (l : lexer) (a rest : List Nat)
    (b1 v : Nat) (yes no : itemType)
    (hin : l.input = a ++ [b1] ++ ([0x20] ++ rest)) (hpos : l.pos = a.length)
    (hstart : l.start = a.length) (hb1 : b1 < 0x80) (hv : v ≠ 0x20)
    (hcls : isIdentByte b1 = false ∧ b1 ≠ 0x20 ∧ b1 ≠ 0x09 ∧ b1 ≠ 0x22 ∧ b1 ≠ 0x60)
    (hrd : HasPrefix (b1 :: 0x20 :: rest) l.rightDelim = false)
    (hop : ∀ l', lexOperator (b1 : Int) l' = emitByAccept (v : Int) yes no l')
    (hns : no ≠ tokenString) :
    lexInsideBlockStep U l = .ok ({ l with
      width := 1, pos := a.length + 1,
      items := l.items ++ [⟨no, a.length, .text [b1]⟩],
      start := a.length + 1 }, none) := by
  have hlen : a.length + 1 ≤ l.input.length := by rw [hin]; simp
  rw [lexInsideBlockStep_operator U l a (0x20 :: rest) b1 (by simp [hin]) hpos hb1 hcls hrd, hop]
  unfold emitByAccept
  rw [accept_no _ (a ++ [b1]) rest 0x20 v (by simp [hin]) (by simp [hpos]) (by omega)
    (Ne.symm hv)]
  have hs := slice_eq' a [b1] ([0x20] ++ rest) hin
  simp only [List.length_cons, List.length_nil] at hs
  simp [emitAndLoop, lexer.emit, hpos, hstart, hlen, hs, hns]

theorem lexInsideBlockStep_and (U : unicodeTables) (l : lexer) (a rest : List Nat)
    (hin : l.input = a ++ [0x26, 0x26] ++ rest) (hpos : l.pos = a.length)
    (hstart : l.start = a.length)
    (hrd : HasPrefix (0x26 :: 0x26 :: rest) l.rightDelim = false) :
    lexInsideBlockStep U l = .ok ({ l with
      width := 1, pos := a.length + 2,
      items := l.items ++ [⟨tokenAnd, a.length, .text [0x26, 0x26]⟩],
      start := a.length + 2 }, none) := by
  have hlen : a.length + 2 ≤ l.input.length := by rw [hin]; simp
  have hop : ∀ l', lexOperator ((0x26 : Nat) : Int) l' =
      (if (l'.accept 0x26).1 then emitAndLoop tokenAnd (l'.accept 0x26).2
       else .ok ((l'.accept 0x26).2, some none)) := fun _ => rfl
  rw [lexInsideBlockStep_operator U l a (0x26 :: rest) 0x26 (by simp [hin]) hpos (by omega)
    (by decide) hrd, hop]
  have hacc := accept_yes { l with width := 1, pos := l.pos + 1 } (a ++ [0x26]) rest 0x26
    (by simp [hin]) (by simp [hpos]) (by omega)
  simp only [Nat.cast_ofNat] at hacc
  rw [hacc]
  have hs := slice_eq' a [0x26, 0x26] rest hin
  simp only [List.length_cons, List.length_nil] at hs
  simp [emitAndLoop, lexer.emit, hpos, hstart, hlen, Nat.add_assoc, hs]

theorem lexInsideBlockStep_op (U : unicodeTables) (l : lexer) (a rest op : List Nat)
    (t : itemType) (hop : (op, t) ∈ operatorTable)
    (hin : l.input = a ++ op ++ ([0x20] ++ rest)) (hpos : l.pos = a.length)
    (hstart : l.start = a.length) (hrd : l.rightDelim = [0x25, 0x7D]) :
    lexInsideBlockStep U l = .ok ({ l with
      width := 1, pos := a.length + op.length,
      items := l.items ++ [⟨t, a.length, .text op⟩],
      start := a.length + op.length }, none) := by
  rw [operatorTable_eq] at hop
  simp only [List.mem_cons, Prod.mk.injEq, List.mem_singleton, List.not_mem_nil, or_false] at hop
  rcases hop with ⟨rfl, rfl⟩ | ⟨rfl, rfl⟩ | ⟨rfl, rfl⟩ | ⟨rfl, rfl⟩ | ⟨rfl, rfl⟩ | ⟨rfl, rfl⟩ |
    ⟨rfl, rfl⟩ | ⟨rfl, rfl⟩ | ⟨rfl, rfl⟩ | ⟨rfl, rfl⟩ | ⟨rfl, rfl⟩ | ⟨rfl, rfl⟩ | ⟨rfl, rfl⟩ |
    ⟨rfl, rfl⟩
  · exact lexInsideBlockStep_op2 U l a ([0x20] ++ rest) 0x7C 0x7C tokenOr tokenPipe (by simp [hin]) hpos
      hstart (by omega) (by omega) (by decide) (by simp [hrd, HasPrefix_cons]) (fun _ => rfl)
      (by decide)
  · exact lexInsideBlockStep_op1 U l a rest 0x7C 0x7C tokenOr tokenPipe hin hpos hstart
      (by omega) (by omega) (by decide) (by simp [hrd, HasPrefix_cons]) (fun _ => rfl) (by decide)
  · exact lexInsideBlockStep_op2 U l a ([0x20] ++ rest) 0x2F 0x2F tokenFloordiv tokenDiv (by simp [hin]) hpos
      hstart (by omega) (by omega) (by decide) (by simp [hrd, HasPrefix_cons]) (fun _ => rfl)
      (by decide)
  · exact lexInsideBlockStep_op1 U l a rest 0x2F 0x2F tokenFloordiv tokenDiv hin hpos hstart
      (by omega) (by omega) (by decide) (by simp [hrd, HasPrefix_cons]) (fun _ => rfl) (by decide)
  · exact lexInsideBlockStep_op2 U l a ([0x20] ++ rest) 0x3C 0x3D tokenLteq tokenLt (by simp [hin]) hpos
      hstart (by omega) (by omega) (by decide) (by simp [hrd, HasPrefix_cons]) (fun _ => rfl)
      (by decide)
  · exact lexInsideBlockStep_op1 U l a rest 0x3C 0x3D tokenLteq tokenLt hin hpos hstart
      (by omega) (by omega) (by decide) (by simp [hrd, HasPrefix_cons]) (fun _ => rfl) (by decide)
  · exact lexInsideBlockStep_op2 U l a ([0x20] ++ rest) 0x3E 0x3D tokenGteq tokenGt (by simp [hin]) hpos
      hstart (by omega) (by omega) (by decide) (by simp [hrd, HasPrefix_cons]) (fun _ => rfl)
      (by decide)
  · exact lexInsideBlockStep_op1 U l a rest 0x3E 0x3D tokenGteq tokenGt hin hpos hstart
      (by omega) (by omega) (by decide) (by simp [hrd, HasPrefix_cons]) (fun _ => rfl) (by decide)
  · exact lexInsideBlockStep_op2 U l a ([0x20] ++ rest) 0x2A 0x2A tokenPow tokenMul (by simp [hin]) hpos
      hstart (by omega) (by omega) (by decide) (by simp [hrd, HasPrefix_cons]) (fun _ => rfl)
      (by decide)
  · exact lexInsideBlockStep_op1 U l a rest 0x2A 0x2A tokenPow tokenMul hin hpos hstart
      (by omega) (by omega) (by decide) (by simp [hrd, HasPrefix_cons]) (fun _ => rfl) (by decide)
  · exact lexInsideBlockStep_op2 U l a ([0x20] ++ rest) 0x21 0x3D tokenNeq tokenNot (by simp [hin]) hpos
      hstart (by omega) (by omega) (by decide) (by simp [hrd, HasPrefix_cons]) (fun _ => rfl)
      (by decide)
  · exact lexInsideBlockStep_op1 U l a rest 0x21 0x3D tokenNeq tokenNot hin hpos hstart
      (by omega) (by omega) (by decide) (by simp [hrd, HasPrefix_cons]) (fun _ => rfl) (by decide)
  · exact lexInsideBlockStep_and U l a ([0x20] ++ rest) (by simp [hin]) hpos hstart
      (by simp [hrd, HasPrefix_cons])
  · exact lexInsideBlockStep_op2 U l a ([0x20] ++ rest) 0x3D 0x3D tokenEqEq tokenEq (by simp [hin]) hpos
      hstart (by omega) (by omega) (by decide) (by simp [hrd, HasPrefix_cons]) (fun _ => rfl)
      (by decide)

theorem EndsWith.operator {U : unicodeTables} {l : lexer} {items : List item}
    (a rest op : List Nat) (t : itemType) (b : Nat) (hop : (op, t) ∈ operatorTable)
    (hin : l.input = a ++ op ++ ([0x20] ++ (b :: rest)))
    (hpos : l.pos = a.length) (hstart : l.start = a.length)
    (hrd : l.rightDelim = [0x25, 0x7D]) (hb : b < 0x80) (hns : b ≠ 0x20 ∧ b ≠ 0x09)
    (h : EndsWith U .lexInsideBlock { l with
      width := 1, pos := a.length + op.length + 1,
      items := l.items ++
        [⟨t, a.length, .text op⟩, ⟨tokenWhitespace, a.length + op.length, .text [0x20]⟩],
      start := a.length + op.length + 1 } items) :
    EndsWith U .lexInsideBlock l items := by
  have hstep := lexInsideBlockStep_op U l a (b :: rest) op t hop hin hpos hstart hrd
  have h1 : ∀ fuel, lexInsideBlock U (fuel + 2) l = .ok ({ l with
      width := 1, pos := a.length + op.length + 1,
      items := l.items ++ [⟨t, a.length, .text op⟩],
      start := a.length + op.length }, some .lexSpace) := fun fuel => by
    rw [lexInsideBlock_succ, hstep]
    simp only [Res.ok_bind]
    rw [lexInsideBlock_space U fuel _ (a ++ op) (b :: rest) (by simp [hin]) (by simp)
      (by simp [hrd, HasPrefix_cons])]
  refine EndsWith.step_add 2 h1 ?_
  refine EndsWith.step_add 1 (fun fuel => ?_) h
  have := lexSpace_one fuel { l with
      width := 1, pos := a.length + op.length + 1,
      items := l.items ++ [⟨t, a.length, .text op⟩],
      start := a.length + op.length } (a ++ op ++ [0x20]) rest b
    (by simp [hin]) (by simp; omega) (by simp) hb hns
  have hs : (l.input.take (a.length + op.length + 1)).drop (a.length + op.length) = [0x20] := by
    have := slice_eq' (a ++ op) [0x20] (b :: rest) (by simpa using hin)
    simpa using this
  simp only [hs] at this
  rw [show stateFn.call U .lexSpace (fuel + 1) _ = lexSpace (fuel + 1) _ from rfl, this]
  simp

theorem EndsWith.at_eof {U : unicodeTables} {l : lexer} {items : List item}
    (hcfg : l.cfg = defaultCfg) (hpos : l.pos = l.input.length)
    (hstart : l.start = l.input.length)
    (hitems : items = l.items ++ [⟨tokenEOF, l.input.length, .text []⟩]) :
    EndsWith U .lexText l items := by
  obtain ⟨k, w, h⟩ := lexText_to_eof l l.input [] hcfg (by simp) hpos hstart (by simp)
  subst hitems
  refine EndsWith.last_add (s := .lexText) (k + 1) h ?_
  simp

theorem operatorTable_head {op : List Nat} {t : itemType} (hop : (op, t) ∈ operatorTable) :
    ∃ o op', op = o :: op' ∧ o < 0x80 ∧ o ≠ 0x20 ∧ o ≠ 0x09 ∧ o ≠ 0x25 := by
  rw [operatorTable_eq] at hop
  simp only [List.mem_cons, Prod.mk.injEq, List.mem_singleton, List.not_mem_nil, or_false] at hop
  rcases hop with ⟨rfl, rfl⟩ | ⟨rfl, rfl⟩ | ⟨rfl, rfl⟩ | ⟨rfl, rfl⟩ | ⟨rfl, rfl⟩ | ⟨rfl, rfl⟩ |
    ⟨rfl, rfl⟩ | ⟨rfl, rfl⟩ | ⟨rfl, rfl⟩ | ⟨rfl, rfl⟩ | ⟨rfl, rfl⟩ | ⟨rfl, rfl⟩ | ⟨rfl, rfl⟩ |
    ⟨rfl, rfl⟩ <;> exact ⟨_, _, rfl, by omega, by omega, by omega, by omega⟩

theorem isDigitByte_facts {b : Nat} (h : isDigitByte b = true) :
    b < 0x80 ∧ (b ≠ 0x20 ∧ b ≠ 0x09) ∧ b ≠ 0x25 := by
  simp [isDigitByte] at h
  omega

/-- C6: for all non-empty ASCII digit strings m and n and every operator op of
the lookahead table, with its kind t, the scan of "{% if m op n %}" with the
default delimiters ends, for every fuel from some bound on, and sends exactly
block-begin, whitespace, name("if"), whitespace, integer(m), whitespace, one
item of kind t with the text op, whitespace, integer(n), whitespace,
block-end, end-of-input; a two-character operator is one item. -/
theorem if_operator_scan (U : unicodeTables) (m n op : List Nat) (t : itemType)
    (hm : m ≠ []) (hmd : ∀ b ∈ m, isDigitByte b = true)
    (hn : n ≠ []) (hnd : ∀ b ∈ n, isDigitByte b = true)
    (hop : (op, t) ∈ operatorTable) :
    ∃ N, ∀ fuel, N ≤ fuel →
      scan U defaultCfg
        (bytes "\x7b% if " ++ m ++ bytes " " ++ op ++ bytes " " ++ n ++ bytes " %\x7d") fuel =
      .ok
        [⟨tokenBlockBegin, 0, .text (bytes "\x7b%")⟩,
         ⟨tokenWhitespace, 2, .text (bytes " ")⟩,
         ⟨tokenName, 3, .text (bytes "if")⟩,
         ⟨tokenWhitespace, 5, .text (bytes " ")⟩,
         ⟨tokenInteger, 6, .text m⟩,
         ⟨tokenWhitespace, 6 + m.length, .text (bytes " ")⟩,
         ⟨t, 7 + m.length, .text op⟩,
         ⟨tokenWhitespace, 7 + m.length + op.length, .text (bytes " ")⟩,
         ⟨tokenInteger, 8 + m.length + op.length, .text n⟩,
         ⟨tokenWhitespace, 8 + m.length + op.length + n.length, .text (bytes " ")⟩,
         ⟨tokenBlockEnd, 9 + m.length + op.length + n.length, .text (bytes "%\x7d")⟩,
         ⟨tokenEOF, 11 + m.length + op.length + n.length, .text []⟩] := by
  obtain ⟨m0, m', rfl⟩ := List.exists_cons_of_ne_nil hm
  obtain ⟨n0, n', rfl⟩ := List.exists_cons_of_ne_nil hn
  obtain ⟨o, op', hopeq, ho80, ho20, ho09, ho25⟩ := operatorTable_head hop
  obtain ⟨hm80, hmns, hm25⟩ := isDigitByte_facts (hmd m0 (List.mem_cons_self _ _))
  obtain ⟨hn80, hnns, hn25⟩ := isDigitByte_facts (hnd n0 (List.mem_cons_self _ _))
  have hb1 : bytes "\x7b% if " = [0x7B, 0x25, 0x20, 0x69, 0x66, 0x20] := by decide
  have hb2 : bytes " %\x7d" = [0x20, 0x25, 0x7D] := by decide
  have hb3 : bytes "\x7b%" = [0x7B, 0x25] := by decide
  have hb4 : bytes "%\x7d" = [0x25, 0x7D] := by decide
  have hb5 : bytes " " = [0x20] := by decide
  have hb6 : bytes "if" = [0x69, 0x66] := by decide
  obtain ⟨-, hbe, -, -, -, -⟩ := defaultCfg_fields
  rw [hb1, hb2, hb3, hb4, hb5, hb6]
  apply EndsWith.scan
  have h1 := fun fuel => lexText_at_block fuel
    (lexer.new defaultCfg ([0x7B, 0x25, 0x20, 0x69, 0x66, 0x20] ++ m0 :: m' ++ [0x20] ++ op ++
      [0x20] ++ n0 :: n' ++ [0x20, 0x25, 0x7D])) []
    ([0x20, 0x69, 0x66, 0x20] ++ m0 :: m' ++ [0x20] ++ op ++ [0x20] ++ n0 :: n' ++
      [0x20, 0x25, 0x7D]) rfl (by simp [lexer.new]) rfl (le_refl _)
  refine EndsWith.step_add (s := .lexText) 1 h1 ?_
  dsimp only [lexer.new]
  refine EndsWith.block_begin [] ([0x20, 0x69, 0x66, 0x20] ++ m0 :: m' ++ [0x20] ++ op ++
      [0x20] ++ n0 :: n' ++ [0x20, 0x25, 0x7D]) rfl rfl (by simp [lexer.new]) (by simp [lexer.new])
    (by simp [lexer.new]) ?_
  dsimp only [lexer.new]
  refine EndsWith.space [0x7B, 0x25] ([0x66, 0x20] ++ m0 :: m' ++ [0x20] ++ op ++
      [0x20] ++ n0 :: n' ++ [0x20, 0x25, 0x7D]) 0x69 (by simp [lexer.new]) (by simp) (by simp)
    (by omega) (by omega) (by simp [HasPrefix_cons]) ?_
  dsimp only [lexer.new]
  refine EndsWith.name [0x7B, 0x25, 0x20] [0x66] (m0 :: m' ++ [0x20] ++ op ++
      [0x20] ++ n0 :: n' ++ [0x20, 0x25, 0x7D]) 0x69 (by simp [lexer.new]) (by simp) (by simp)
    (by decide) (by decide) (by simp [HasPrefix_cons]) ?_
  dsimp only [lexer.new]
  refine EndsWith.space [0x7B, 0x25, 0x20, 0x69, 0x66] (m' ++ [0x20] ++ op ++
      [0x20] ++ n0 :: n' ++ [0x20, 0x25, 0x7D]) m0 (by simp [lexer.new]) (by simp) (by simp)
    hm80 hmns (by simp [HasPrefix_cons]) ?_
  dsimp only [lexer.new]
  refine EndsWith.integer [0x7B, 0x25, 0x20, 0x69, 0x66, 0x20] m' (op ++
      [0x20] ++ n0 :: n' ++ [0x20, 0x25, 0x7D]) m0 (by simp [lexer.new]) (by simp) (by simp)
    hmd (by simp [HasPrefix_cons, Ne.symm hm25]) ?_
  dsimp only [lexer.new]
  subst hopeq
  refine EndsWith.space ([0x7B, 0x25, 0x20, 0x69, 0x66, 0x20] ++ m0 :: m') (op' ++
      [0x20] ++ n0 :: n' ++ [0x20, 0x25, 0x7D]) o (by simp [lexer.new]) (by simp; omega)
    (by simp; omega) ho80 ⟨ho20, ho09⟩ (by simp [HasPrefix_cons]) ?_
  dsimp only [lexer.new]
  refine EndsWith.operator ([0x7B, 0x25, 0x20, 0x69, 0x66, 0x20] ++ m0 :: m' ++ [0x20])
    (n' ++ [0x20, 0x25, 0x7D]) (o :: op') t n0 hop (by simp [lexer.new]) (by simp)
    (by simp) rfl hn80 hnns ?_
  dsimp only [lexer.new]
  refine EndsWith.integer ([0x7B, 0x25, 0x20, 0x69, 0x66, 0x20] ++ m0 :: m' ++ [0x20] ++
      o :: op' ++ [0x20]) n' [0x25, 0x7D] n0 (by simp [lexer.new]) (by simp; omega)
    (by simp; omega) hnd (by simp [HasPrefix_cons, Ne.symm hn25]) ?_
  dsimp only [lexer.new]
  refine EndsWith.space ([0x7B, 0x25, 0x20, 0x69, 0x66, 0x20] ++ m0 :: m' ++ [0x20] ++
      o :: op' ++ [0x20] ++ n0 :: n') [0x7D] 0x25 (by simp [lexer.new]) (by simp; omega)
    (by simp; omega) (by omega) (by omega) (by simp [HasPrefix_cons]) ?_
  dsimp only [lexer.new]
  refine EndsWith.end_marker ([0x7B, 0x25, 0x20, 0x69, 0x66, 0x20] ++ m0 :: m' ++ [0x20] ++
      o :: op' ++ [0x20] ++ n0 :: n' ++ [0x20]) [] (by simp [lexer.new]) (by simp; omega)
    (by simp; omega) (by simp) rfl (Or.inl (by simp [lexer.new, hbe])) (fun w' => ?_)
  dsimp only [lexer.new]
  refine EndsWith.at_eof rfl (by simp [lexer.new]; omega) (by simp [lexer.new]; omega) ?_
  dsimp only
  have hif : ¬ (([0x69, 0x66] : List Nat) = bytes "true" ∨ [0x69, 0x66] = bytes "false") := by
    decide
  rw [hbe, if_neg hif, if_pos rfl, if_neg (Nat.lt_irrefl 0)]
  simp only [List.length_append, List.length_cons, List.length_nil, List.nil_append,
    List.append_assoc, List.cons_append, List.singleton_append, List.cons.injEq, item.mk.injEq,
    and_true, true_and]
  omega

/-- The digit and table conditions hold of "1", "1" and "==", and the scan of
"{% if 1 == 1 %}" sends block-begin, whitespace, name("if"), whitespace,
integer("1"), whitespace, eqeq("=="), whitespace, integer("1"), whitespace,
block-end, end-of-input. -/
theorem if_operator_scan_witness :
    (bytes "1" ≠ [] ∧ (∀ b ∈ bytes "1", isDigitByte b = true) ∧
      (bytes "==", tokenEqEq) ∈ operatorTable) ∧
    (∃ N, ∀ fuel, N ≤ fuel →
      scan noTables defaultCfg
        (bytes "\x7b% if " ++ bytes "1" ++ bytes " " ++ bytes "==" ++ bytes " " ++ bytes "1" ++
          bytes " %\x7d") fuel =
      .ok
        [⟨tokenBlockBegin, 0, .text (bytes "\x7b%")⟩,
         ⟨tokenWhitespace, 2, .text (bytes " ")⟩,
         ⟨tokenName, 3, .text (bytes "if")⟩,
         ⟨tokenWhitespace, 5, .text (bytes " ")⟩,
         ⟨tokenInteger, 6, .text (bytes "1")⟩,
         ⟨tokenWhitespace, 6 + (bytes "1").length, .text (bytes " ")⟩,
         ⟨tokenEqEq, 7 + (bytes "1").length, .text (bytes "==")⟩,
         ⟨tokenWhitespace, 7 + (bytes "1").length + (bytes "==").length, .text (bytes " ")⟩,
         ⟨tokenInteger, 8 + (bytes "1").length + (bytes "==").length, .text (bytes "1")⟩,
         ⟨tokenWhitespace, 8 + (bytes "1").length + (bytes "==").length + (bytes "1").length,
           .text (bytes " ")⟩,
         ⟨tokenBlockEnd, 9 + (bytes "1").length + (bytes "==").length + (bytes "1").length,
           .text (bytes "%\x7d")⟩,
         ⟨tokenEOF, 11 + (bytes "1").length + (bytes "==").length + (bytes "1").length,
           .text []⟩]) ∧
    scan noTables defaultCfg (bytes "\x7b% if 1 == 1 %\x7d") 40 = .ok
      [⟨tokenBlockBegin, 0, .text (bytes "\x7b%")⟩,
       ⟨tokenWhitespace, 2, .text (bytes " ")⟩,
       ⟨tokenName, 3, .text (bytes "if")⟩,
       ⟨tokenWhitespace, 5, .text (bytes " ")⟩,
       ⟨tokenInteger, 6, .text (bytes "1")⟩,
       ⟨tokenWhitespace, 7, .text (bytes " ")⟩,
       ⟨tokenEqEq, 8, .text (bytes "==")⟩,
       ⟨tokenWhitespace, 10, .text (bytes " ")⟩,
       ⟨tokenInteger, 11, .text (bytes "1")⟩,
       ⟨tokenWhitespace, 12, .text (bytes " ")⟩,
       ⟨tokenBlockEnd, 13, .text (bytes "%\x7d")⟩,
       ⟨tokenEOF, 15, .text []⟩] :=
  ⟨⟨by decide, by decide, by decide⟩,
   if_operator_scan noTables (bytes "1") (bytes "1") (bytes "==") tokenEqEq (by decide)
     (by decide) (by decide) (by decide) (by decide),
   rfl⟩

theorem Index_single_cons (b c : Nat) (t : List Nat) (h : b ≠ c) :
    Index (b :: t) [c] = (Index t [c]).map (· + 1) := by
  rw [Index]
  simp [HasPrefix, h.symm]

theorem Index_single_hit (c : Nat) (t : List Nat) : Index (c :: t) [c] = some 0 := by
  rw [Index]
  simp [HasPrefix]

theorem Index_single_append (k rest : List Nat) (c : Nat) (hk : ∀ b ∈ k, b ≠ c) :
    Index (k ++ c :: rest) [c] = some k.length := by
  induction k with
  | nil => exact Index_single_hit c rest
  | cons b k ih =>
    rw [List.cons_append, Index_single_cons b c _ (hk b (List.mem_cons_self _ _)),
      ih (fun x hx => hk x (List.mem_cons_of_mem _ hx))]
    rfl

theorem hasChildBracket_quoted (q : Nat) (hq : q = 0x27 ∨ q = 0x22) (k rest : List Nat)
    (hk : ∀ b ∈ k, b ≠ 0x5D) :
    hasChildBracket (q :: (k ++ q :: 0x5D :: rest)) = .ok (k, rest, false) := by
  have hq5 : q ≠ 0x5D := by rcases hq with rfl | rfl <;> decide
  have hidx : Index (q :: (k ++ q :: 0x5D :: rest)) [0x5D] = some (k.length + 2) := by
    have := Index_single_append (q :: (k ++ [q])) rest 0x5D (by
      intro b hb
      simp only [List.mem_cons, List.mem_append, List.mem_singleton, List.not_mem_nil,
        or_false] at hb
      rcases hb with rfl | hb | rfl
      · exact hq5
      · exact hk b hb
      · exact hq5)
    simpa using this
  have htake : (q :: (k ++ q :: 0x5D :: rest)).take (k.length + 2) = q :: (k ++ [q]) := by
    have : q :: (k ++ q :: 0x5D :: rest) = (q :: (k ++ [q])) ++ (0x5D :: rest) := by simp
    rw [this, List.take_left']
    simp
  have hdrop : (q :: (k ++ q :: 0x5D :: rest)).drop (k.length + 2 + 1) = rest := by
    have : q :: (k ++ q :: 0x5D :: rest) = (q :: (k ++ [q, 0x5D])) ++ rest := by simp
    rw [this, List.drop_left']
    simp
  unfold hasChildBracket
  rw [hidx]
  simp only [htake, hdrop]
  have hlast : (q :: (k ++ [q])).getLast? = some q := by
    rw [show q :: (k ++ [q]) = (q :: k) ++ [q] by simp, List.getLast?_append]
    simp
  rw [hlast]
  simp only [List.head?_cons]
  have hcond : (q = 0x27 ∧ q = 0x27) ∨ (q = 0x22 ∧ q = 0x22) := by
    rcases hq with h | h
    · exact Or.inl ⟨h, h⟩
    · exact Or.inr ⟨h, h⟩
  rw [if_pos hcond, if_pos (by simp)]
  simp [List.take_append]

/-- C11: a bracket segment whose content is in matching single or double
quotes is unquoted and is one key: for every key k without a closing bracket
and every rest, hasChild of [ quote k quote ] rest gives the head k, the
remainder rest and no error, for both quotes; hasChild of a[(quote)b.c(quote)]
gives the head a and the bracket segment as remainder, so that the lookup of
that path in the scope {a: ScopeOf({"b.c": 7})} gives (7, true); and a.b.c
splits into the segments a, b and c. -/
theorem bracket_quoted_key (k rest : List Nat) (hk : ∀ b ∈ k, b ≠ 0x5D) :
    hasChild (bytes "[\x27" ++ k ++ bytes "\x27]" ++ rest) = .ok (k, rest, false) ∧
    hasChild (bytes "[\x22" ++ k ++ bytes "\x22]" ++ rest) = .ok (k, rest, false) ∧
    hasChild (bytes "a[\x27b.c\x27]") = .ok (bytes "a", bytes "[\x27b.c\x27]", false) ∧
    scopeQuoted.lookup (bytes "a[\x27b.c\x27]") = .ok (.int 7, true) ∧
    scopeQuoted.lookup (bytes "a[\x22b.c\x22]") = .ok (.int 7, true) ∧
    hasChild (bytes "a.b.c") = .ok (bytes "a", bytes ".b.c", false) ∧
    hasChild (bytes ".b.c") = .ok (bytes "b", bytes ".c", false) ∧
    hasChild (bytes ".c") = .ok (bytes "c", [], false) := by
  have h1 : bytes "[\x27" = [0x5B, 0x27] := by decide
  have h2 : bytes "\x27]" = [0x27, 0x5D] := by decide
  have h3 : bytes "[\x22" = [0x5B, 0x22] := by decide
  have h4 : bytes "\x22]" = [0x22, 0x5D] := by decide
  refine ⟨?_, ?_, rfl, rfl, rfl, rfl, rfl, rfl⟩
  · rw [h1, h2]
    have e : [0x5B, 0x27] ++ k ++ [0x27, 0x5D] ++ rest = 0x5B :: 0x27 :: (k ++ 0x27 :: 0x5D :: rest) := by
      simp
    rw [e, hasChild]
    simp only [IndexAny]
    simp only [Nat.reduceEqDiff, or_true, if_true]
    exact hasChildBracket_quoted 0x27 (Or.inl rfl) k rest hk
  · rw [h3, h4]
    have e : [0x5B, 0x22] ++ k ++ [0x22, 0x5D] ++ rest = 0x5B :: 0x22 :: (k ++ 0x22 :: 0x5D :: rest) := by
      simp
    rw [e, hasChild]
    simp only [IndexAny]
    simp only [Nat.reduceEqDiff, or_true, if_true]
    exact hasChildBracket_quoted 0x22 (Or.inr rfl) k rest hk

/-- The key b.c has no closing bracket, and hasChild of the quoted bracket
segment gives it back as the head, with the remainder .d. -/
theorem bracket_quoted_key_witness :
    (∀ b ∈ bytes "b.c", b ≠ 0x5D) ∧
    hasChild (bytes "[\x27" ++ bytes "b.c" ++ bytes "\x27]" ++ bytes ".d") =
      .ok (bytes "b.c", bytes ".d", false) :=
  ⟨by decide, (bracket_quoted_key (bytes "b.c") (bytes ".d") (by decide)).1⟩

/-- In a mapping-backed scope, a path whose head is not a key and whose
remainder is not empty makes `lookup` panic: `Interface` is called on the zero
Value that `MapIndex` gave. -/
theorem lookup_missing_key_panics (entries : Entries) (name pname cname : List Nat)
    (hsplit : hasChild name = .ok (pname, cname, false)) (hc : cname ≠ [])
    (hmiss : entries.MapIndex pname = .invalid) :
    (⟨.Map, .map entries⟩ : Context).lookup name = .panic := by
  unfold Context.lookup
  rw [lookupFuel_succ]
  simp [lookupStep, hsplit, hmiss, lookupChild, hc, Value.IsValid]

/-- C12: in the scope {a: 1} the path z, whose head is no key, is not found,
without a failure; but the path z.b, with a remainder, makes the lookup
panic, in the mapping-backed scope {a: 1} as in the record-backed scope with
the one field A; and the lookup of z.b in the stack of {z: ScopeOf({b: 5})}
and the pushed {a: 1} panics in the pushed scope instead of going on to the
outer scope, which alone finds (5, true). -/
theorem lookup_missing_head_panics :
    scopeA1.lookup (bytes "z") = .ok (.invalid, false) ∧
    recordA1.lookup (bytes "Z") = .ok (.invalid, false) ∧
    scopeA1.lookup (bytes "z.b") = .panic ∧
    recordA1.lookup (bytes "Z.b") = .panic ∧
    scopeZB.lookup (bytes "z.b") = .ok (.int 5, true) ∧
    contextStack.lookup (contextStack.push [scopeZB] scopeA1) (bytes "z.b") = .panic := by
  exact ⟨rfl, rfl, rfl, rfl, rfl, rfl⟩

theorem indirectAll_not_ptr (v : Value) : ∀ e, indirectAll v ≠ .ptr e := by
  induction v using Value.rec (motive_2 := fun _ => True) (motive_3 := fun _ => True) with
  | ptr elem ih => simpa [indirectAll] using ih
  | invalid => simp [indirectAll]
  | nilInterface => simp [indirectAll]
  | int n => simp [indirectAll]
  | str s => simp [indirectAll]
  | other k => simp [indirectAll]
  | map en => simp [indirectAll]
  | struct f => simp [indirectAll]
  | context k b => simp [indirectAll]
  | _ => trivial

theorem indirectAll_layers (v : Value) : ∃ n : Nat, v = Value.ptr^[n] (indirectAll v) := by
  induction v using Value.rec (motive_2 := fun _ => True) (motive_3 := fun _ => True) with
  | ptr elem ih =>
    obtain ⟨n, hn⟩ := ih
    refine ⟨n + 1, ?_⟩
    rw [Function.iterate_succ_apply']
    simp only [indirectAll]
    rw [← hn]
  | invalid => exact ⟨0, rfl⟩
  | nilInterface => exact ⟨0, rfl⟩
  | int n => exact ⟨0, rfl⟩
  | str s => exact ⟨0, rfl⟩
  | other k => exact ⟨0, rfl⟩
  | map en => exact ⟨0, rfl⟩
  | struct f => exact ⟨0, rfl⟩
  | context k b => exact ⟨0, rfl⟩
  | _ => trivial

/-- C13: for every value v, NewContext(v) returns no error if and only if the
value under all the pointer layers of v (v is that value under some number of
pointers, and that value is no pointer) is of kind Map or Struct; the Context
returned has that value as its backing value and its kind as its kind tag,
with or without the error; and an integer, a string, a slice, nil, a nil
pointer and a pointer to an integer give an error, a map under two pointers
and a struct do not. -/
theorem NewContext_ok_iff (v : Value) :
    ((NewContext v).2 = false ↔
      ((indirectAll v).Kind = .Map ∨ (indirectAll v).Kind = .Struct)) ∧
    (NewContext v).1.value = indirectAll v ∧
    (NewContext v).1.kind = (indirectAll v).Kind ∧
    (∃ n : Nat, v = Value.ptr^[n] (indirectAll v)) ∧
    (∀ e, indirectAll v ≠ .ptr e) ∧
    (NewContext (.int 3)).2 = true ∧
    (NewContext (.str (bytes "s"))).2 = true ∧
    (NewContext (.other .Slice)).2 = true ∧
    (NewContext .invalid).2 = true ∧
    (NewContext (.ptr .invalid)).2 = true ∧
    (NewContext (.ptr (.int 3))).2 = true ∧
    NewContext (.ptr (.ptr (.map entriesB))) = (⟨.Map, .map entriesB⟩, false) ∧
    NewContext (.struct .nil) = (⟨.Struct, .struct .nil⟩, false) := by
  refine ⟨?_, ?_, ?_, indirectAll_layers v, indirectAll_not_ptr v,
    rfl, rfl, rfl, rfl, rfl, rfl, rfl, rfl⟩
  · unfold NewContext
    by_cases h1 : (indirectAll v).Kind = .Map
    · simp [h1]
    · by_cases h2 : (indirectAll v).Kind = .Struct
      · simp [h2]
      · simp [h1, h2]
  · unfold NewContext
    dsimp only
    split <;> rfl
  · unfold NewContext
    dsimp only
    split <;> rfl

/-- C20: hasChild is not total. On the path [] the bracket segment is empty
and `parent[0]` is out of range; on the paths [(single quote)] and
[(double quote)] the segment is one quote, which is both its first and its
last character, and the slice `parent[1 : len(parent)-1]` is `parent[1:0]`:
all three panic. A bracket without its closing bracket gives the error, and
a bracket segment of two quotes gives the empty head. -/
theorem hasChild_panics_on_short_bracket :
    hasChild (bytes "[]") = .panic ∧
    hasChild (bytes "[\x27]") = .panic ∧
    hasChild (bytes "[\x22]") = .panic ∧
    hasChild (bytes "a[]") = .ok (bytes "a", bytes "[]", false) ∧
    scopeA1.lookup (bytes "[]") = .panic ∧
    hasChild (bytes "[a") = .ok ([], [], true) ∧
    hasChild (bytes "[\x27\x27]") = .ok ([], [], false) := by
  exact ⟨rfl, rfl, rfl, rfl, rfl, rfl, rfl⟩

theorem HasPrefix_iff (s p : List Nat) : HasPrefix s p = true ↔ p <+: s := by
  unfold HasPrefix
  exact List.isPrefixOf_iff_prefix

theorem Index_nil (sep : List Nat) :
    Index [] sep = if HasPrefix [] sep then some 0 else none := by
  rw [Index]

theorem Index_cons (x : Nat) (t sep : List Nat) :
    Index (x :: t) sep =
      if HasPrefix (x :: t) sep then some 0 else (Index t sep).map (· + 1) := by
  rw [Index]

theorem Index_none (s sep : List Nat) (h : ¬ sep <:+: s) : Index s sep = none := by
  induction s with
  | nil =>
    rw [Index_nil]
    have : HasPrefix [] sep = false := by
      rw [Bool.eq_false_iff]
      intro hp
      exact h ((HasPrefix_iff _ _).mp hp).isInfix
    rw [this]
    rfl
  | cons x t ih =>
    rw [Index_cons]
    have : HasPrefix (x :: t) sep = false := by
      rw [Bool.eq_false_iff]
      intro hp
      exact h ((HasPrefix_iff _ _).mp hp).isInfix
    rw [this]
    have ht : ¬ sep <:+: t := fun hi => h (List.infix_cons hi)
    simp [ih ht]

theorem Index_pair_append (b s : List Nat) (c d : Nat) (hcd : c ≠ d)
    (h : ¬ [c, d] <:+: b) : Index (b ++ [c, d] ++ s) [c, d] = some b.length := by
  induction b with
  | nil =>
    rw [List.nil_append, List.cons_append, Index_cons]
    simp [HasPrefix]
  | cons x t ih =>
    have e : x :: t ++ [c, d] ++ s = x :: (t ++ [c, d] ++ s) := by simp
    rw [e, Index_cons]
    have hp : HasPrefix (x :: (t ++ [c, d] ++ s)) [c, d] = false := by
      rw [Bool.eq_false_iff]
      intro hp
      cases t with
      | nil =>
        simp [HasPrefix] at hp
        exact hcd hp.2.symm
      | cons y t' =>
        simp [HasPrefix] at hp
        apply h
        rw [hp.1, hp.2]
        exact ⟨[], t', by simp⟩
    rw [hp]
    have ht : ¬ [c, d] <:+: t := fun hi => h (List.infix_cons hi)
    simp only [ih ht, Bool.false_eq_true, if_false]
    rfl
theorem lexText_at_comment (fuel : Nat) (l : lexer) (a rest : List Nat)
    (hcfg : l.cfg = defaultCfg) (hin : l.input = a ++ [0x7B, 0x23] ++ rest)
    (hpos : l.pos = a.length) (hstart : l.start ≤ l.pos) :
    lexText (fuel + 1) l = .ok ({ l with
      items := l.items ++
        (if l.start < l.pos then [⟨tokenText, l.start, .text ((l.input.take l.pos).drop l.start)⟩]
         else []),
      start := l.pos }, some .lexComment) := by
  obtain ⟨hd, hl⟩ := input_at hin hpos
  have hlt : l.pos < l.input.length := by rw [hl, hpos]; simp; omega
  have hget : l.input.get? l.pos = some 0x7B := by
    rw [List.get?_eq_getElem?, ← List.head?_drop, hd]; rfl
  obtain ⟨h1, h1', h2, h2', h3, -⟩ := defaultCfg_fields
  rw [lexText_succ]
  unfold lexTextStep
  rw [if_neg (Nat.ne_of_lt hlt), hget]
  simp only [hcfg, h1, List.head?, if_true, lexTextBlock, lexTextVariable, lexTextComment, hd,
    h2, h3]
  simp only [List.cons_append, List.nil_append, HasPrefix_cons, HasPrefix_nil]
  simp [emitText_ok l hstart (Nat.le_of_lt hlt), hcfg]

theorem lexText_to_comment (l : lexer) (a p rest : List Nat)
    (hcfg : l.cfg = defaultCfg) (hin : l.input = a ++ p ++ ([0x7B, 0x23] ++ rest))
    (hpos : l.pos = a.length) (hstart : l.start = a.length) (hp : ∀ b ∈ p, b ≠ 0x7B) :
    ∃ k w, ∀ fuel, lexText (fuel + (k + 1)) l = .ok ({ l with
      width := w, pos := a.length + p.length,
      items := l.items ++ (if p = [] then [] else [⟨tokenText, a.length, .text p⟩]),
      start := a.length + p.length }, some .lexComment) := by
  obtain ⟨k, w, hk⟩ := lexText_skip p.length l a p ([0x7B, 0x23] ++ rest) (le_refl _) hcfg hin
    hpos hp (Or.inr rfl)
  refine ⟨k, w, fun fuel => ?_⟩
  rw [show fuel + (k + 1) = (fuel + 1) + k by omega, hk]
  rw [lexText_at_comment fuel { l with pos := a.length + p.length, width := w } (a ++ p) rest
    hcfg (by simp [hin]) (by simp) (by simp [hstart])]
  simp only [hstart, hin]
  congr 3
  by_cases hpe : p = []
  · simp [hpe]
  · have : 0 < p.length := List.length_pos.mpr hpe
    simp only [hpe, if_false, this, Nat.lt_add_right_iff_pos, if_true]
    rw [slice_eq]

theorem lexComment_closed (l : lexer) (a b rest : List Nat)
    (hcfg : l.cfg = defaultCfg) (hin : l.input = a ++ [0x7B, 0x23] ++ (b ++ [0x23, 0x7D] ++ rest))
    (hpos : l.pos = a.length) (hstart : l.start = a.length) (hb : ¬ [0x23, 0x7D] <:+: b) :
    lexComment l = .ok ({ l with
      pos := a.length + 2 + b.length + 2,
      items := l.items ++ [⟨tokenCommentBegin, a.length, .text [0x7B, 0x23]⟩] ++
        (if b = [] then [] else [⟨tokenText, a.length + 2, .text b⟩]) ++
        [⟨tokenCommentEnd, a.length + 2 + b.length, .text [0x23, 0x7D]⟩],
      start := a.length + 2 + b.length + 2 }, some .lexText) := by
  obtain ⟨-, -, -, -, h3, h3'⟩ := defaultCfg_fields
  have hlen : l.input.length = a.length + 2 + b.length + 2 + rest.length := by
    rw [hin]; simp; omega
  have hdrop : l.input.drop (a.length + 2) = b ++ [0x23, 0x7D] ++ rest := by
    have e : (a ++ [0x7B, 0x23]).length = a.length + 2 := by simp
    rw [hin, ← e, List.drop_left]
  have l3 : defaultCfg.CommentStartString.length = 2 := by rw [h3]; rfl
  have l3' : defaultCfg.CommentEndString.length = 2 := by rw [h3']; rfl
  unfold lexComment
  simp only [hcfg, l3, hpos]
  rw [emit_ok _ _ (by simp [hstart]) (by simp [hlen]; omega)]
  simp only [Res.ok_bind, hdrop, h3', Index_pair_append b rest 0x23 0x7D (by decide) hb]
  rw [emitText_ok _ (by simp) (by simp [hlen]; omega)]
  simp only [Res.ok_bind, l3']
  rw [emit_ok _ _ (by simp) (by simp [hlen])]
  simp only [Res.ok_bind, Res.pure_eq, hstart]
  have s1 : (l.input.take (a.length + 2)).drop a.length = [0x7B, 0x23] := by
    have := slice_eq' (l := l) a [0x7B, 0x23] (b ++ [0x23, 0x7D] ++ rest) hin
    simpa using this
  have s2 : (l.input.take (a.length + 2 + b.length)).drop (a.length + 2) = b := by
    have := slice_eq' (l := l) (a ++ [0x7B, 0x23]) b ([0x23, 0x7D] ++ rest) (by simp [hin])
    simpa using this
  have s3 : (l.input.take (a.length + 2 + b.length + 2)).drop (a.length + 2 + b.length) =
      [0x23, 0x7D] := by
    have := slice_eq' (l := l) (a ++ [0x7B, 0x23] ++ b) [0x23, 0x7D] rest (by simp [hin])
    simp only [List.length_append, List.length_cons, List.length_nil] at this
    exact this
  simp only [s1, s2, s3]
  by_cases hbe : b = []
  · subst hbe
    simp
  · have : 0 < b.length := List.length_pos.mpr hbe
    simp [hbe, this]

theorem lexComment_unclosed (l : lexer) (a r : List Nat)
    (hcfg : l.cfg = defaultCfg) (hin : l.input = a ++ [0x7B, 0x23] ++ r)
    (hpos : l.pos = a.length) (hstart : l.start = a.length) (hr : ¬ [0x23, 0x7D] <:+: r) :
    lexComment l = .ok ({ l with
      pos := a.length + 2,
      items := l.items ++ [⟨tokenCommentBegin, a.length, .text [0x7B, 0x23]⟩,
        ⟨tokenError, a.length + 2, .unclosedComment⟩],
      start := a.length + 2 }, none) := by
  obtain ⟨-, -, -, -, h3, h3'⟩ := defaultCfg_fields
  have hlen : l.input.length = a.length + 2 + r.length := by
    rw [hin]; simp; omega
  have hdrop : l.input.drop (a.length + 2) = r := by
    have e : (a ++ [0x7B, 0x23]).length = a.length + 2 := by simp
    rw [hin, ← e, List.drop_left]
  have l3 : defaultCfg.CommentStartString.length = 2 := by rw [h3]; rfl
  unfold lexComment
  simp only [hcfg, l3, hpos]
  rw [emit_ok _ _ (by simp [hstart]) (by simp [hlen])]
  simp only [Res.ok_bind, hdrop, h3', Index_none r _ hr, Res.pure_eq, hstart]
  have s1 : (l.input.take (a.length + 2)).drop a.length = [0x7B, 0x23] := by
    have := slice_eq' (l := l) a [0x7B, 0x23] r hin
    simpa using this
  simp [s1, lexer.errorf]

/-- C14: for all p and s without an opening brace and every comment body b
without the end marker #}, the scan of p {# b #} s with the default
delimiters ends, for every fuel from some bound on, and sends plain-text(p) if
p is not empty, comment-begin, plain-text(b) if b is not empty, comment-end,
plain-text(s) if s is not empty, end-of-input, each at the offset where its
text starts; and for every r without the end marker, the scan of p {# r sends
plain-text(p) if p is not empty, comment-begin and the error item "unclosed
comment", which is the last item. -/
theorem comment_scan (U : unicodeTables) (p b s r : List Nat)
    (hp : ∀ x ∈ p, x ≠ 0x7B) (hs : ∀ x ∈ s, x ≠ 0x7B)
    (hb : ¬ bytes "#\x7d" <:+: b) (hr : ¬ bytes "#\x7d" <:+: r) :
    (∃ N, ∀ fuel, N ≤ fuel →
      scan U defaultCfg (p ++ bytes "\x7b#" ++ b ++ bytes "#\x7d" ++ s) fuel = .ok
        ((if p = [] then [] else [⟨tokenText, 0, .text p⟩]) ++
         [⟨tokenCommentBegin, p.length, .text (bytes "\x7b#")⟩] ++
         (if b = [] then [] else [⟨tokenText, p.length + 2, .text b⟩]) ++
         [⟨tokenCommentEnd, p.length + 2 + b.length, .text (bytes "#\x7d")⟩] ++
         (if s = [] then [] else [⟨tokenText, p.length + 2 + b.length + 2, .text s⟩]) ++
         [⟨tokenEOF, p.length + 2 + b.length + 2 + s.length, .text []⟩])) ∧
    (∃ N, ∀ fuel, N ≤ fuel →
      scan U defaultCfg (p ++ bytes "\x7b#" ++ r) fuel = .ok
        ((if p = [] then [] else [⟨tokenText, 0, .text p⟩]) ++
         [⟨tokenCommentBegin, p.length, .text (bytes "\x7b#")⟩,
          ⟨tokenError, p.length + 2, .unclosedComment⟩])) := by
  have hb1 : bytes "\x7b#" = [0x7B, 0x23] := by decide
  have hb2 : bytes "#\x7d" = [0x23, 0x7D] := by decide
  rw [hb1, hb2] at *
  constructor
  · apply EndsWith.scan
    obtain ⟨k, w, h1⟩ := lexText_to_comment
      (lexer.new defaultCfg (p ++ [0x7B, 0x23] ++ b ++ [0x23, 0x7D] ++ s)) [] p
      (b ++ [0x23, 0x7D] ++ s) rfl (by simp [lexer.new]) rfl rfl hp
    refine EndsWith.step_add (s := .lexText) (k + 1) h1 ?_
    dsimp only [lexer.new]
    have h2 := lexComment_closed
      { cfg := defaultCfg, input := p ++ [0x7B, 0x23] ++ b ++ [0x23, 0x7D] ++ s,
        leftDelim := [], rightDelim := [], pos := ([] : List Nat).length + p.length,
        start := ([] : List Nat).length + p.length, width := w,
        items := [] ++ (if p = [] then [] else [⟨tokenText, ([] : List Nat).length, .text p⟩]),
        delimStack := [] } p b s rfl (by simp) (by simp) (by simp) hb
    refine EndsWith.step (s := .lexComment) 0 (fun fuel _ => h2) ?_
    dsimp only
    obtain ⟨k2, w2, h3⟩ := lexText_to_eof
      { cfg := defaultCfg, input := p ++ [0x7B, 0x23] ++ b ++ [0x23, 0x7D] ++ s,
        leftDelim := [], rightDelim := [], pos := p.length + 2 + b.length + 2,
        start := p.length + 2 + b.length + 2, width := w,
        items := [] ++ (if p = [] then [] else [⟨tokenText, ([] : List Nat).length, .text p⟩]) ++
          [⟨tokenCommentBegin, p.length, .text [0x7B, 0x23]⟩] ++
          (if b = [] then [] else [⟨tokenText, p.length + 2, .text b⟩]) ++
          [⟨tokenCommentEnd, p.length + 2 + b.length, .text [0x23, 0x7D]⟩],
        delimStack := [] } (p ++ [0x7B, 0x23] ++ b ++ [0x23, 0x7D]) s rfl rfl
      (by simp; omega) (by simp; omega) hs
    refine EndsWith.last_add (s := .lexText) (k2 + 1) h3 ?_
    simp
    have e : p.length + (b.length + 2 + 1 + 1) = p.length + 2 + b.length + 2 := by omega
    rw [e]
  · apply EndsWith.scan
    obtain ⟨k, w, h1⟩ := lexText_to_comment
      (lexer.new defaultCfg (p ++ [0x7B, 0x23] ++ r)) [] p r rfl (by simp [lexer.new]) rfl rfl hp
    refine EndsWith.step_add (s := .lexText) (k + 1) h1 ?_
    dsimp only [lexer.new]
    have h2 := lexComment_unclosed
      { cfg := defaultCfg, input := p ++ [0x7B, 0x23] ++ r,
        leftDelim := [], rightDelim := [], pos := ([] : List Nat).length + p.length,
        start := ([] : List Nat).length + p.length, width := w,
        items := [] ++ (if p = [] then [] else [⟨tokenText, ([] : List Nat).length, .text p⟩]),
        delimStack := [] } p r rfl rfl (by simp) (by simp) hr
    refine EndsWith.last (s := .lexComment) 0 (fun fuel _ => h2) ?_
    simp

/-- The text conditions hold of "a", " x ", "b" and " y", and the scan of
"a{# x #}b" sends plain-text("a"), comment-begin, plain-text(" x "),
comment-end, plain-text("b"), end-of-input. -/
theorem comment_scan_witness :
    ((∀ x ∈ bytes "a", x ≠ 0x7B) ∧ (∀ x ∈ bytes "b", x ≠ 0x7B) ∧
      ¬ bytes "#\x7d" <:+: bytes " x " ∧ ¬ bytes "#\x7d" <:+: bytes " y") ∧
    ((∃ N, ∀ fuel, N ≤ fuel →
      scan noTables defaultCfg (bytes "a" ++ bytes "\x7b#" ++ bytes " x " ++ bytes "#\x7d" ++
        bytes "b") fuel = .ok
        ((if bytes "a" = [] then [] else [⟨tokenText, 0, .text (bytes "a")⟩]) ++
         [⟨tokenCommentBegin, (bytes "a").length, .text (bytes "\x7b#")⟩] ++
         (if bytes " x " = [] then []
          else [⟨tokenText, (bytes "a").length + 2, .text (bytes " x ")⟩]) ++
         [⟨tokenCommentEnd, (bytes "a").length + 2 + (bytes " x ").length,
           .text (bytes "#\x7d")⟩] ++
         (if bytes "b" = [] then []
          else [⟨tokenText, (bytes "a").length + 2 + (bytes " x ").length + 2,
            .text (bytes "b")⟩]) ++
         [⟨tokenEOF, (bytes "a").length + 2 + (bytes " x ").length + 2 + (bytes "b").length,
           .text []⟩])) ∧
    (∃ N, ∀ fuel, N ≤ fuel →
      scan noTables defaultCfg (bytes "a" ++ bytes "\x7b#" ++ bytes " y") fuel = .ok
        ((if bytes "a" = [] then [] else [⟨tokenText, 0, .text (bytes "a")⟩]) ++
         [⟨tokenCommentBegin, (bytes "a").length, .text (bytes "\x7b#")⟩,
          ⟨tokenError, (bytes "a").length + 2, .unclosedComment⟩]))) ∧
    scan noTables defaultCfg (bytes "a\x7b# x #\x7db") 10 = .ok
      [⟨tokenText, 0, .text (bytes "a")⟩,
       ⟨tokenCommentBegin, 1, .text (bytes "\x7b#")⟩,
       ⟨tokenText, 3, .text (bytes " x ")⟩,
       ⟨tokenCommentEnd, 6, .text (bytes "#\x7d")⟩,
       ⟨tokenText, 8, .text (bytes "b")⟩,
       ⟨tokenEOF, 9, .text []⟩] ∧
    scan noTables defaultCfg (bytes "a\x7b# y") 10 = .ok
      [⟨tokenText, 0, .text (bytes "a")⟩,
       ⟨tokenCommentBegin, 1, .text (bytes "\x7b#")⟩,
       ⟨tokenError, 3, .unclosedComment⟩] :=
  ⟨⟨by decide, by decide, by decide, by decide⟩,
   comment_scan noTables (bytes "a") (bytes " x ") (bytes "b") (bytes " y") (by decide)
     (by decide) (by decide) (by decide),
   rfl, rfl⟩

/-- C17: with the variable delimiters `<<` and `>>`, the scan of "<< a>>"
sends variable-begin, whitespace and then the error item "bad character" for
the `>` after the identifier, and nothing more: atTerminator looks for the
end marker one byte after the current position, so that the identifier is
taken to be at a terminator in "<< a?>>", where the marker starts one byte
further, and not in "<< a>>". With a space before the marker the scan is the
expected one, and with the default delimiters "{{ a}}" is scanned as expected
because the closing brace is itself in the list of terminators. -/
theorem name_before_custom_end_marker (U : unicodeTables) (n : Nat) :
    scan U angleCfg (bytes "<< a>>") (n + 12) = .ok
      [⟨tokenVariableBegin, 0, .text (bytes "<<")⟩,
       ⟨tokenWhitespace, 2, .text (bytes " ")⟩,
       ⟨tokenError, 3, .badCharacter 0x3E⟩] ∧
    scan U angleCfg (bytes "<< a?>>") (n + 12) = .ok
      [⟨tokenVariableBegin, 0, .text (bytes "<<")⟩,
       ⟨tokenWhitespace, 2, .text (bytes " ")⟩,
       ⟨tokenName, 3, .text (bytes "a")⟩,
       ⟨tokenVariableEnd, 4, .text (bytes "?>>")⟩,
       ⟨tokenEOF, 7, .text []⟩] ∧
    scan U angleCfg (bytes "<< a >>") (n + 12) = .ok
      [⟨tokenVariableBegin, 0, .text (bytes "<<")⟩,
       ⟨tokenWhitespace, 2, .text (bytes " ")⟩,
       ⟨tokenName, 3, .text (bytes "a")⟩,
       ⟨tokenWhitespace, 4, .text (bytes " ")⟩,
       ⟨tokenVariableEnd, 5, .text (bytes ">>")⟩,
       ⟨tokenEOF, 7, .text []⟩] ∧
    scan U defaultCfg (bytes "\x7b\x7b a\x7d\x7d") (n + 12) = .ok
      [⟨tokenVariableBegin, 0, .text (bytes "\x7b\x7b")⟩,
       ⟨tokenWhitespace, 2, .text (bytes " ")⟩,
       ⟨tokenName, 3, .text (bytes "a")⟩,
       ⟨tokenVariableEnd, 4, .text (bytes "\x7d\x7d")⟩,
       ⟨tokenEOF, 6, .text []⟩] := by
  exact ⟨rfl, rfl, rfl, rfl⟩

/-- C18: on the source "{{ a & b }}" the scan stops at the lone `&` after
variable-begin, whitespace, name("a"), whitespace: it sends no error item
there (and no end-of-input); with `&&` in its place the scan sends the and
item and goes on to end-of-input. -/
theorem lone_ampersand_no_error (U : unicodeTables) (n : Nat) :
    scan U defaultCfg (bytes "\x7b\x7b a & b \x7d\x7d") (n + 12) = .ok
      [⟨tokenVariableBegin, 0, .text (bytes "\x7b\x7b")⟩,
       ⟨tokenWhitespace, 2, .text (bytes " ")⟩,
       ⟨tokenName, 3, .text (bytes "a")⟩,
       ⟨tokenWhitespace, 4, .text (bytes " ")⟩] ∧
    terminals
      [⟨tokenVariableBegin, 0, .text (bytes "\x7b\x7b")⟩,
       ⟨tokenWhitespace, 2, .text (bytes " ")⟩,
       ⟨tokenName, 3, .text (bytes "a")⟩,
       ⟨tokenWhitespace, 4, .text (bytes " ")⟩] = [] ∧
    scan U defaultCfg (bytes "\x7b\x7b a && b \x7d\x7d") (n + 20) = .ok
      [⟨tokenVariableBegin, 0, .text (bytes "\x7b\x7b")⟩,
       ⟨tokenWhitespace, 2, .text (bytes " ")⟩,
       ⟨tokenName, 3, .text (bytes "a")⟩,
       ⟨tokenWhitespace, 4, .text (bytes " ")⟩,
       ⟨tokenAnd, 5, .text (bytes "&&")⟩,
       ⟨tokenWhitespace, 7, .text (bytes " ")⟩,
       ⟨tokenName, 8, .text (bytes "b")⟩,
       ⟨tokenWhitespace, 9, .text (bytes " ")⟩,
       ⟨tokenVariableEnd, 10, .text (bytes "\x7d\x7d")⟩,
       ⟨tokenEOF, 12, .text []⟩] := by
  exact ⟨rfl, rfl, rfl⟩

/-- C19: on the source of a tag holding the back-quoted literal a\"b (a,
backslash, double quote, b) the string item has the offset 4, just after the
opening back-quote, but its text is the three bytes a"b: `emit` replaces every
backslash-quote pair in a string item, raw or not. A back-quoted literal
without such a pair, as ab, is sent byte for byte. -/
theorem raw_string_unescaped (U : unicodeTables) (n : Nat) :
    scan U defaultCfg (bytes "\x7b\x7b \x60a\\\x22b\x60 \x7d\x7d") (n + 20) = .ok
      [⟨tokenVariableBegin, 0, .text (bytes "\x7b\x7b")⟩,
       ⟨tokenWhitespace, 2, .text (bytes " ")⟩,
       ⟨tokenString, 4, .text (bytes "a\x22b")⟩,
       ⟨tokenWhitespace, 9, .text (bytes " ")⟩,
       ⟨tokenVariableEnd, 10, .text (bytes "\x7d\x7d")⟩,
       ⟨tokenEOF, 12, .text []⟩] ∧
    bytes "a\\\x22b" ≠ bytes "a\x22b" ∧
    scan U defaultCfg (bytes "\x7b\x7b \x60ab\x60 \x7d\x7d") (n + 20) = .ok
      [⟨tokenVariableBegin, 0, .text (bytes "\x7b\x7b")⟩,
       ⟨tokenWhitespace, 2, .text (bytes " ")⟩,
       ⟨tokenString, 4, .text (bytes "ab")⟩,
       ⟨tokenWhitespace, 7, .text (bytes " ")⟩,
       ⟨tokenVariableEnd, 8, .text (bytes "\x7d\x7d")⟩,
       ⟨tokenEOF, 10, .text []⟩] := by
  exact ⟨rfl, by decide, rfl⟩

theorem next_at_eof (l : lexer) (hpos : l.input.length ≤ l.pos) (hw : l.width = 0) :
    l.next = (eof, l) := by
  unfold lexer.next
  rw [if_pos hpos]
  cases l
  simp only at hw
  subst hw
  rfl

theorem lexStringLoop_eof (fuel : Nat) (prev : Int) (l : lexer)
    (hpos : l.input.length ≤ l.pos) (hw : l.width = 0) :
    lexStringLoop fuel eof prev l = .timeout l := by
  induction fuel generalizing prev with
  | zero => rfl
  | succ n ih =>
    rw [lexStringLoop]
    rw [if_pos (Or.inl (by decide))]
    simp only [next_at_eof l hpos hw]
    exact ih eof

theorem lexRawStringLoop_eof (fuel : Nat) (l : lexer)
    (hpos : l.input.length ≤ l.pos) (hw : l.width = 0) :
    lexRawStringLoop fuel eof l = .timeout l := by
  induction fuel with
  | zero => rfl
  | succ n ih =>
    rw [lexRawStringLoop]
    rw [if_pos (by decide)]
    simp only [next_at_eof l hpos hw]
    exact ih

theorem open_string_large_fuel (U : unicodeTables) (n : Nat) :
    scan U defaultCfg (bytes "\x7b\x7b \x22a") (n + 7) = .timeout (lexerInOpenString 0x22) := by
  have h : scan U defaultCfg (bytes "\x7b\x7b \x22a") (n + 7) =
      (((lexStringLoop n eof 0x61 (lexerInOpenString 0x22)).bind fun l =>
          l.emitString.bind fun l => .ok (l, some stateFn.lexInsideBlock)).bind fun ls =>
        match ls.2 with
        | none => .ok ls.1
        | some s' => runFrom U (n + 1) s' ls.1).bind fun l => .ok l.items := rfl
  rw [h, lexStringLoop_eof n _ _ (by decide) rfl]
  rfl

theorem open_raw_string_large_fuel (U : unicodeTables) (n : Nat) :
    scan U defaultCfg (bytes "\x7b\x7b \x60a") (n + 7) = .timeout (lexerInOpenString 0x60) := by
  have h : scan U defaultCfg (bytes "\x7b\x7b \x60a") (n + 7) =
      (((lexRawStringLoop n eof (lexerInOpenString 0x60)).bind fun l =>
          l.emitString.bind fun l => .ok (l, some stateFn.lexInsideBlock)).bind fun ls =>
        match ls.2 with
        | none => .ok ls.1
        | some s' => runFrom U (n + 1) s' ls.1).bind fun l => .ok l.items := rfl
  rw [h, lexRawStringLoop_eof n _ (by decide) rfl]
  rfl

/-- At the end of the input `lexString` and `lexRawString` return for no
fuel: `next` gives eof again and again, which is no closing quote. -/
theorem lexString_at_eof (fuel : Nat) (l : lexer) (hpos : l.input.length ≤ l.pos) :
    lexString fuel l = .timeout { l with width := 0 } ∧
    lexRawString fuel l = .timeout { l with width := 0 } := by
  have hn : l.next = (eof, { l with width := 0 }) := by
    unfold lexer.next
    rw [if_pos hpos]
  constructor
  · unfold lexString
    simp only [hn]
    rw [lexStringLoop_eof fuel 0 _ (by simpa using hpos) rfl]
    rfl
  · unfold lexRawString
    simp only [hn]
    rw [lexRawStringLoop_eof fuel _ (by simpa using hpos) rfl]
    rfl

/-- C15: the scan of a tag with a double-quoted string opened and not closed
before the end of the input, "{{ (quote)a", ends for no fuel: whatever the
fuel, the run is cut off, with neither an error nor an end-of-input item among
the items sent; from the fuel 7 on it is cut off inside `lexString`, at the end
of the input, where `next` returns eof for ever. The same holds of the
back-quoted string and `lexRawString`. -/
theorem open_string_never_ends (U : unicodeTables) (fuel : Nat) :
    (∃ l, scan U defaultCfg (bytes "\x7b\x7b \x22a") fuel = .timeout l ∧
      terminals l.items = []) ∧
    (∃ l, scan U defaultCfg (bytes "\x7b\x7b \x60a") fuel = .timeout l ∧
      terminals l.items = []) ∧
    scan U defaultCfg (bytes "\x7b\x7b \x22a") (fuel + 7) =
      .timeout (lexerInOpenString 0x22) ∧
    scan U defaultCfg (bytes "\x7b\x7b \x60a") (fuel + 7) =
      .timeout (lexerInOpenString 0x60) ∧
    (lexerInOpenString 0x22).pos = (lexerInOpenString 0x22).input.length ∧
    (lexerInOpenString 0x60).pos = (lexerInOpenString 0x60).input.length := by
  refine ⟨?_, ?_, open_string_large_fuel U fuel, open_raw_string_large_fuel U fuel, rfl, rfl⟩
  · by_cases h : 7 ≤ fuel
    · obtain ⟨n, rfl⟩ := Nat.exists_eq_add_of_le h
      rw [Nat.add_comm 7 n]
      exact ⟨_, open_string_large_fuel U n, rfl⟩
    · have h7 : fuel < 7 := Nat.lt_of_not_le h
      interval_cases fuel <;> exact ⟨_, rfl, rfl⟩
  · by_cases h : 7 ≤ fuel
    · obtain ⟨n, rfl⟩ := Nat.exists_eq_add_of_le h
      rw [Nat.add_comm 7 n]
      exact ⟨_, open_raw_string_large_fuel U n, rfl⟩
    · have h7 : fuel < 7 := Nat.lt_of_not_le h
      interval_cases fuel <;> exact ⟨_, rfl, rfl⟩

theorem Res.All_bind {α β : Type} {P : lexer → Prop} {Q : α → Prop} {R : β → Prop}
    {x : Res α} {f : α → Res β}
    (hx : x.All P Q) (hf : ∀ a, Q a → (f a).All P R) : (x >>= f).All P R := by
  cases x with
  | ok a => exact hf a hx
  | panic l => exact hx
  | timeout l => exact hx

theorem Res.All_ite {α : Type} {P : lexer → Prop} {Q : α → Prop} {c : Prop} [Decidable c]
    {x y : Res α} (hx : x.All P Q) (hy : y.All P Q) : (if c then x else y).All P Q := by
  split
  · exact hx
  · exact hy

theorem Res.All_mono {α : Type} {P : lexer → Prop} {Q Q' : α → Prop} {x : Res α}
    (hx : x.All P Q) (h : ∀ a, Q a → Q' a) : x.All P Q' := by
  cases x with
  | ok a => exact h a hx
  | panic l => exact hx
  | timeout l => exact hx

theorem ordered_width {src : List Nat} {l : lexer} (w : Nat) (h : ordered src l) :
    ordered src { l with width := w } := h

theorem decode_width_le (s : List Nat) : (DecodeRuneInString s).2 ≤ s.length := by
  cases s with
  | nil => simp [DecodeRuneInString]
  | cons b t => exact (decode_width b t).2.1

theorem ordered_next {src : List Nat} {l : lexer} (h : ordered src l) : fresh src l.next.2 := by
  obtain ⟨hin, hsp, hpl, hit, hpw⟩ := h
  unfold lexer.next
  split
  · exact ⟨⟨hin, hsp, hpl, hit, hpw⟩, by simpa using hsp⟩
  · have hw := decode_width_le (l.input.drop l.pos)
    rw [List.length_drop] at hw
    have hlen : l.input.length = src.length := by rw [hin]
    refine ⟨⟨hin, ?_, ?_, hit, hpw⟩, ?_⟩
    · simp only; omega
    · simp only; omega
    · simp only; omega

theorem next_frame (l : lexer) :
    l.next.2.cfg = l.cfg ∧ l.next.2.leftDelim = l.leftDelim ∧
    l.next.2.rightDelim = l.rightDelim ∧ l.next.2.start = l.start ∧
    l.next.2.items = l.items := by
  unfold lexer.next
  split <;> simp

theorem fresh_backup {src : List Nat} {l : lexer} (h : fresh src l) : ordered src l.backup := by
  obtain ⟨⟨hin, hsp, hpl, hit, hpw⟩, hf⟩ := h
  refine ⟨hin, ?_, ?_, hit, hpw⟩
  · simp only [lexer.backup]; omega
  · simp only [lexer.backup]; omega

theorem peek_eq (l : lexer) : l.peek.2 = { l with width := l.next.2.width } := by
  unfold lexer.peek lexer.backup lexer.next
  split <;> simp

theorem ordered_peek {src : List Nat} {l : lexer} (h : ordered src l) :
    ordered src l.peek.2 := by
  rw [peek_eq]
  exact h

theorem ordered_accept {src : List Nat} {l : lexer} (valid : Int) (h : ordered src l) :
    ordered src (l.accept valid).2 := by
  unfold lexer.accept
  simp only
  split
  · exact (ordered_next h).1
  · exact fresh_backup (ordered_next h)

theorem ordered_errorf {src : List Nat} {l : lexer} (msg : itemVal) (h : ordered src l) :
    ordered src (l.errorf msg) := by
  obtain ⟨hin, hsp, hpl, hit, hpw⟩ := h
  refine ⟨hin, hsp, hpl, ?_, ?_⟩
  · intro it hmem
    simp only [lexer.errorf, List.mem_append, List.mem_singleton] at hmem
    rcases hmem with hmem | rfl
    · exact hit it hmem
    · exact le_refl _
  · simp only [lexer.errorf]
    rw [List.pairwise_append]
    refine ⟨hpw, List.pairwise_singleton _ _, ?_⟩
    intro a ha b hb
    rw [List.mem_singleton] at hb
    subst hb
    exact hit a ha

theorem fresh_errorf {src : List Nat} {l : lexer} (msg : itemVal) (h : fresh src l) :
    fresh src (l.errorf msg) :=
  ⟨ordered_errorf msg h.1, h.2⟩

theorem ordered_expectDelim {src : List Nat} {l : lexer} (r : Int) (h : ordered src l) :
    ordered src (l.expectDelim r).2 := by
  unfold lexer.expectDelim
  split
  · exact ordered_errorf _ h
  · split
    · exact ordered_errorf _ h
    · exact h

theorem ordered_ignore {src : List Nat} {l : lexer} (h : ordered src l) :
    ordered src l.ignore := by
  obtain ⟨hin, hsp, hpl, hit, hpw⟩ := h
  exact ⟨hin, le_refl _, hpl, fun it hmem => le_trans (hit it hmem) hsp, hpw⟩

theorem ordered_emit {src : List Nat} {l : lexer} (t : itemType) (h : ordered src l) :
    (l.emit t).All (ordered src) (emitPost src l) := by
  obtain ⟨hin, hsp, hpl, hit, hpw⟩ := h
  unfold lexer.emit
  split
  · refine ⟨⟨hin, le_refl _, hpl, ?_, ?_⟩, rfl, rfl, rfl, rfl⟩
    · intro it hmem
      simp only [List.mem_append, List.mem_singleton] at hmem
      rcases hmem with hmem | rfl
      · exact le_trans (hit it hmem) hsp
      · exact hsp
    · simp only
      rw [List.pairwise_append]
      refine ⟨hpw, List.pairwise_singleton _ _, ?_⟩
      intro a ha b hb
      rw [List.mem_singleton] at hb
      subst hb
      exact hit a ha
  · exact ⟨hin, hsp, hpl, hit, hpw⟩

theorem emitPost_refl {src : List Nat} {l : lexer} (h : ordered src l) : emitPost src l l :=
  ⟨h, rfl, rfl, rfl, rfl⟩

theorem ordered_emitText {src : List Nat} {l : lexer} (h : ordered src l) :
    l.emitText.All (ordered src) (emitPost src l) := by
  unfold lexer.emitText
  split
  · exact ordered_emit _ h
  · exact emitPost_refl h

theorem ordered_emitLeft {src : List Nat} {l : lexer} (h : ordered src l) :
    l.emitLeft.All (ordered src) (emitPost src l) := by
  unfold lexer.emitLeft
  split_ifs
  · exact ordered_emit _ h
  · exact ordered_emit _ h
  · exact emitPost_refl h

theorem ordered_emitRight {src : List Nat} {l : lexer} (h : ordered src l) :
    l.emitRight.All (ordered src) (emitPost src l) := by
  unfold lexer.emitRight
  split_ifs
  · exact ordered_emit _ h
  · exact ordered_emit _ h
  · exact emitPost_refl h

theorem ordered_atTerminator {src : List Nat} {l : lexer} (h : ordered src l) :
    ordered src l.atTerminator.2 := by
  unfold lexer.atTerminator
  simp only
  split_ifs <;> exact ordered_peek h

theorem fresh_emitString {src : List Nat} {l : lexer} (h : fresh src l) :
    l.emitString.All (ordered src) (ordered src) := by
  unfold lexer.emitString
  refine Res.All_bind (ordered_emit _ (fresh_backup h)) fun a ha => ?_
  exact ordered_ignore (ordered_next ha.1).1
theorem ordered_lexTextEOF {src : List Nat} {l : lexer} (h : ordered src l) :
    (lexTextEOF l).All (ordered src) (stepPost src) := by
  unfold lexTextEOF
  refine Res.All_bind (ordered_emitText h) fun a ha => ?_
  refine Res.All_bind (ordered_emit _ ha.1) fun b hb => ?_
  exact ⟨hb.1, fun s hs => by simp at hs⟩

theorem ordered_lexTextDefault {src : List Nat} {l : lexer} (h : ordered src l) :
    (lexTextDefault l).All (ordered src) (stepPost src) :=
  ⟨(ordered_next h).1, fun s hs => by simp at hs⟩

theorem ordered_lexTextComment {src : List Nat} {l : lexer} (h : ordered src l) :
    (lexTextComment l).All (ordered src) (stepPost src) := by
  unfold lexTextComment
  split
  · rename_i hpre
    refine Res.All_bind (ordered_emitText h) fun a ha => ?_
    obtain ⟨hord, hpos, hcfg, -, -⟩ := ha
    refine ⟨hord, fun s hs => ?_⟩
    simp only [Res.pure_eq, Option.some.injEq] at hs
    subst hs
    simp only [statePre]
    rw [hord.1, hpos, hcfg, ← h.1]
    exact hpre
  · exact ordered_lexTextDefault h

theorem ordered_lexTextVariable {src : List Nat} {l : lexer} (h : ordered src l) :
    (lexTextVariable l).All (ordered src) (stepPost src) := by
  unfold lexTextVariable
  split
  · rename_i hpre
    refine Res.All_bind (ordered_emitText h) fun a ha => ?_
    obtain ⟨hord, hpos, hcfg, -, -⟩ := ha
    refine ⟨hord, fun s hs => ?_⟩
    simp only [Res.pure_eq, Option.some.injEq] at hs
    subst hs
    simp only [statePre]
    rw [hord.1, hpos, hcfg, ← h.1]
    exact hpre
  · exact ordered_lexTextComment h

theorem ordered_lexTextBlock {src : List Nat} {l : lexer} (h : ordered src l) :
    (lexTextBlock l).All (ordered src) (stepPost src) := by
  unfold lexTextBlock
  split
  · rename_i hpre
    refine Res.All_bind (ordered_emitText h) fun a ha => ?_
    obtain ⟨hord, hpos, hcfg, -, -⟩ := ha
    refine ⟨hord, fun s hs => ?_⟩
    simp only [Res.pure_eq, Option.some.injEq] at hs
    subst hs
    simp only [statePre]
    rw [hord.1, hpos, hcfg, ← h.1]
    exact hpre
  · exact ordered_lexTextVariable h

theorem ordered_lexTextStep {src : List Nat} {l : lexer} (h : ordered src l) :
    (lexTextStep l).All (ordered src) (stepPost src) := by
  unfold lexTextStep
  repeat' split
  all_goals first
    | exact h
    | exact ordered_lexTextEOF h
    | exact ordered_lexTextBlock h
    | exact ordered_lexTextVariable h
    | exact ordered_lexTextComment h
    | exact ordered_lexTextDefault h

theorem ordered_lexText {src : List Nat} (fuel : Nat) {l : lexer} (h : ordered src l) :
    (lexText fuel l).All (ordered src) (callPost src) := by
  induction fuel generalizing l with
  | zero => exact h
  | succ n ih =>
    unfold lexText
    refine Res.All_bind (ordered_lexTextStep h) fun a ha => ?_
    split
    · rename_i ret hret
      exact ⟨ha.1, fun s hs => ha.2 s (by rw [hret]; simp at hs; rw [hs])⟩
    · exact ih ha.1

theorem prefix_bound {src : List Nat} {l : lexer} {p : List Nat} (h : ordered src l)
    (hpre : HasPrefix (l.input.drop l.pos) p = true) : l.pos + p.length ≤ src.length := by
  have := HasPrefix_length hpre
  rw [List.length_drop, h.1] at this
  have := h.2.2.1
  omega

theorem ordered_lexBlock {src : List Nat} {l : lexer} (h : ordered src l)
    (hpre : statePre .lexBlock l) : (lexBlock l).All (ordered src) (callPost src) := by
  unfold lexBlock
  have hb := prefix_bound h hpre
  obtain ⟨hin, hsp, hpl, hit, hpw⟩ := h
  have h' : ordered src { l with pos := l.pos + l.leftDelim.length } :=
    ⟨hin, Nat.le_trans hsp (Nat.le_add_right _ _), hb, hit, hpw⟩
  refine Res.All_bind (ordered_emitLeft h') fun a ha => ?_
  exact ⟨ha.1, fun s hs => by simp only [Res.pure_eq, Option.some.injEq] at hs; subst hs; trivial⟩
theorem stepPost_loop {src : List Nat} {l : lexer} (h : ordered src l) :
    stepPost src (l, none) :=
  ⟨h, fun s hs => by simp at hs⟩

theorem stepPost_stop {src : List Nat} {l : lexer} (h : ordered src l) :
    stepPost src (l, some none) :=
  ⟨h, fun s hs => by simp at hs⟩

theorem ordered_emitAndLoop {src : List Nat} {l : lexer} (t : itemType) (h : ordered src l) :
    (emitAndLoop t l).All (ordered src) (stepPost src) := by
  unfold emitAndLoop
  exact Res.All_bind (ordered_emit t h) fun a ha => stepPost_loop ha.1

theorem ordered_emitByAccept {src : List Nat} {l : lexer} (valid : Int) (yes no : itemType)
    (h : ordered src l) : (emitByAccept valid yes no l).All (ordered src) (stepPost src) := by
  unfold emitByAccept
  simp only
  split
  · exact ordered_emitAndLoop _ (ordered_accept _ h)
  · exact ordered_emitAndLoop _ (ordered_accept _ h)

theorem ordered_emitOpener {src : List Nat} {l : lexer} (t : itemType) (closer : Int)
    (h : ordered src l) : (emitOpener t closer l).All (ordered src) (stepPost src) := by
  unfold emitOpener
  exact Res.All_bind (ordered_emit t h) fun a ha => stepPost_loop ha.1

theorem ordered_emitCloser {src : List Nat} {l : lexer} (r : Int) (t : itemType)
    (h : ordered src l) : (emitCloser r t l).All (ordered src) (stepPost src) := by
  unfold emitCloser
  simp only
  split
  · exact stepPost_stop (ordered_expectDelim r h)
  · exact ordered_emitAndLoop _ (ordered_expectDelim r h)

theorem ordered_lexOperator {src : List Nat} {l : lexer} (r : Int) (h : ordered src l) :
    (lexOperator r l).All (ordered src) (stepPost src) := by
  unfold lexOperator
  refine Res.All_ite (ordered_emitAndLoop _ h) ?_
  refine Res.All_ite (ordered_emitByAccept _ _ _ h) ?_
  refine Res.All_ite (ordered_emitAndLoop _ h) ?_
  refine Res.All_ite (ordered_emitAndLoop _ h) ?_
  refine Res.All_ite (ordered_emitAndLoop _ h) ?_
  refine Res.All_ite (ordered_emitAndLoop _ h) ?_
  refine Res.All_ite (ordered_emitByAccept _ _ _ h) ?_
  refine Res.All_ite (ordered_emitByAccept _ _ _ h) ?_
  refine Res.All_ite (ordered_emitByAccept _ _ _ h) ?_
  refine Res.All_ite (ordered_emitByAccept _ _ _ h) ?_
  refine Res.All_ite (ordered_emitByAccept _ _ _ h) ?_
  refine Res.All_ite ?_ ?_
  · exact Res.All_ite (ordered_emitAndLoop _ (ordered_accept _ h))
      (stepPost_stop (ordered_accept _ h))
  refine Res.All_ite (ordered_emitByAccept _ _ _ h) ?_
  refine Res.All_ite (ordered_emitOpener _ _ h) ?_
  refine Res.All_ite (ordered_emitOpener _ _ h) ?_
  refine Res.All_ite (ordered_emitOpener _ _ h) ?_
  refine Res.All_ite (ordered_emitCloser _ _ h) ?_
  refine Res.All_ite (ordered_emitCloser _ _ h) ?_
  refine Res.All_ite (ordered_emitCloser _ _ h) ?_
  exact stepPost_loop h

theorem stepPost_state {src : List Nat} {l : lexer} (s : stateFn) (h : ordered src l)
    (hs : statePre s l) : stepPost src (l, some (some s)) :=
  ⟨h, fun s' hs' => by simp only [Option.some.injEq] at hs'; subst hs'; exact hs⟩

theorem ordered_lexInsideBlockRune {src : List Nat} (U : unicodeTables) {l : lexer}
    (h : ordered src l) : (lexInsideBlockRune U l).All (ordered src) (stepPost src) := by
  unfold lexInsideBlockRune
  have hn := (ordered_next h).1
  refine Res.All_ite (stepPost_state _ hn trivial) ?_
  refine Res.All_ite (stepPost_state _ hn trivial) ?_
  refine Res.All_ite (stepPost_state _ hn trivial) ?_
  refine Res.All_ite (stepPost_state _ (ordered_ignore hn) trivial) ?_
  refine Res.All_ite (stepPost_state _ (ordered_ignore hn) trivial) ?_
  exact ordered_lexOperator _ hn

theorem ordered_lexInsideBlockStep {src : List Nat} (U : unicodeTables) {l : lexer}
    (h : ordered src l) : (lexInsideBlockStep U l).All (ordered src) (stepPost src) := by
  unfold lexInsideBlockStep
  refine Res.All_ite (stepPost_stop h) ?_
  refine Res.All_ite h ?_
  split
  · rename_i hpre
    have hb := prefix_bound h hpre
    refine Res.All_ite ?_ (ordered_lexInsideBlockRune U (ordered_peek h))
    have hp := ordered_peek h
    rw [peek_eq] at hp ⊢
    obtain ⟨hin, hsp, hpl, hit, hpw⟩ := hp
    have h' : ordered src { ({ l with width := l.next.2.width } : lexer) with
        pos := l.pos + l.rightDelim.length } :=
      ⟨hin, Nat.le_trans hsp (Nat.le_add_right _ _), hb, hit, hpw⟩
    exact Res.All_bind (ordered_emitRight h') fun a ha => stepPost_state _ ha.1 trivial
  · exact ordered_lexInsideBlockRune U h

theorem ordered_lexInsideBlock {src : List Nat} (U : unicodeTables) (fuel : Nat) {l : lexer}
    (h : ordered src l) : (lexInsideBlock U fuel l).All (ordered src) (callPost src) := by
  induction fuel generalizing l with
  | zero => exact h
  | succ n ih =>
    unfold lexInsideBlock
    refine Res.All_bind (ordered_lexInsideBlockStep U h) fun a ha => ?_
    split
    · rename_i ret hret
      exact ⟨ha.1, fun s hs => ha.2 s (by rw [hret]; simp at hs; rw [hs])⟩
    · exact ih ha.1
theorem ordered_lexSpaceLoop {src : List Nat} (fuel : Nat) {l : lexer} (h : ordered src l) :
    (lexSpaceLoop fuel l).All (ordered src) (ordered src) := by
  induction fuel generalizing l with
  | zero => exact h
  | succ n ih =>
    unfold lexSpaceLoop
    exact Res.All_ite (ih (ordered_next (ordered_peek h)).1) (ordered_peek h)

theorem callPost_state {src : List Nat} {l : lexer} (s : stateFn) (h : ordered src l)
    (hs : statePre s l) : callPost src (l, some s) :=
  ⟨h, fun s' hs' => by simp only [Option.some.injEq] at hs'; subst hs'; exact hs⟩

theorem callPost_stop {src : List Nat} {l : lexer} (h : ordered src l) :
    callPost src (l, none) :=
  ⟨h, fun s hs => by simp at hs⟩

theorem ordered_lexSpace {src : List Nat} (fuel : Nat) {l : lexer} (h : ordered src l) :
    (lexSpace fuel l).All (ordered src) (callPost src) := by
  unfold lexSpace
  refine Res.All_bind (ordered_lexSpaceLoop fuel h) fun a ha => ?_
  exact Res.All_bind (ordered_emit _ ha) fun b hb => callPost_state _ hb.1 trivial

theorem fresh_lexIdentifierEnd {src : List Nat} (r : Int) {l : lexer} (h : fresh src l) :
    (lexIdentifierEnd r l).All (ordered src) (callPost src) := by
  unfold lexIdentifierEnd
  have hb := fresh_backup h
  have ht := ordered_atTerminator hb
  refine Res.All_ite ?_ hb
  refine Res.All_ite (callPost_stop (ordered_errorf _ ht)) ?_
  refine Res.All_ite ?_ ?_
  · exact Res.All_bind (ordered_emit _ ht) fun b hb => callPost_state _ hb.1 trivial
  · exact Res.All_bind (ordered_emit _ ht) fun b hb => callPost_state _ hb.1 trivial

theorem ordered_lexIdentifier {src : List Nat} (U : unicodeTables) (fuel : Nat) {l : lexer}
    (h : ordered src l) : (lexIdentifier U fuel l).All (ordered src) (callPost src) := by
  induction fuel generalizing l with
  | zero => exact h
  | succ n ih =>
    unfold lexIdentifier
    exact Res.All_ite (ih (ordered_next h).1) (fresh_lexIdentifierEnd _ (ordered_next h))

theorem ordered_lexNumberLoop {src : List Nat} (U : unicodeTables) (fuel : Nat)
    (tokType : itemType) {l : lexer} (h : ordered src l) :
    (lexNumberLoop U fuel tokType l).All (ordered src) (callPost src) := by
  induction fuel generalizing l tokType with
  | zero => exact h
  | succ n ih =>
    unfold lexNumberLoop
    have hn := ordered_next h
    refine Res.All_ite (ih _ hn.1) ?_
    refine Res.All_ite ?_ ?_
    · exact Res.All_ite (ih _ hn.1) (ih _ (ordered_errorf _ hn.1))
    · exact Res.All_bind (ordered_emit _ (fresh_backup hn)) fun b hb =>
        callPost_state _ hb.1 trivial

theorem ordered_lexNumber {src : List Nat} (U : unicodeTables) (fuel : Nat) {l : lexer}
    (h : ordered src l) : (lexNumber U fuel l).All (ordered src) (callPost src) :=
  ordered_lexNumberLoop U fuel _ h

theorem fresh_lexStringLoop {src : List Nat} (fuel : Nat) (r prev : Int) {l : lexer}
    (h : fresh src l) : (lexStringLoop fuel r prev l).All (ordered src) (fresh src) := by
  induction fuel generalizing l r prev with
  | zero => exact h.1
  | succ n ih =>
    unfold lexStringLoop
    exact Res.All_ite (ih _ _ (ordered_next h.1)) h

theorem ordered_lexString {src : List Nat} (fuel : Nat) {l : lexer} (h : ordered src l) :
    (lexString fuel l).All (ordered src) (callPost src) := by
  unfold lexString
  refine Res.All_bind (fresh_lexStringLoop fuel _ _ (ordered_next h)) fun a ha => ?_
  exact Res.All_bind (fresh_emitString ha) fun b hb => callPost_state _ hb trivial

theorem fresh_lexRawStringLoop {src : List Nat} (fuel : Nat) (r : Int) {l : lexer}
    (h : fresh src l) : (lexRawStringLoop fuel r l).All (ordered src) (fresh src) := by
  induction fuel generalizing l r with
  | zero => exact h.1
  | succ n ih =>
    unfold lexRawStringLoop
    exact Res.All_ite (ih _ (ordered_next h.1)) h

theorem ordered_lexRawString {src : List Nat} (fuel : Nat) {l : lexer} (h : ordered src l) :
    (lexRawString fuel l).All (ordered src) (callPost src) := by
  unfold lexRawString
  refine Res.All_bind (fresh_lexRawStringLoop fuel _ (ordered_next h)) fun a ha => ?_
  exact Res.All_bind (fresh_emitString ha) fun b hb => callPost_state _ hb trivial

theorem Index_bound (s sep : List Nat) (i : Nat) (h : Index s sep = some i) :
    i + sep.length ≤ s.length := by
  induction s generalizing i with
  | nil =>
    rw [Index_nil] at h
    split at h
    · rename_i hp
      have := HasPrefix_length hp
      simp only [Option.some.injEq] at h
      omega
    · simp at h
  | cons x t ih =>
    rw [Index_cons] at h
    split at h
    · rename_i hp
      have := HasPrefix_length hp
      simp only [Option.some.injEq] at h
      omega
    · cases hj : Index t sep with
      | none => simp [hj] at h
      | some j =>
        have := ih j hj
        simp only [hj, Option.map_some', Option.some.injEq] at h
        simp only [List.length_cons]
        omega

theorem ordered_lexComment {src : List Nat} {l : lexer} (h : ordered src l)
    (hpre : statePre .lexComment l) : (lexComment l).All (ordered src) (callPost src) := by
  unfold lexComment
  have hb := prefix_bound h hpre
  obtain ⟨hin, hsp, hpl, hit, hpw⟩ := h
  have h' : ordered src { l with pos := l.pos + l.cfg.CommentStartString.length } :=
    ⟨hin, Nat.le_trans hsp (Nat.le_add_right _ _), hb, hit, hpw⟩
  refine Res.All_bind (ordered_emit _ h') fun a ha => ?_
  obtain ⟨⟨hin1, hsp1, hpl1, hit1, hpw1⟩, -, -, -, -⟩ := ha
  split
  · exact callPost_stop (ordered_errorf _ ⟨hin1, hsp1, hpl1, hit1, hpw1⟩)
  · rename_i i hi
    have hbound := Index_bound _ _ _ hi
    rw [List.length_drop, hin1] at hbound
    have h2 : ordered src { a with pos := a.pos + i } :=
      ⟨hin1, Nat.le_trans hsp1 (Nat.le_add_right _ _), by simp only; omega, hit1, hpw1⟩
    refine Res.All_bind (ordered_emitText h2) fun b hb => ?_
    obtain ⟨⟨hin2, hsp2, hpl2, hit2, hpw2⟩, hpos2, hcfg2, -, -⟩ := hb
    have h3 : ordered src { b with pos := b.pos + b.cfg.CommentEndString.length } := by
      refine ⟨hin2, Nat.le_trans hsp2 (Nat.le_add_right _ _), ?_, hit2, hpw2⟩
      simp only [hpos2, hcfg2]
      omega
    exact Res.All_bind (ordered_emit _ h3) fun c hc => callPost_state _ hc.1 trivial
theorem ordered_call {src : List Nat} (U : unicodeTables) (s : stateFn) (fuel : Nat)
    {l : lexer} (h : ordered src l) (hpre : statePre s l) :
    (s.call U fuel l).All (ordered src) (callPost src) := by
  cases s with
  | lexText => exact ordered_lexText fuel h
  | lexBlock => exact ordered_lexBlock h hpre
  | lexInsideBlock => exact ordered_lexInsideBlock U fuel h
  | lexSpace => exact ordered_lexSpace fuel h
  | lexIdentifier => exact ordered_lexIdentifier U fuel h
  | lexNumber => exact ordered_lexNumber U fuel h
  | lexString => exact ordered_lexString fuel h
  | lexRawString => exact ordered_lexRawString fuel h
  | lexComment => exact ordered_lexComment h hpre

theorem ordered_runFrom {src : List Nat} (U : unicodeTables) (fuel : Nat) (s : stateFn)
    {l : lexer} (h : ordered src l) (hpre : statePre s l) :
    (runFrom U fuel s l).All (ordered src) (ordered src) := by
  induction fuel generalizing s l with
  | zero => exact h
  | succ n ih =>
    rw [runFrom_succ]
    refine Res.All_bind (ordered_call U s n h hpre) fun a ha => ?_
    split
    · exact ha.1
    · rename_i s' hs'
      exact ih s' ha.1 (ha.2 s' hs')

theorem ordered_new (cfg : lexerCfg) (input : List Nat) : ordered input (lexer.new cfg input) :=
  ⟨rfl, le_refl _, Nat.zero_le _, fun it hit => by simp [lexer.new] at hit, List.Pairwise.nil⟩

/-- C16: for every source, every configuration and every fuel, however the
run ends (with its last state function returning nil, with a panic, or cut
off by the fuel, which happens at every round of every loop for some fuel),
the scanner then has `start ≤ pos ≤ len(source)`, on the unchanged source, the
offsets of the items sent do not decrease in the order of sending, and each is
at most `start`, so between 0 and the length of the source; error items
are among the items. And whenever `emit` sends an item, `start ≤ pos ≤
len(input)` holds of the lexer it is called on. -/
theorem offsets_ordered (U : unicodeTables) (cfg : lexerCfg) (input : List Nat) (fuel : Nat) :
    (run U fuel (lexer.new cfg input)).All
      (fun l => l.input = input ∧ l.start ≤ l.pos ∧ l.pos ≤ input.length ∧
        (∀ it ∈ l.items, it.pos ≤ l.start) ∧ l.items.Pairwise fun a b => a.pos ≤ b.pos)
      (fun l => l.input = input ∧ l.start ≤ l.pos ∧ l.pos ≤ input.length ∧
        (∀ it ∈ l.items, it.pos ≤ l.start) ∧ l.items.Pairwise fun a b => a.pos ≤ b.pos) ∧
    (scan U cfg input fuel).All
      (fun l => (l.items.Pairwise fun a b => a.pos ≤ b.pos) ∧
        ∀ it ∈ l.items, 0 ≤ it.pos ∧ it.pos ≤ input.length)
      (fun items => (items.Pairwise fun a b => a.pos ≤ b.pos) ∧
        ∀ it ∈ items, 0 ≤ it.pos ∧ it.pos ≤ input.length) ∧
    (∀ (l : lexer) (t : itemType), (l.emit t).All (fun _ => True)
      (fun l' => l.start ≤ l.pos ∧ l.pos ≤ l.input.length ∧
        ∃ v, l'.items = l.items ++ [⟨t, l.start, v⟩])) := by
  have hrun : (run U fuel (lexer.new cfg input)).All (ordered input) (ordered input) :=
    ordered_runFrom U fuel .lexText (ordered_new cfg input) trivial
  refine ⟨hrun, ?_, ?_⟩
  · unfold scan
    cases hr : run U fuel (lexer.new cfg input) with
    | ok l =>
      rw [hr] at hrun
      obtain ⟨-, hsp, hpl, hit, hpw⟩ := hrun
      exact ⟨hpw, fun it hmem => ⟨Nat.zero_le _, by have := hit it hmem; omega⟩⟩
    | panic l =>
      rw [hr] at hrun
      obtain ⟨-, hsp, hpl, hit, hpw⟩ := hrun
      exact ⟨hpw, fun it hmem => ⟨Nat.zero_le _, by have := hit it hmem; omega⟩⟩
    | timeout l =>
      rw [hr] at hrun
      obtain ⟨-, hsp, hpl, hit, hpw⟩ := hrun
      exact ⟨hpw, fun it hmem => ⟨Nat.zero_le _, by have := hit it hmem; omega⟩⟩
  · intro l t
    unfold lexer.emit
    split
    · rename_i hg
      exact ⟨hg.1, hg.2, _, rfl⟩
    · trivial

end jigo
